import Mathlib

/-!
# bigint.hpp: a shallow embedding and its checked properties

The C++ class `bigint` stores one private member, `std::vector<uint8_t> digits`:
entry 0 is the sign slot (0 negative, 1 positive), the decimal digits follow,
most significant first.  The embedding keeps that vector as a `List Nat` and
translates every constructor and operator of `bigint.hpp` body by body.

Conventions of the translation:

* `v[i]` on a vector is a checked read (`idx`): an index outside the vector is
  undefined behaviour in C++ and is reported as `Fault.out_of_range`.
* `uint8_t`, `int16_t` and `int` arithmetic is carried out on `Nat`/`Int`
  and wrapped explicitly (`u8`, `i16`, `i32`).
* `operator+=` and `operator-=` call each other; the embedding threads a call
  depth budget through the two functions.  The longest chain in the source is
  `-=`, `+=`, `-=`: a budget above three never changes a result
  (`sub_assign_depth_stable`, `add_assign_depth_stable3`).
* The compound operators take their operands by reference: they return the
  pair (new left operand, new right operand).
* Strings and stream contents are lists of characters.
-/

namespace BigInt

/-! ## Data model -/

/-- The member `std::vector<uint8_t> digits`. -/
abbrev bigint := List Nat

/-- What a vector operation can run into: an index outside the vector
(undefined behaviour in the source), or an exhausted call depth budget of the
mutually recursive compound operators. -/
inductive Fault where
  | out_of_range
  | call_depth
deriving DecidableEq, Repr

/-- The exceptions of `<stdexcept>` the string constructor can meet. -/
inductive Exception where
  | invalid_argument
  | out_of_range
deriving DecidableEq, Repr

deriving instance DecidableEq for Except

/-- Conversion to `uint8_t`. -/
def u8 (x : Int) : Nat := (x % 256).toNat

/-- Conversion to `int16_t` (two's complement wrap-around). -/
def i16 (x : Int) : Int := (x + 32768) % 65536 - 32768

/-- Conversion to `int` (32 bits, two's complement wrap-around). -/
def i32 (x : Int) : Int := (x + 2147483648) % 4294967296 - 2147483648

/-- The call `abs(number_int64)` of the integer constructor.  It is
unqualified, and the only `abs` that the includes of `bigint.hpp` declare in
the global namespace is the C library's `int abs(int)`: the `int64_t` argument
is converted to `int`, the absolute value is taken in `int` (on the most
negative `int` the negation wraps), and the `int` result is converted back to
`int64_t`. -/
def abs_int (x : Int) : Int := i32 |i32 x|

/-- Checked read `v[i]`. -/
def idx (v : List Nat) (i : Nat) : Except Fault Nat :=
  match v[i]? with
  | some x => .ok x
  | none => .error .out_of_range

/-- The test `v.get_vec()[0] == s`. -/
def sign_is (v : bigint) (s : Nat) : Except Fault Bool :=
  (idx v 0).map (fun x => decide (x = s))

/-- Short-circuit `&&`: the right operand is evaluated only when the left one
is true. -/
def and_then (a b : Except Fault Bool) : Except Fault Bool :=
  a.bind (fun x => if x then b else .ok false)

/-! ## Constructors -/

/-- The default constructor `bigint()`: the integer 0. -/
def zero : bigint := [1, 0]

/-- The loop `while (number_int64_magnitude > 0)` of the `int64_t` constructor:
the last decimal digit is inserted at the front, then dropped from the
magnitude.  The first argument bounds the number of iterations; the magnitude
itself always suffices, since every iteration divides it by ten. -/
def peel_digits : Nat → Int → List Nat → List Nat
  | 0, _, digits => digits
  | fuel + 1, magnitude, digits =>
    if magnitude > 0 then
      peel_digits fuel (magnitude / 10) (u8 (magnitude % 10) :: digits)
    else digits

/-- The constructor `bigint(int64_t &number_int64)`; the magnitude is what
the call `abs(number_int64)` returns (`abs_int`). -/
def of_int64 (number_int64 : Int) : bigint :=
  if number_int64 = 0 then [1, 0]
  else
    let number_int64_magnitude := abs_int number_int64
    let digits := peel_digits number_int64_magnitude.toNat number_int64_magnitude []
    if number_int64 < 0 then 0 :: digits else 1 :: digits

/-- White space as `strtol` skips it. -/
def isspace (c : Char) : Bool := c = ' ' || (9 ≤ c.toNat && c.toNat ≤ 13)

/-- The optional sign `strtol` reads: whether it is a minus, and the
characters after it. -/
def stoi_sign (body : List Char) : Bool × List Char :=
  match body with
  | '-' :: t => (true, t)
  | '+' :: t => (false, t)
  | _ => (false, body)

/-- The conversion `std::stoi(s)`: skip white space, read an optional sign, then the longest
run of decimal digits; no digit is `invalid_argument`, a value outside `int`
is `out_of_range`. -/
def stoi (s : List Char) : Except Exception Int :=
  let body := s.dropWhile isspace
  let signed := stoi_sign body
  let run := signed.2.takeWhile Char.isDigit
  if run = [] then .error .invalid_argument
  else
    let value : Int := run.foldl (fun acc c => 10 * acc + ((c.toNat : Int) - 48)) 0
    let result := if signed.1 then -value else value
    if result < -2147483648 ∨ 2147483647 < result then .error .out_of_range
    else .ok result

/-- The call `getline(string_stream, s)`: fails when nothing is left to extract;
otherwise delivers the characters before the next newline and consumes the
newline. -/
def getline (stream : List Char) : Option (List Char × List Char) :=
  if stream = [] then none
  else some (stream.takeWhile (fun c => c ≠ '\n'), (stream.dropWhile (fun c => c ≠ '\n')).drop 1)

/-- The loop `while (getline(string_stream, s)) digits.push_back((uint8_t)stoi(s));`
Every successful `getline` consumes a character, so a bound of the stream
length plus one is never reached. -/
def read_lines : Nat → List Char → List Nat → Except Exception (List Nat)
  | 0, _, digits => .ok digits
  | fuel + 1, stream, digits =>
    match getline stream with
    | none => .ok digits
    | some (s, rest) =>
      match stoi s with
      | .error e => .error e
      | .ok v => read_lines fuel rest (digits ++ [u8 v])

/-- One iteration of the constructor's `for` loop: the character becomes a
one-character stream, whose lines are converted; the handler turns
`invalid_argument` into a fresh `invalid_argument`. -/
def push_char (c : Char) (digits : List Nat) : Except Exception (List Nat) :=
  match read_lines ([c].length + 1) [c] digits with
  | .error .invalid_argument => .error .invalid_argument
  | r => r

/-- The constructor's `for` loop over the remaining characters. -/
def parse_loop : List Char → List Nat → Except Exception (List Nat)
  | [], digits => .ok digits
  | c :: cs, digits =>
    match push_char c digits with
    | .error e => .error e
    | .ok digits1 => parse_loop cs digits1

/-- The constructor `bigint(const std::string &string_in)`.  `string_in[0]` of an empty string
is the terminating null character. -/
def of_string (string_in : List Char) : Except Exception bigint :=
  let c0 := string_in.headD (Char.ofNat 0)
  if c0 = '-' then parse_loop (string_in.drop 1) [0]
  else if c0 = '+' then parse_loop (string_in.drop 1) [1]
  else parse_loop string_in [1]

/-! ## Output -/

/-- The output operator `operator<<`: the text appended to the stream.  Each entry is printed as
a `uint16_t`, that is in decimal. -/
def operator_lshift (out : List Char) (big_integ : bigint) : Except Fault (List Char) :=
  match idx big_integ 0 with
  | .error e => .error e
  | .ok s =>
    if s = 0 ∧ big_integ.length > 1 then
      .ok ((big_integ.drop 1).foldl (fun o d => o ++ Nat.toDigits 10 d) (out ++ ['-']))
    else if s = 1 then
      .ok ((big_integ.drop 1).foldl (fun o d => o ++ Nat.toDigits 10 d) out)
    else .ok out

/-! ## Comparison -/

/-- The operator `operator==`. -/
def operator_eq (lhs rhs : bigint) : Bool :=
  if lhs.length ≠ rhs.length then false
  else (List.range lhs.length).all (fun i => decide (lhs[i]? = rhs[i]?))

/-- The operator `operator!=`. -/
def operator_ne (lhs rhs : bigint) : Bool := !(operator_eq lhs rhs)

/-- The digit loop of `operator>` for two negative values, from index `i` on,
with `n` entries left. -/
def gt_scan_negative (lhs rhs : bigint) : Nat → Nat → Except Fault Bool
  | 0, _ => .ok false
  | n + 1, i =>
    match idx lhs i, idx rhs i with
    | .ok l, .ok r =>
      if l > r then .ok false
      else if l < r then .ok true
      else gt_scan_negative lhs rhs n (i + 1)
    | .error e, _ => .error e
    | _, .error e => .error e

/-- The digit loop of `operator>` in the other branch. -/
def gt_scan_positive (lhs rhs : bigint) : Nat → Nat → Except Fault Bool
  | 0, _ => .ok false
  | n + 1, i =>
    match idx lhs i, idx rhs i with
    | .ok l, .ok r =>
      if l < r then .ok false
      else if l > r then .ok true
      else gt_scan_positive lhs rhs n (i + 1)
    | .error e, _ => .error e
    | _, .error e => .error e

/-- The operator `operator>`. -/
def operator_gt (lhs rhs : bigint) : Except Fault Bool := do
  if ← and_then (sign_is lhs 1) (sign_is rhs 0) then return true
  if ← and_then (sign_is lhs 0) (sign_is rhs 1) then return false
  if ← and_then (sign_is lhs 0) (sign_is rhs 0) then
    if lhs.length > rhs.length then return false
    if lhs.length < rhs.length then return true
    gt_scan_negative lhs rhs (lhs.length - 1) 1
  else
    if lhs.length > rhs.length then return true
    if lhs.length < rhs.length then return false
    gt_scan_positive lhs rhs (lhs.length - 1) 1

/-- The operator `operator>=`: `(lhs > rhs) || (lhs == rhs)`. -/
def operator_ge (lhs rhs : bigint) : Except Fault Bool := do
  if ← operator_gt lhs rhs then return true
  return operator_eq lhs rhs

/-- The operator `operator<`: `!(lhs >= rhs)`. -/
def operator_lt (lhs rhs : bigint) : Except Fault Bool := do
  return !(← operator_ge lhs rhs)

/-- The operator `operator<=`: `!(lhs > rhs)`. -/
def operator_le (lhs rhs : bigint) : Except Fault Bool := do
  return !(← operator_gt lhs rhs)

/-! ## Negation, addition and subtraction -/

/-- Unary `operator-`: only the sign slot is rewritten. -/
def operator_neg (big : bigint) : Except Fault bigint :=
  match idx big 0 with
  | .error e => .error e
  | .ok s => if s = 0 then .ok (big.set 0 1) else .ok (big.set 0 0)

/-- The digit `i` places from the right end of `v`, or 0 beyond its entries:
`if (i < v.size()) v[v.size() - i] else 0`. -/
def digit_from_right (v : bigint) (i : Nat) : Except Fault Nat :=
  if i < v.length then idx v (v.length - i) else .ok 0

/-- The `for` loop of the same-sign branch of `operator+=`, from index `i` on,
with `n` iterations left. -/
def add_loop (lhs rhs : bigint) : Nat → Nat → Nat → List Nat → Except Fault (List Nat)
  | 0, _, _, result => .ok result
  | n + 1, i, carry, result =>
    match digit_from_right lhs i, digit_from_right rhs i with
    | .ok up, .ok dn =>
      let sum := (up + dn + carry) % 256
      if sum ≥ 10 then add_loop lhs rhs n (i + 1) 1 (result ++ [sum - 10])
      else add_loop lhs rhs n (i + 1) 0 (result ++ [sum])
    | .error e, _ => .error e
    | _, .error e => .error e

/-- The same-sign branch of `operator+=` (its final `else`): the new left
operand. -/
def add_same_sign (lhs rhs : bigint) : Except Fault bigint := do
  let max_size := max lhs.length rhs.length
  let result ← add_loop lhs rhs max_size 1 0 []
  let result := result.reverse
  let result := if (← idx result 0) = 0 then result.drop 1 else result
  let result := if ← and_then (sign_is lhs 0) (sign_is rhs 0) then 0 :: result else result
  let result := if ← and_then (sign_is lhs 1) (sign_is rhs 1) then 1 :: result else result
  return result

/-- The `for` loop of the last branch of `operator-=`; the iteration with `i`
beyond both operands is skipped by `continue`. -/
def sub_loop (lhs rhs : bigint) : Nat → Nat → Int → List Nat → Except Fault (List Nat)
  | 0, _, _, result => .ok result
  | n + 1, i, carry, result =>
    if i ≥ lhs.length ∧ i ≥ rhs.length then sub_loop lhs rhs n (i + 1) carry result
    else
      match digit_from_right lhs i, digit_from_right rhs i with
      | .ok up, .ok dn =>
        let sub := i16 ((up : Int) - (dn : Int) - carry)
        if sub < 0 then sub_loop lhs rhs n (i + 1) 1 (result ++ [u8 (i16 (sub + 10))])
        else sub_loop lhs rhs n (i + 1) 0 (result ++ [u8 sub])
      | .error e, _ => .error e
      | _, .error e => .error e

/-- The last branch of `operator-=` (its final `else`): the new left and right
operands.  When `rhs > lhs` the two operands are exchanged first, so the right
operand then leaves with the old left value. -/
def sub_magnitudes (lhs rhs : bigint) : Except Fault (bigint × bigint) := do
  let swap ← operator_gt rhs lhs
  let sign_f := if swap then 1 else 0
  let (lhs, rhs) := if swap then (rhs, lhs) else (lhs, rhs)
  let max_size := max lhs.length rhs.length
  let result ← sub_loop lhs rhs max_size 1 0 []
  let result := result.reverse
  let result := if (← idx result 0) = 0 then result.drop 1 else result
  let result := if sign_f = 1 then 0 :: result else 1 :: result
  let result := if (← idx result 1) = 0 then result.eraseIdx 1 else result
  return (result, rhs)

mutual

/-- The operator `operator+=` with a call depth budget: the new left and right operands. -/
def add_assign_depth : Nat → bigint → bigint → Except Fault (bigint × bigint)
  | 0, _, _ => .error .call_depth
  | depth + 1, lhs, rhs =>
    if operator_eq lhs zero then .ok (rhs, rhs)
    else if operator_eq rhs zero then .ok (lhs, rhs)
    else do
      if ← and_then (sign_is lhs 0) (sign_is rhs 1) then
        let temp ← operator_neg lhs
        sub_assign_depth depth rhs temp
      else if ← and_then (sign_is lhs 1) (sign_is rhs 0) then
        let temp2 ← operator_neg rhs
        let r ← sub_assign_depth depth lhs temp2
        return (r.1, rhs)
      else
        let result ← add_same_sign lhs rhs
        return (result, rhs)

/-- The operator `operator-=` with a call depth budget: the new left and right operands. -/
def sub_assign_depth : Nat → bigint → bigint → Except Fault (bigint × bigint)
  | 0, _, _ => .error .call_depth
  | depth + 1, lhs, rhs =>
    if operator_eq lhs zero then do
      let negated ← operator_neg rhs
      return (negated, rhs)
    else if operator_eq rhs zero then .ok (lhs, rhs)
    else do
      if ← and_then (sign_is lhs 1) (sign_is rhs 0) then
        let temp ← operator_neg rhs
        let r ← add_assign_depth depth lhs temp
        return (r.1, rhs)
      else if ← and_then (sign_is lhs 0) (sign_is rhs 0) then
        let temp2 ← operator_neg rhs
        let r ← add_assign_depth depth lhs temp2
        return (r.1, rhs)
      else if ← and_then (sign_is lhs 0) (sign_is rhs 1) then
        let temp3 ← operator_neg rhs
        let r ← add_assign_depth depth lhs temp3
        return (r.1, rhs)
      else sub_magnitudes lhs rhs

end

/-- The longest call chain between the two compound operators. -/
def max_depth : Nat := 3

/-- The operator `operator+=`. -/
def operator_add_assign (lhs rhs : bigint) : Except Fault (bigint × bigint) :=
  add_assign_depth max_depth lhs rhs

/-- The operator `operator-=`. -/
def operator_sub_assign (lhs rhs : bigint) : Except Fault (bigint × bigint) :=
  sub_assign_depth max_depth lhs rhs

/-- Binary `operator+`: both operands are copies. -/
def operator_add (lhs rhs : bigint) : Except Fault bigint :=
  (operator_add_assign lhs rhs).map Prod.fst

/-- Binary `operator-`: both operands are copies. -/
def operator_sub (lhs rhs : bigint) : Except Fault bigint :=
  (operator_sub_assign lhs rhs).map Prod.fst

/-! ## Multiplication -/

/-- The inner `for` loop of `operator*=` over `j`, for the row of index `i`,
with `j + 1` as first argument; the state is the carry and the row built so
far.  `carry`, `product` are `int16_t`. -/
def mul_cols (lhs rhs : bigint) (i : Nat) : Nat → Int → List Nat → Except Fault (Int × List Nat)
  | 0, carry, result => .ok (carry, result)
  | j + 1, carry, result =>
    if i = 0 ∧ j = 0 then mul_cols lhs rhs i j carry result
    else
      let factors : Except Fault Int :=
        if i = 0 ∨ j = 0 then .ok 0
        else
          match idx lhs i, idx rhs j with
          | .ok l, .ok r => .ok (i16 ((l : Int) * (r : Int)))
          | .error e, _ => .error e
          | _, .error e => .error e
      match factors with
      | .error e => .error e
      | .ok product0 =>
        let product1 := i16 (product0 + carry)
        let carry1 := if product1 ≥ 10 then i16 (product1 / 10) else 0
        let product := if product1 ≥ 10 then product1 % 10 else product1
        if product ≥ 10 then
          mul_cols lhs rhs i j carry1 (u8 (product / 10) :: u8 (product % 10) :: result)
        else mul_cols lhs rhs i j carry1 (u8 product :: result)

/-- The body of the outer `for` loop of `operator*=` for the row of index `i`:
from the carry and `prev` to the carry and the new `current`. -/
def mul_row (lhs rhs : bigint) (i : Nat) (carry : Int) (prev : bigint) :
    Except Fault (Int × bigint) := do
  let row := i16 (i16 lhs.length - (i : Int) - 1)
  let j0 := i16 (i16 rhs.length - 1)
  let (carry, result) ← mul_cols lhs rhs i (j0 + 1).toNat carry []
  let result := if (← idx result 0) = 0 then result.drop 1 else result
  let result := 1 :: result
  let result := result ++ List.replicate row.toNat 0
  let (current, _) ← operator_add_assign result prev
  return (carry, current)

/-- The outer `for` loop of `operator*=` over `i`, with `i + 1` as first
argument; the state is the carry, `prev` and `current` (after the body
`prev = current`). -/
def mul_rows (lhs rhs : bigint) : Nat → Int × bigint × bigint → Except Fault (Int × bigint × bigint)
  | 0, state => .ok state
  | i + 1, state =>
    (mul_row lhs rhs i state.1 state.2.1).bind
      (fun next => mul_rows lhs rhs i (next.1, next.2, next.2))

/-- The operator `operator*=`: the new left operand (the right one is `const`). -/
def operator_mul_assign (lhs rhs : bigint) : Except Fault bigint :=
  if operator_eq lhs zero || operator_eq rhs zero then .ok zero
  else do
    let sign ←
      (do
        if ← and_then (sign_is lhs 0) (sign_is rhs 1) then return 0
        else if ← and_then (sign_is lhs 1) (sign_is rhs 0) then return 0
        else
          let l ← idx lhs 0
          let r ← idx rhs 0
          if l = r then return 1 else return 1 : Except Fault Nat)
    let i0 := i16 (i16 lhs.length - 1)
    let (_, _, current) ← mul_rows lhs rhs (i0 + 1).toNat (0, zero, zero)
    let _ ← idx current 0
    return current.set 0 sign

/-- Binary `operator*`: the left operand is a copy. -/
def operator_mul (lhs rhs : bigint) : Except Fault bigint :=
  operator_mul_assign lhs rhs

/-! ## Increment and exponentiation -/

/-- Post-increment `operator++(bigint &big, int)`: a copy of `big` is kept,
the value built from the integer 1 is added to `big` with `operator+=`, and
the copy is returned.  The pair is (value returned, new `big`). -/
def operator_post_increment (big : bigint) : Except Fault (bigint × bigint) :=
  let temp := big
  let temp_bigint := of_int64 1
  (operator_add_assign big temp_bigint).map (fun r => (temp, r.1))

/-- The `for` loop of `power`, `for (i = zero; i < big_b; i++) result *= *this;`,
entered with the counter `i` and `result`.  The first argument bounds the
number of evaluations of the guard: `none` means that the guard was still
true after that many evaluations.  The last argument counts the
multiplications performed; it is returned next to `result`. -/
def power_loop (self big_b : bigint) :
    Nat → bigint → bigint → Nat → Option (Except Fault (bigint × Nat))
  | 0, _, _, _ => none
  | fuel + 1, i, result, count =>
    match operator_lt i big_b with
    | .error e => some (.error e)
    | .ok false => some (.ok (result, count))
    | .ok true =>
      match operator_mul_assign result self with
      | .error e => some (.error e)
      | .ok result1 =>
        match operator_post_increment i with
        | .error e => some (.error e)
        | .ok next => power_loop self big_b fuel next.2 result1 (count + 1)

/-- The member function `power(bigint &big_b)`: `result` starts as the value
built from the integer 1 and the counter as the default value zero. -/
def power (self big_b : bigint) (fuel : Nat) : Option (Except Fault (bigint × Nat)) :=
  power_loop self big_b fuel zero (of_int64 1) 0

/-! ## Pre-increment, decrement and random generation -/

/-- Pre-increment `operator++(bigint &big)`: the value built from the integer
1 is added to `big` with `operator+=` and `big` is returned.  The pair is
(value returned, new `big`). -/
def operator_pre_increment (big : bigint) : Except Fault (bigint × bigint) :=
  let temp_bigint := of_int64 1
  (operator_add_assign big temp_bigint).map (fun r => (r.1, r.1))

/-- Pre-decrement `operator--(bigint &big)`: the value built from the integer
1 is subtracted from `big` with `operator-=` and `big` is returned.  The pair
is (value returned, new `big`). -/
def operator_pre_decrement (big : bigint) : Except Fault (bigint × bigint) :=
  let temp_bigint := of_int64 1
  (operator_sub_assign big temp_bigint).map (fun r => (r.1, r.1))

/-- Post-decrement `operator--(bigint &big, int)`: a copy of `big` is kept,
the value built from the integer 1 is subtracted from `big` with `operator-=`,
and the copy is returned.  The pair is (value returned, new `big`). -/
def operator_post_decrement (big : bigint) : Except Fault (bigint × bigint) :=
  let temp := big
  let temp_bigint := of_int64 1
  (operator_sub_assign big temp_bigint).map (fun r => (temp, r.1))

/-- The `for` loop of `random_bigint`, with `n` iterations left and `i` draws
of a digit made so far: each iteration draws `random_n(0, 9)` and inserts it
at the front of `digits_r`.  The random source is the sequence of the values
its successive calls return; call 0 is the draw of the sign. -/
def random_loop (source : Nat → Nat) : Nat → Nat → List Nat → List Nat
  | 0, _, digits_r => digits_r
  | n + 1, i, digits_r => random_loop source n (i + 1) (source (i + 1) :: digits_r)

/-- The function `random_bigint(num_digits)`: the sign is drawn first with
`random_n(0, 1)`, then `num_digits` digits, and the sign is inserted at the
front. -/
def random_bigint (source : Nat → Nat) (num_digits : Nat) : bigint :=
  let sign := source 0
  let digits_r := random_loop source num_digits 0 []
  sign :: digits_r

/-! ## Vocabulary of the specification -/

/-- The natural number written by decimal digits, most significant first. -/
def magnitude (ds : List Nat) : Nat := Nat.ofDigits 10 ds.reverse

/-- The integer a stored vector denotes: the digits after the sign slot,
negated when the sign slot is 0. -/
def denote : bigint → Int
  | [] => 0
  | s :: ds => if s = 0 then -(magnitude ds : Int) else (magnitude ds : Int)

/-- The canonical representation of an integer: the sign slot (0 negative,
1 otherwise), then the decimal digits most significant first, without leading
zeros; zero is the positive single digit 0. -/
def canonical (x : Int) : bigint :=
  (if x < 0 then 0 else 1) :: (if x = 0 then [0] else (Nat.digits 10 x.natAbs).reverse)

/-- The representation invariants: a sign slot of 0 or 1, a non-empty
magnitude of decimal digits, no leading zero unless the magnitude is the
single digit 0, and zero stored as positive. -/
def well_formed : bigint → Prop
  | [] => False
  | s :: ds =>
    (s = 0 ∨ s = 1) ∧ ds ≠ [] ∧ (∀ d ∈ ds, d < 10) ∧
      (ds.head? = some 0 → ds = [0]) ∧ (ds = [0] → s = 1)

instance : DecidablePred well_formed := fun v =>
  match v with
  | [] => isFalse (fun h => h)
  | s :: ds =>
    inferInstanceAs (Decidable ((s = 0 ∨ s = 1) ∧ ds ≠ [] ∧ (∀ d ∈ ds, d < 10) ∧
      (ds.head? = some 0 → ds = [0]) ∧ (ds = [0] → s = 1)))

/-- The characters of a string after its optional leading sign. -/
def after_sign : List Char → List Char
  | '-' :: t => t
  | '+' :: t => t
  | s => s

/-- The sign slot a string asks for: 0 after a leading minus, 1 otherwise. -/
def sign_slot : List Char → Nat
  | '-' :: _ => 0
  | _ => 1

/-- The value of a decimal digit character. -/
def digit_value (c : Char) : Nat := c.toNat - 48

/-- Exactly one of three truth values holds. -/
def exactly_one (p q r : Bool) : Prop :=
  (p = true ∧ q = false ∧ r = false) ∨ (p = false ∧ q = true ∧ r = false) ∨
    (p = false ∧ q = false ∧ r = true)

/-- At most two leading digits cancel in a sum or difference of value `v`
computed from the stored vectors `a` and `b`: `v` has at most two digits fewer
than the longer operand, or `v` is 0 and the longer operand has three
digits. -/
def cancels_at_most_two (a b : bigint) (v : Int) : Prop :=
  10 ^ (max a.length b.length - 1) ≤ 1000 * v.natAbs ∨ (v = 0 ∧ max a.length b.length = 4)

/-- The digit comparison of `operator>` for two positive values, on the two
digit lists walked in step. -/
def scan_positive : List Nat → List Nat → Bool
  | x :: xs, y :: ys => if x < y then false else if x > y then true else scan_positive xs ys
  | _, _ => false

/-- The digit comparison of `operator>` for two negative values, on the two
digit lists walked in step. -/
def scan_negative : List Nat → List Nat → Bool
  | x :: xs, y :: ys => if x > y then false else if x < y then true else scan_negative xs ys
  | _, _ => false

/-- The result of `operator>` on two vectors with a sign slot, in closed form. -/
def gt_closed (sa : Nat) (da : List Nat) (sb : Nat) (db : List Nat) : Bool :=
  if sa = 1 ∧ sb = 0 then true
  else if sa = 0 ∧ sb = 1 then false
  else if sa = 0 ∧ sb = 0 then
    if da.length > db.length then false
    else if da.length < db.length then true
    else scan_negative da db
  else
    if da.length > db.length then true
    else if da.length < db.length then false
    else scan_positive da db

/-- The digits the `for` loop of `operator+=` pushes in `n` iterations, on the
two digit lists least significant first (a missing digit counts as 0). -/
def add_le : Nat → List Nat → List Nat → Nat → List Nat
  | 0, _, _, _ => []
  | n + 1, xs, ys, carry =>
    let sum := (xs.headD 0 + ys.headD 0 + carry) % 256
    if sum ≥ 10 then (sum - 10) :: add_le n xs.tail ys.tail 1
    else sum :: add_le n xs.tail ys.tail 0

/-- Removal of one leading zero: `if (result[0] == 0) result.erase(result.begin())`. -/
def strip_one : List Nat → List Nat
  | 0 :: t => t
  | v => v

/-- The digits the `for` loop of `operator-=` pushes in `n` iterations, on the
two digit lists least significant first (a missing digit counts as 0); an
iteration beyond both lists pushes nothing. -/
def sub_le : Nat → List Nat → List Nat → Int → List Nat
  | 0, _, _, _ => []
  | n + 1, xs, ys, carry =>
    if xs = [] ∧ ys = [] then sub_le n xs.tail ys.tail carry
    else
      let sub := i16 ((xs.headD 0 : Int) - (ys.headD 0 : Int) - carry)
      if sub < 0 then u8 (i16 (sub + 10)) :: sub_le n xs.tail ys.tail 1
      else u8 sub :: sub_le n xs.tail ys.tail 0

/-! ## Lemmas on the string constructor and the output -/

theorem char_cases (c : Char) (h : c.isDigit = true) :
    c = '0' ∨ c = '1' ∨ c = '2' ∨ c = '3' ∨ c = '4' ∨ c = '5' ∨ c = '6' ∨ c = '7' ∨ c = '8' ∨ c = '9' := by
  have h1 : 48 ≤ c.toNat ∧ c.toNat ≤ 57 := by
    simp only [Char.isDigit, Bool.and_eq_true, decide_eq_true_eq] at h
    exact ⟨h.1, h.2⟩
  have h2 : c = Char.ofNat c.toNat := (Char.ofNat_toNat c).symm
  obtain ⟨h3, h4⟩ := h1
  generalize c.toNat = n at *
  subst h2
  interval_cases n <;> decide

theorem toDigits_digit (c : Char) (h : c.isDigit = true) : Nat.toDigits 10 (c.toNat - 48) = [c] := by
  rcases char_cases c h with h | h | h | h | h | h | h | h | h | h <;> subst h <;> rfl

theorem stoi_single (c : Char) :
    stoi [c] = if c.isDigit then .ok ((c.toNat : Int) - 48) else .error .invalid_argument := by
  by_cases hd : c.isDigit = true
  · rcases char_cases c hd with h | h | h | h | h | h | h | h | h | h <;> subst h <;> rfl
  · by_cases hs : isspace c = true
    · have hbody : List.dropWhile isspace [c] = [] := by simp [List.dropWhile, hs]
      have hsign : stoi_sign [] = (false, []) := rfl
      simp [stoi, hbody, hsign, hd]
    · by_cases hm : c = '-'
      · subst hm; rfl
      · by_cases hp : c = '+'
        · subst hp; rfl
        · have hbody : List.dropWhile isspace [c] = [c] := by simp [List.dropWhile, hs]
          have hsign : stoi_sign [c] = (false, [c]) := by
            unfold stoi_sign
            split <;> simp_all
          simp [stoi, hbody, hsign, List.takeWhile, hd]

theorem getline_single (c : Char) :
    getline [c] = some (if c = '\n' then [] else [c], []) := by
  by_cases h : c = '\n'
  · subst h; rfl
  · simp [getline, List.takeWhile, List.dropWhile, h]

theorem push_char_eq (c : Char) (digits : List Nat) :
    push_char c digits =
      if c.isDigit then .ok (digits ++ [c.toNat - 48]) else .error .invalid_argument := by
  by_cases hd : c.isDigit = true
  · rcases char_cases c hd with h | h | h | h | h | h | h | h | h | h <;> subst h <;> rfl
  · have hstoi := stoi_single c
    simp only [hd] at hstoi
    by_cases hn : c = '\n'
    · subst hn; rfl
    · simp [push_char, read_lines, getline_single, hn, hstoi, hd]

theorem parse_loop_eq (cs : List Char) (digits : List Nat) :
    parse_loop cs digits =
      if cs.all Char.isDigit then .ok (digits ++ cs.map (fun c => c.toNat - 48))
      else .error .invalid_argument := by
  induction cs generalizing digits with
  | nil => simp [parse_loop]
  | cons c cs ih =>
    by_cases hd : c.isDigit = true
    · simp [parse_loop, push_char_eq, hd, ih]
    · simp [parse_loop, push_char_eq, hd]

theorem of_string_eq (s : List Char) :
    of_string s =
      if (after_sign s).all Char.isDigit then .ok (sign_slot s :: (after_sign s).map digit_value)
      else .error .invalid_argument := by
  have hfun : (fun c : Char => c.toNat - 48) = digit_value := rfl
  match s with
  | [] => rfl
  | c :: t =>
    by_cases hm : c = '-'
    · subst hm
      simp [of_string, parse_loop_eq, after_sign, sign_slot, hfun]
    · by_cases hp : c = '+'
      · subst hp
        simp [of_string, parse_loop_eq, after_sign, sign_slot, hfun]
      · have h1 : after_sign (c :: t) = c :: t := by
          unfold after_sign
          split <;> simp_all
        have h2 : sign_slot (c :: t) = 1 := by
          unfold sign_slot
          split <;> simp_all
        simp only [of_string, List.headD_cons, hm, hp, if_false, parse_loop_eq, h1, h2, hfun]
        rfl

theorem print_digits (d : List Char) (h : ∀ c ∈ d, c.isDigit = true) (out : List Char) :
    (d.map digit_value).foldl (fun o x => o ++ Nat.toDigits 10 x) out = out ++ d := by
  induction d generalizing out with
  | nil => simp
  | cons c cs ih =>
    have hc : Nat.toDigits 10 (digit_value c) = [c] := toDigits_digit c (h c (by simp))
    simp only [List.map_cons, List.foldl_cons, hc]
    rw [ih (fun x hx => h x (by simp [hx]))]
    simp

/-! ## Claims on construction and output -/

/-- C4: for a string with at least one character after its optional sign, the
string constructor throws `invalid_argument` exactly when some character after
the sign is not a decimal digit; otherwise it stores the sign slot followed by
the digit values in order, leading zeros kept. -/
theorem c4_of_string_characterised (s : List Char) (h : after_sign s ≠ []) :
    (of_string s = .error .invalid_argument ↔ ∃ c ∈ after_sign s, c.isDigit = false) ∧
    ((∀ c ∈ after_sign s, c.isDigit = true) →
      of_string s = .ok (sign_slot s :: (after_sign s).map digit_value)) := by
  have _ := h
  rw [of_string_eq]
  by_cases hall : (after_sign s).all Char.isDigit = true
  · rw [if_pos hall]
    rw [List.all_eq_true] at hall
    refine ⟨⟨fun hc => by simp at hc, fun ⟨c, hc, hd⟩ => ?_⟩, fun _ => rfl⟩
    rw [hall c hc] at hd
    exact absurd hd (by simp)
  · rw [if_neg hall]
    refine ⟨⟨fun _ => ?_, fun _ => by simp⟩, fun hd => ?_⟩
    · by_contra hne
      apply hall
      rw [List.all_eq_true]
      intro c hc
      by_contra hcd
      exact hne ⟨c, hc, by simpa using hcd⟩
    · exact absurd (List.all_eq_true.mpr hd) hall

/-- A concrete instance: the string "-5544aa22b1". -/
theorem c4_of_string_characterised_witness :
    after_sign "-5544aa22b1".toList ≠ [] ∧
    (of_string "-5544aa22b1".toList = .error .invalid_argument ↔
      ∃ c ∈ after_sign "-5544aa22b1".toList, c.isDigit = false) :=
  ⟨by decide, (c4_of_string_characterised "-5544aa22b1".toList (by decide)).1⟩

/-- C5: the strings "", "+" and "-" are accepted by the string constructor: no
exception is thrown, and vectors without any digit are stored. -/
theorem c5_empty_remainder_accepted :
    of_string "".toList = .ok [1] ∧ of_string "+".toList = .ok [1] ∧
      of_string "-".toList = .ok [0] := by
  decide

/-- C6: for a non-empty string of decimal digits `d`, the values built from
`d`, from `+d` and from `-d` print as `d`, `d` and `-d`. -/
theorem c6_parse_print_round_trip (d : List Char) (hne : d ≠ [])
    (hd : ∀ c ∈ d, c.isDigit = true) :
    (∃ v, of_string d = .ok v ∧ operator_lshift [] v = .ok d) ∧
    (∃ v, of_string ('+' :: d) = .ok v ∧ operator_lshift [] v = .ok d) ∧
    (∃ v, of_string ('-' :: d) = .ok v ∧ operator_lshift [] v = .ok ('-' :: d)) := by
  have hall : d.all Char.isDigit = true := List.all_eq_true.mpr hd
  have hlen : 0 < d.length := List.length_pos.mpr hne
  refine ⟨?_, ?_, ?_⟩
  · obtain ⟨c, t, rfl⟩ := List.exists_cons_of_ne_nil hne
    have hc : c.isDigit = true := hd c (by simp)
    have hm : c ≠ '-' := by rintro rfl; exact absurd hc (by decide)
    have hp : c ≠ '+' := by rintro rfl; exact absurd hc (by decide)
    have h1 : after_sign (c :: t) = c :: t := by
      unfold after_sign
      split <;> simp_all
    have h2 : sign_slot (c :: t) = 1 := by
      unfold sign_slot
      split <;> simp_all
    refine ⟨1 :: (c :: t).map digit_value, ?_, ?_⟩
    · rw [of_string_eq, h1, h2, hall]; rfl
    · simp only [operator_lshift, idx, List.getElem?_cons_zero, List.drop_one, List.tail_cons]
      simp only [one_ne_zero, false_and, if_false, if_true]
      rw [print_digits _ hd]; simp
  · refine ⟨1 :: d.map digit_value, ?_, ?_⟩
    · rw [of_string_eq]; simp [after_sign, sign_slot, hall]
    · simp only [operator_lshift, idx, List.getElem?_cons_zero, List.drop_one, List.tail_cons]
      simp only [one_ne_zero, false_and, if_false, if_true]
      rw [print_digits _ hd]; simp
  · refine ⟨0 :: d.map digit_value, ?_, ?_⟩
    · rw [of_string_eq]; simp [after_sign, sign_slot, hall]
    · simp only [operator_lshift, idx, List.getElem?_cons_zero, List.drop_one, List.tail_cons,
        List.length_cons, List.length_map]
      have : d.length + 1 > 1 := by omega
      simp only [this, and_self, if_true]
      rw [print_digits _ hd]; simp

/-- A concrete instance: the digits "5544332211". -/
theorem c6_parse_print_round_trip_witness :
    (∃ v, of_string "5544332211".toList = .ok v ∧
      operator_lshift [] v = .ok "5544332211".toList) ∧
    (∃ v, of_string ('+' :: "5544332211".toList) = .ok v ∧
      operator_lshift [] v = .ok "5544332211".toList) ∧
    (∃ v, of_string ('-' :: "5544332211".toList) = .ok v ∧
      operator_lshift [] v = .ok ('-' :: "5544332211".toList)) :=
  c6_parse_print_round_trip "5544332211".toList (by decide) (by decide)

/-! ## Lemmas on the comparison operators -/

theorem idx_of_drop (v : List Nat) (i x : Nat) (t : List Nat) (h : v.drop i = x :: t) :
    idx v i = .ok x ∧ v.drop (i + 1) = t := by
  have h0 : (v.drop i)[0]? = some x := by rw [h]; simp
  rw [List.getElem?_drop] at h0
  have h1 : v.drop (i + 1) = t := by
    have : (v.drop i).drop 1 = t := by rw [h]; rfl
    simpa [List.drop_drop, Nat.add_comm] using this
  refine ⟨?_, h1⟩
  simp only [Nat.add_zero] at h0
  simp [idx, h0]

theorem gt_scan_positive_eq (lhs rhs : bigint) (n i : Nat) (xs ys : List Nat)
    (hx : lhs.drop i = xs) (hy : rhs.drop i = ys) (hn : xs.length = n) (hm : ys.length = n) :
    gt_scan_positive lhs rhs n i = .ok (scan_positive xs ys) := by
  induction n generalizing i xs ys with
  | zero =>
    have : xs = [] := List.length_eq_zero.mp hn
    subst this
    simp [gt_scan_positive, scan_positive]
  | succ n ih =>
    obtain ⟨x, xt, rfl⟩ := List.exists_cons_of_ne_nil (List.ne_nil_of_length_eq_add_one hn)
    obtain ⟨y, yt, rfl⟩ := List.exists_cons_of_ne_nil (List.ne_nil_of_length_eq_add_one hm)
    obtain ⟨hix, hdx⟩ := idx_of_drop lhs i x xt hx
    obtain ⟨hiy, hdy⟩ := idx_of_drop rhs i y yt hy
    have hrec := ih (i + 1) xt yt hdx hdy (by simpa using hn) (by simpa using hm)
    simp only [gt_scan_positive, hix, hiy, scan_positive, hrec]
    split_ifs <;> rfl

theorem gt_scan_negative_eq (lhs rhs : bigint) (n i : Nat) (xs ys : List Nat)
    (hx : lhs.drop i = xs) (hy : rhs.drop i = ys) (hn : xs.length = n) (hm : ys.length = n) :
    gt_scan_negative lhs rhs n i = .ok (scan_negative xs ys) := by
  induction n generalizing i xs ys with
  | zero =>
    have : xs = [] := List.length_eq_zero.mp hn
    subst this
    simp [gt_scan_negative, scan_negative]
  | succ n ih =>
    obtain ⟨x, xt, rfl⟩ := List.exists_cons_of_ne_nil (List.ne_nil_of_length_eq_add_one hn)
    obtain ⟨y, yt, rfl⟩ := List.exists_cons_of_ne_nil (List.ne_nil_of_length_eq_add_one hm)
    obtain ⟨hix, hdx⟩ := idx_of_drop lhs i x xt hx
    obtain ⟨hiy, hdy⟩ := idx_of_drop rhs i y yt hy
    have hrec := ih (i + 1) xt yt hdx hdy (by simpa using hn) (by simpa using hm)
    simp only [gt_scan_negative, hix, hiy, scan_negative, hrec]
    split_ifs <;> rfl

theorem operator_gt_cons (sa : Nat) (da : List Nat) (sb : Nat) (db : List Nat) :
    operator_gt (sa :: da) (sb :: db) = .ok (gt_closed sa da sb db) := by
  have hsign : ∀ (s : Nat) (d : List Nat) (k : Nat),
      sign_is (s :: d) k = .ok (decide (s = k)) := by
    intro s d k
    simp [sign_is, idx, Except.map]
  by_cases hlen : da.length = db.length
  · have hp := gt_scan_positive_eq (sa :: da) (sb :: db) da.length 1 da db rfl rfl rfl hlen.symm
    have hn := gt_scan_negative_eq (sa :: da) (sb :: db) da.length 1 da db rfl rfl rfl hlen.symm
    have hl1 : ¬ db.length < da.length := by omega
    have hl2 : ¬ da.length < db.length := by omega
    simp only [operator_gt, gt_closed, hsign, and_then, Except.bind, bind, pure, Except.pure,
      List.length_cons, Nat.add_sub_cancel, hp, hn, gt_iff_lt, Nat.add_lt_add_iff_right,
      hl1, hl2, if_false]
    by_cases h1 : sa = 1 <;> by_cases h2 : sb = 0 <;> by_cases h3 : sa = 0 <;>
      by_cases h4 : sb = 1 <;> simp [h1, h2, h3, h4]
  · simp only [operator_gt, gt_closed, hsign, and_then, Except.bind, bind, pure, Except.pure,
      List.length_cons, gt_iff_lt, Nat.add_lt_add_iff_right]
    rcases Nat.lt_or_gt_of_ne hlen with hl | hl
    · have hl2 : ¬ db.length < da.length := by omega
      by_cases h1 : sa = 1 <;> by_cases h2 : sb = 0 <;> by_cases h3 : sa = 0 <;>
        by_cases h4 : sb = 1 <;> simp [h1, h2, h3, h4, hl, hl2]
    · have hl2 : ¬ da.length < db.length := by omega
      by_cases h1 : sa = 1 <;> by_cases h2 : sb = 0 <;> by_cases h3 : sa = 0 <;>
        by_cases h4 : sb = 1 <;> simp [h1, h2, h3, h4, hl, hl2]

/-! ## Lemmas on the value of a digit list -/

theorem magnitude_cons (x : Nat) (xs : List Nat) :
    magnitude (x :: xs) = x * 10 ^ xs.length + magnitude xs := by
  simp [magnitude, Nat.ofDigits_append, Nat.ofDigits_singleton, Nat.mul_comm, Nat.add_comm]

theorem magnitude_lt (xs : List Nat) (h : ∀ d ∈ xs, d < 10) : magnitude xs < 10 ^ xs.length := by
  have h1 := Nat.ofDigits_lt_base_pow_length (b := 10) (l := xs.reverse) (by norm_num)
    (by simpa using h)
  simpa [magnitude] using h1

theorem scan_positive_eq (xs ys : List Nat) (hlen : xs.length = ys.length)
    (hx : ∀ d ∈ xs, d < 10) (hy : ∀ d ∈ ys, d < 10) :
    scan_positive xs ys = decide (magnitude ys < magnitude xs) := by
  induction xs generalizing ys with
  | nil =>
    have : ys = [] := List.length_eq_zero.mp hlen.symm
    subst this
    simp [scan_positive]
  | cons x xs ih =>
    obtain ⟨y, yt, rfl⟩ := List.exists_cons_of_ne_nil
      (List.ne_nil_of_length_eq_add_one hlen.symm)
    have hl : xs.length = yt.length := by simpa using hlen
    have hxs : ∀ d ∈ xs, d < 10 := fun d hd => hx d (by simp [hd])
    have hys : ∀ d ∈ yt, d < 10 := fun d hd => hy d (by simp [hd])
    have bx := magnitude_lt xs hxs
    have bw := magnitude_lt yt hys
    rw [hl] at bx
    simp only [scan_positive, magnitude_cons, hl, ih yt hl hxs hys]
    generalize 10 ^ yt.length = P at *
    rcases Nat.lt_trichotomy x y with h | h | h
    · have h1 : (x + 1) * P ≤ y * P := Nat.mul_le_mul_right _ h
      have h2 : (x + 1) * P = x * P + P := by ring
      have h3 : ¬ (y * P + magnitude yt < x * P + magnitude xs) := by omega
      simp [h, h3]
    · subst h
      simp
    · have h1 : (y + 1) * P ≤ x * P := Nat.mul_le_mul_right _ h
      have h2 : (y + 1) * P = y * P + P := by ring
      have h3 : y * P + magnitude yt < x * P + magnitude xs := by omega
      have h4 : ¬ x < y := by omega
      simp [h, h3, h4]

theorem scan_negative_eq (xs ys : List Nat) (hlen : xs.length = ys.length)
    (hx : ∀ d ∈ xs, d < 10) (hy : ∀ d ∈ ys, d < 10) :
    scan_negative xs ys = decide (magnitude xs < magnitude ys) := by
  induction xs generalizing ys with
  | nil =>
    have : ys = [] := List.length_eq_zero.mp hlen.symm
    subst this
    simp [scan_negative]
  | cons x xs ih =>
    obtain ⟨y, yt, rfl⟩ := List.exists_cons_of_ne_nil
      (List.ne_nil_of_length_eq_add_one hlen.symm)
    have hl : xs.length = yt.length := by simpa using hlen
    have hxs : ∀ d ∈ xs, d < 10 := fun d hd => hx d (by simp [hd])
    have hys : ∀ d ∈ yt, d < 10 := fun d hd => hy d (by simp [hd])
    have bx := magnitude_lt xs hxs
    have bw := magnitude_lt yt hys
    rw [hl] at bx
    simp only [scan_negative, magnitude_cons, hl, ih yt hl hxs hys]
    generalize 10 ^ yt.length = P at *
    rcases Nat.lt_trichotomy x y with h | h | h
    · have h1 : (x + 1) * P ≤ y * P := Nat.mul_le_mul_right _ h
      have h2 : (x + 1) * P = x * P + P := by ring
      have h3 : x * P + magnitude xs < y * P + magnitude yt := by omega
      have h4 : ¬ y < x := by omega
      simp [h, h3, h4]
    · subst h
      simp
    · have h1 : (y + 1) * P ≤ x * P := Nat.mul_le_mul_right _ h
      have h2 : (y + 1) * P = y * P + P := by ring
      have h3 : ¬ (x * P + magnitude xs < y * P + magnitude yt) := by omega
      simp [h, h3]

theorem scan_positive_self (xs : List Nat) : scan_positive xs xs = false := by
  induction xs with
  | nil => rfl
  | cons x xs ih => simp [scan_positive, ih]

theorem scan_negative_self (xs : List Nat) : scan_negative xs xs = false := by
  induction xs with
  | nil => rfl
  | cons x xs ih => simp [scan_negative, ih]

/-- What the representation invariants say about the sign slot and the
magnitude. -/
theorem well_formed_facts (s : Nat) (ds : List Nat) (h : well_formed (s :: ds)) :
    (s = 0 ∨ s = 1) ∧ 0 < ds.length ∧ (∀ d ∈ ds, d < 10) ∧
    magnitude ds < 10 ^ ds.length ∧
    (magnitude ds = 0 → s = 1 ∧ ds = [0]) ∧
    (magnitude ds ≠ 0 → 10 ^ (ds.length - 1) ≤ magnitude ds ∧ ds.head? ≠ some 0) := by
  obtain ⟨hs, hne, hd, hlead, hzero⟩ := h
  obtain ⟨d, t, rfl⟩ := List.exists_cons_of_ne_nil hne
  refine ⟨hs, by simp, hd, magnitude_lt _ hd, ?_, ?_⟩
  · intro hm
    by_cases hd0 : d = 0
    · subst hd0
      have := hlead rfl
      exact ⟨hzero this, this⟩
    · exfalso
      rw [magnitude_cons] at hm
      have h1 : 0 < 10 ^ t.length := Nat.pos_pow_of_pos _ (by norm_num)
      have h2 : 1 * 10 ^ t.length ≤ d * 10 ^ t.length :=
        Nat.mul_le_mul_right _ (Nat.pos_of_ne_zero hd0)
      omega
  · intro hm
    by_cases hd0 : d = 0
    · subst hd0
      have := hlead rfl
      rw [this] at hm
      exact absurd rfl hm
    · rw [magnitude_cons]
      have h2 : 1 * 10 ^ t.length ≤ d * 10 ^ t.length :=
        Nat.mul_le_mul_right _ (Nat.pos_of_ne_zero hd0)
      refine ⟨?_, by simpa using hd0⟩
      simp only [List.length_cons, Nat.add_sub_cancel]
      omega

theorem operator_eq_iff (a b : bigint) : operator_eq a b = true ↔ a = b := by
  constructor
  · intro h
    unfold operator_eq at h
    by_cases hl : a.length = b.length
    · simp only [hl, ne_eq, not_true_eq_false, if_false, List.all_eq_true, List.mem_range,
        decide_eq_true_eq] at h
      apply List.ext_getElem?
      intro i
      by_cases hi : i < b.length
      · exact h i hi
      · have h1 : a[i]? = none := List.getElem?_eq_none (by omega)
        have h2 : b[i]? = none := List.getElem?_eq_none (by omega)
        rw [h1, h2]
    · simp [hl] at h
  · rintro rfl
    simp [operator_eq]

/-- Two vectors satisfying the representation invariants that denote the same
integer are the same vector. -/
theorem well_formed_unique (a b : bigint) (ha : well_formed a) (hb : well_formed b)
    (h : denote a = denote b) : a = b := by
  match a, b, ha, hb, h with
  | sa :: da, sb :: db, ha, hb, h =>
    obtain ⟨hsa, _, hda, _, hza, hna⟩ := well_formed_facts sa da ha
    obtain ⟨hsb, _, hdb, _, hzb, hnb⟩ := well_formed_facts sb db hb
    simp only [denote] at h
    have hmag : magnitude da = magnitude db := by
      split_ifs at h <;> omega
    by_cases hz : magnitude da = 0
    · obtain ⟨h1, h2⟩ := hza hz
      obtain ⟨h3, h4⟩ := hzb (hmag ▸ hz)
      rw [h1, h2, h3, h4]
    · have hz2 : magnitude db ≠ 0 := hmag ▸ hz
      have hs : sa = sb := by
        rcases hsa with rfl | rfl <;> rcases hsb with rfl | rfl <;> simp at h <;> first | rfl | omega
      have hlast : ∀ (ds : List Nat), ds.head? ≠ some 0 → ∀ hne : ds.reverse ≠ [],
          ds.reverse.getLast hne ≠ 0 := by
        intro ds hh hne
        cases ds with
        | nil => simp at hne
        | cons d t => simpa using hh
      have e1 := Nat.digits_ofDigits 10 (by norm_num) da.reverse (by simpa using hda)
        (hlast da (hna hz).2)
      have e2 := Nat.digits_ofDigits 10 (by norm_num) db.reverse (by simpa using hdb)
        (hlast db (hnb hz2).2)
      have e3 : da.reverse = db.reverse := by
        rw [← e1, ← e2]
        show Nat.digits 10 (magnitude da) = Nat.digits 10 (magnitude db)
        rw [hmag]
      rw [hs, List.reverse_injective e3]

/-! ## Claims on comparison -/

/-- C8: for values satisfying the representation invariants, `a > b` returns
true exactly when the integer denoted by `a` is strictly greater than the one
denoted by `b`. -/
theorem c8_operator_gt_is_integer_order (a b : bigint) (ha : well_formed a)
    (hb : well_formed b) : operator_gt a b = .ok (decide (denote b < denote a)) := by
  match a, b, ha, hb with
  | sa :: da, sb :: db, ha, hb =>
    obtain ⟨hsa, hla, hda, hua, hza, hna⟩ := well_formed_facts sa da ha
    obtain ⟨hsb, hlb, hdb, hub, hzb, hnb⟩ := well_formed_facts sb db hb
    rw [operator_gt_cons]
    congr 1
    have hpow : ∀ m n : Nat, m < n → 10 ^ m ≤ 10 ^ (n - 1) :=
      fun m n hmn => Nat.pow_le_pow_right (by norm_num) (by omega)
    have hza1 : sa = 0 → magnitude da ≠ 0 := fun h0 hm => by
      have := (hza hm).1
      omega
    have hzb1 : sb = 0 → magnitude db ≠ 0 := fun h0 hm => by
      have := (hzb hm).1
      omega
    have hlong : ∀ (xs ys : List Nat), xs.length < ys.length → magnitude xs < 10 ^ xs.length →
        (magnitude ys ≠ 0 → 10 ^ (ys.length - 1) ≤ magnitude ys ∧ ys.head? ≠ some 0) →
        (magnitude ys = 0 → ys = [0]) → 0 < xs.length → magnitude xs < magnitude ys := by
      intro xs ys hl hu hn hz hx
      by_cases hm : magnitude ys = 0
      · have := hz hm
        subst this
        simp only [List.length_singleton] at hl
        omega
      · have h1 := (hn hm).1
        have h2 := hpow _ _ hl
        omega
    have hlongab := hlong da db
    have hlongba := hlong db da
    simp only [gt_closed, denote]
    rcases hsa with rfl | rfl <;> rcases hsb with rfl | rfl
    · -- both negative
      have ma := hza1 rfl
      have mb := hzb1 rfl
      simp only [one_ne_zero, zero_ne_one, and_false, false_and, and_self, if_true, if_false,
        gt_iff_lt]
      by_cases h1 : db.length < da.length
      · have := hlongba h1 hub hna (fun h => (hza h).2) hlb
        have h3 : ¬ (-(magnitude db : Int) < -(magnitude da : Int)) := by omega
        simp [h1, h3]
      · by_cases h2 : da.length < db.length
        · have := hlongab h2 hua hnb (fun h => (hzb h).2) hla
          have h3 : -(magnitude db : Int) < -(magnitude da : Int) := by omega
          simp [h1, h2, h3]
        · have hl : da.length = db.length := by omega
          simp only [h1, h2, if_false, scan_negative_eq da db hl hda hdb]
          congr 1
          apply propext
          constructor <;> intro h <;> omega
    · -- negative, positive
      have ma := hza1 rfl
      have h3 : ¬ ((magnitude db : Int) < -(magnitude da : Int)) := by omega
      simp [h3]
    · -- positive, negative
      have mb := hzb1 rfl
      have h3 : (-(magnitude db : Int) < (magnitude da : Int)) := by omega
      simp [h3]
    · -- both positive
      simp only [one_ne_zero, and_false, false_and, if_false, gt_iff_lt]
      by_cases h1 : db.length < da.length
      · have := hlongba h1 hub hna (fun h => (hza h).2) hlb
        have h3 : (magnitude db : Int) < (magnitude da : Int) := by omega
        simp [h1, h3]
      · by_cases h2 : da.length < db.length
        · have := hlongab h2 hua hnb (fun h => (hzb h).2) hla
          have h3 : ¬ ((magnitude db : Int) < (magnitude da : Int)) := by omega
          simp [h1, h2, h3]
        · have hl : da.length = db.length := by omega
          simp only [h1, h2, if_false, scan_positive_eq da db hl hda hdb]
          congr 1
          apply propext
          constructor <;> intro h <;> omega

/-- A concrete instance: 201 and -123. -/
theorem c8_operator_gt_is_integer_order_witness :
    well_formed [1, 2, 0, 1] ∧ well_formed [0, 1, 2, 3] ∧
    operator_gt [1, 2, 0, 1] [0, 1, 2, 3] = .ok (decide (denote [0, 1, 2, 3] < denote [1, 2, 0, 1])) :=
  ⟨by decide, by decide, c8_operator_gt_is_integer_order [1, 2, 0, 1] [0, 1, 2, 3]
    (by decide) (by decide)⟩

theorem gt_closed_self (s : Nat) (d : List Nat) : gt_closed s d s d = false := by
  simp only [gt_closed, gt_iff_lt, lt_self_iff_false, if_false, scan_negative_self,
    scan_positive_self]
  split_ifs with h1
  · omega
  all_goals rfl

/-- C9: for any two stored vectors holding at least the sign slot, exactly one
of `a < b`, `a == b`, `a > b` holds, with `operator<` computed as the source
does, by negating `(a > b) || (a == b)`. -/
theorem c9_ordering_totality (a b : bigint) (ha : a ≠ []) (hb : b ≠ []) :
    ∃ g l, operator_gt a b = .ok g ∧ operator_lt a b = .ok l ∧
      exactly_one l (operator_eq a b) g := by
  obtain ⟨sa, da, rfl⟩ := List.exists_cons_of_ne_nil ha
  obtain ⟨sb, db, rfl⟩ := List.exists_cons_of_ne_nil hb
  refine ⟨gt_closed sa da sb db,
    !(gt_closed sa da sb db || operator_eq (sa :: da) (sb :: db)), operator_gt_cons _ _ _ _, ?_, ?_⟩
  · simp only [operator_lt, operator_ge, operator_gt_cons, bind, Except.bind, pure, Except.pure]
    cases gt_closed sa da sb db <;> simp
  · cases he : operator_eq (sa :: da) (sb :: db)
    · cases gt_closed sa da sb db <;> simp [exactly_one]
    · have hab := (operator_eq_iff _ _).mp he
      injection hab with h1 h2
      subst h1 h2
      simp [exactly_one, gt_closed_self]

/-- A concrete instance: 123 and -123. -/
theorem c9_ordering_totality_witness :
    ∃ g l, operator_gt [1, 1, 2, 3] [0, 1, 2, 3] = .ok g ∧
      operator_lt [1, 1, 2, 3] [0, 1, 2, 3] = .ok l ∧
      exactly_one l (operator_eq [1, 1, 2, 3] [0, 1, 2, 3]) g :=
  c9_ordering_totality [1, 1, 2, 3] [0, 1, 2, 3] (by decide) (by decide)

/-- C10: `operator==` is true exactly when the two vectors have the same
length and the same entry at every position; on values satisfying the
representation invariants that is the case exactly when they denote the same
integer; the value built from "007" is unequal to the one built from "7". -/
theorem c10_operator_eq_is_vector_equality (a b : bigint) :
    (operator_eq a b = true ↔ a.length = b.length ∧ ∀ i, i < a.length → a[i]? = b[i]?) ∧
    (well_formed a → well_formed b → (operator_eq a b = true ↔ denote a = denote b)) ∧
    (of_string "007".toList = .ok [1, 0, 0, 7] ∧ of_string "7".toList = .ok [1, 7] ∧
      operator_eq [1, 0, 0, 7] [1, 7] = false) := by
  refine ⟨?_, ?_, by decide⟩
  · rw [operator_eq_iff]
    constructor
    · rintro rfl
      exact ⟨rfl, fun _ _ => rfl⟩
    · rintro ⟨hl, h⟩
      apply List.ext_getElem?
      intro i
      by_cases hi : i < a.length
      · exact h i hi
      · have h1 : a[i]? = none := List.getElem?_eq_none (by omega)
        have h2 : b[i]? = none := List.getElem?_eq_none (by omega)
        rw [h1, h2]
  · intro ha hb
    rw [operator_eq_iff]
    exact ⟨fun h => by rw [h], well_formed_unique a b ha hb⟩

/-- A concrete instance: 123 and -123. -/
theorem c10_operator_eq_is_vector_equality_witness :
    well_formed [1, 1, 2, 3] ∧ well_formed [0, 1, 2, 3] ∧
    (operator_eq [1, 1, 2, 3] [0, 1, 2, 3] = true ↔ denote [1, 1, 2, 3] = denote [0, 1, 2, 3]) :=
  ⟨by decide, by decide,
    (c10_operator_eq_is_vector_equality [1, 1, 2, 3] [0, 1, 2, 3]).2.1 (by decide) (by decide)⟩

/-! ## The canonical representation -/

theorem canonical_well_formed (x : Int) : well_formed (canonical x) := by
  by_cases hx : x = 0
  · subst hx
    simp [canonical, well_formed]
  · have hn : x.natAbs ≠ 0 := Int.natAbs_ne_zero.mpr hx
    have hne : Nat.digits 10 x.natAbs ≠ [] := Nat.digits_ne_nil_iff_ne_zero.mpr hn
    have hlast := Nat.getLast_digit_ne_zero 10 hn
    have hhead : (Nat.digits 10 x.natAbs).reverse.head? ≠ some 0 := by
      rw [List.head?_reverse, List.getLast?_eq_getLast _ hne]
      intro h
      exact hlast (Option.some.inj h)
    simp only [canonical, hx, if_false, well_formed]
    refine ⟨?_, by simpa using hne, ?_, fun h => absurd h hhead, ?_⟩
    · by_cases h : x < 0 <;> simp [h]
    · intro d hd
      exact Nat.digits_lt_base (by norm_num) (List.mem_reverse.mp hd)
    · intro h
      rw [h] at hhead
      exact absurd rfl hhead

theorem denote_canonical (x : Int) : denote (canonical x) = x := by
  by_cases hx : x = 0
  · subst hx
    simp [canonical, denote, magnitude]
  · simp only [canonical, hx, if_false, denote, magnitude, List.reverse_reverse,
      Nat.ofDigits_digits]
    by_cases h : x < 0
    · simp only [h, if_true]
      omega
    · simp only [h, if_false, one_ne_zero]
      omega

/-- A vector satisfying the representation invariants is the canonical
representation of the integer it denotes. -/
theorem well_formed_eq_canonical (v : bigint) (h : well_formed v) : v = canonical (denote v) :=
  well_formed_unique v _ h (canonical_well_formed _) (denote_canonical _).symm

/-! ## The integer constructor within and beyond the range of `int` -/

theorem peel_digits_eq (fuel k : Nat) (acc : List Nat) (h : k ≤ fuel) :
    peel_digits fuel (k : Int) acc = (Nat.digits 10 k).reverse ++ acc := by
  induction fuel generalizing k acc with
  | zero =>
    have : k = 0 := by omega
    subst this
    simp [peel_digits]
  | succ fuel ih =>
    by_cases hk : k = 0
    · subst hk
      simp [peel_digits]
    · have hpos : 0 < k := Nat.pos_of_ne_zero hk
      have h1 : ((k : Int) > 0) := by exact_mod_cast hpos
      have h2 : (k : Int) / 10 = ((k / 10 : Nat) : Int) := by norm_cast
      have h3 : u8 ((k : Int) % 10) = k % 10 := by
        have : (k : Int) % 10 = ((k % 10 : Nat) : Int) := by norm_cast
        rw [this]
        unfold u8
        have h4 : ((k % 10 : Nat) : Int) % 256 = ((k % 10 : Nat) : Int) := by
          apply Int.emod_eq_of_lt <;> omega
        rw [h4]
        exact Int.toNat_ofNat _
      have h5 : k / 10 ≤ fuel := by omega
      rw [peel_digits, if_pos h1, h2, h3, ih (k / 10) _ h5, Nat.digits_def' (by norm_num) hpos]
      simp

/-- The integer constructor yields the canonical representation of every
integer that fits in an `int` with its negation: -2^31 < n < 2^31. -/
theorem of_int64_eq_canonical (n : Int) (h1 : -2147483648 < n)
    (h2 : n < 2147483648) : of_int64 n = canonical n := by
  by_cases hn : n = 0
  · subst hn
    simp [of_int64, canonical]
  · have h32 : i32 n = n := by
      unfold i32
      omega
    have habs : |n| = (n.natAbs : Int) := (Int.natCast_natAbs n).symm
    have hi : abs_int n = (n.natAbs : Int) := by
      unfold abs_int
      rw [h32, habs]
      unfold i32
      omega
    simp only [of_int64, hn, if_false, hi, Int.toNat_ofNat, canonical]
    rw [peel_digits_eq _ _ _ (le_refl _)]
    by_cases hneg : n < 0 <;> simp [hneg]

/-- C7: the magnitude is taken with the `int` version of `abs`, so integers
outside the range of `int` are not stored as their canonical representation:
2^31 is stored as the sign slot alone, 12345678987654321 as the digits of
1653732529, the largest 64-bit integer as 1, and the most negative one as the
sign slot 0 alone, which prints as the empty text. -/
theorem c7_of_int64_beyond_int_range :
    of_int64 2147483648 = [1] ∧
    of_int64 12345678987654321 = [1, 1, 6, 5, 3, 7, 3, 2, 5, 2, 9] ∧
    of_int64 9223372036854775807 = [1, 1] ∧
    of_int64 (-9223372036854775808) = [0] ∧
    operator_lshift [] (of_int64 (-9223372036854775808)) = .ok [] ∧
    of_int64 2147483648 ≠ canonical 2147483648 ∧
    of_int64 (-9223372036854775808) ≠ canonical (-9223372036854775808) := by
  have h1 : of_int64 2147483648 = [1] := by decide
  have h2 : of_int64 (-9223372036854775808) = [0] := by decide
  refine ⟨h1, by decide, by decide, h2, ?_, ?_, ?_⟩
  · rw [h2]; decide
  · rw [h1]
    simp [canonical]
  · rw [h2]
    simp [canonical]

/-! ## Same-sign addition -/

theorem digit_from_right_cons (s : Nat) (xs : List Nat) (i : Nat) (hi : 1 ≤ i) :
    digit_from_right (s :: xs) i = .ok ((xs.reverse.drop (i - 1)).headD 0) := by
  unfold digit_from_right
  by_cases h : i < (s :: xs).length
  · have hlen : i ≤ xs.length := by simpa [Nat.lt_succ_iff] using h
    rw [if_pos h]
    have h1 : (s :: xs).length - i = (xs.length - i) + 1 := by
      simp only [List.length_cons]; omega
    have h2 : (s :: xs)[(s :: xs).length - i]? = xs[xs.length - i]? := by
      rw [h1]; simp
    have h3 : xs.reverse[i - 1]? = xs[xs.length - i]? := by
      rw [List.getElem?_reverse (by omega)]
      congr 1
      omega
    have hb : xs.length - i < xs.length := by omega
    have h4 : xs[xs.length - i]? = some xs[xs.length - i] :=
      List.getElem?_eq_getElem hb
    have h5 : (xs.reverse.drop (i - 1)).headD 0 = xs[xs.length - i] := by
      rw [List.headD_eq_head?_getD, List.head?_drop, h3, h4]
      rfl
    rw [h5]
    unfold idx
    rw [h2, h4]
  · rw [if_neg h]
    have hlen : xs.length < i := by simpa [Nat.lt_succ_iff] using h
    have : xs.reverse.drop (i - 1) = [] := List.drop_eq_nil_of_le (by simp; omega)
    rw [this]
    rfl

theorem add_loop_eq (sx : Nat) (xs : List Nat) (sy : Nat) (ys : List Nat) (n i carry : Nat)
    (result : List Nat) (hi : 1 ≤ i) :
    add_loop (sx :: xs) (sy :: ys) n i carry result =
      .ok (result ++ add_le n (xs.reverse.drop (i - 1)) (ys.reverse.drop (i - 1)) carry) := by
  induction n generalizing i carry result with
  | zero => simp [add_loop, add_le]
  | succ n ih =>
    have ht : ∀ l : List Nat, (l.drop (i - 1)).tail = l.drop (i + 1 - 1) := by
      intro l
      rw [List.tail_drop]
      congr 1
      omega
    simp only [add_loop, digit_from_right_cons _ _ _ hi, add_le, ht]
    split_ifs
    · rw [ih (i + 1) 1 _ (by omega)]
      simp
    · rw [ih (i + 1) 0 _ (by omega)]
      simp

theorem add_le_spec (n : Nat) (xs ys : List Nat) (c : Nat) (hc : c ≤ 1)
    (hx : ∀ d ∈ xs, d < 10) (hy : ∀ d ∈ ys, d < 10) (hlx : xs.length ≤ n) (hly : ys.length ≤ n) :
    Nat.ofDigits 10 (add_le (n + 1) xs ys c) = Nat.ofDigits 10 xs + Nat.ofDigits 10 ys + c ∧
    (∀ d ∈ add_le (n + 1) xs ys c, d < 10) ∧ (add_le (n + 1) xs ys c).length = n + 1 := by
  induction n generalizing xs ys c with
  | zero =>
    have h1 : xs = [] := List.length_eq_zero.mp (by omega)
    have h2 : ys = [] := List.length_eq_zero.mp (by omega)
    subst h1 h2
    have h3 : c % 256 = c := Nat.mod_eq_of_lt (by omega)
    have h4 : ¬ c ≥ 10 := by omega
    simp [add_le, h3, h4, Nat.ofDigits]
    omega
  | succ n ih =>
    have hxh : xs.headD 0 < 10 := by
      cases xs with
      | nil => simp
      | cons a t => simpa using hx a (by simp)
    have hyh : ys.headD 0 < 10 := by
      cases ys with
      | nil => simp
      | cons a t => simpa using hy a (by simp)
    have hxt : ∀ d ∈ xs.tail, d < 10 := fun d hd => hx d (List.mem_of_mem_tail hd)
    have hyt : ∀ d ∈ ys.tail, d < 10 := fun d hd => hy d (List.mem_of_mem_tail hd)
    have hlxt : xs.tail.length ≤ n := by simp; omega
    have hlyt : ys.tail.length ≤ n := by simp; omega
    have hxv : Nat.ofDigits 10 xs = xs.headD 0 + 10 * Nat.ofDigits 10 xs.tail := by
      cases xs with
      | nil => simp [Nat.ofDigits]
      | cons a t => simp [Nat.ofDigits_cons]
    have hyv : Nat.ofDigits 10 ys = ys.headD 0 + 10 * Nat.ofDigits 10 ys.tail := by
      cases ys with
      | nil => simp [Nat.ofDigits]
      | cons a t => simp [Nat.ofDigits_cons]
    have hsum : (xs.headD 0 + ys.headD 0 + c) % 256 = xs.headD 0 + ys.headD 0 + c :=
      Nat.mod_eq_of_lt (by omega)
    rw [add_le]
    simp only [hsum]
    by_cases hge : xs.headD 0 + ys.headD 0 + c ≥ 10
    · obtain ⟨e1, e2, e3⟩ := ih xs.tail ys.tail 1 (le_refl _) hxt hyt hlxt hlyt
      rw [if_pos hge]
      refine ⟨?_, ?_, ?_⟩
      · rw [Nat.ofDigits_cons, e1, hxv, hyv]
        omega
      · intro d hd
        rcases List.mem_cons.mp hd with h | h
        · omega
        · exact e2 d h
      · simp [e3]
    · obtain ⟨e1, e2, e3⟩ := ih xs.tail ys.tail 0 (by omega) hxt hyt hlxt hlyt
      rw [if_neg hge]
      refine ⟨?_, ?_, ?_⟩
      · rw [Nat.ofDigits_cons, e1, hxv, hyv]
        omega
      · intro d hd
        rcases List.mem_cons.mp hd with h | h
        · omega
        · exact e2 d h
      · simp [e3]

theorem strip_one_spec (zs : List Nat) (L : Nat) (hl : zs.length = L + 1) (hd : ∀ d ∈ zs, d < 10) :
    (∀ d ∈ strip_one zs, d < 10) ∧ magnitude (strip_one zs) = magnitude zs ∧
    (strip_one zs).length = (if magnitude zs < 10 ^ L then L else L + 1) := by
  obtain ⟨h, t, rfl⟩ := List.exists_cons_of_ne_nil (List.ne_nil_of_length_eq_add_one hl)
  have hlt : t.length = L := by simpa using hl
  have ht : ∀ d ∈ t, d < 10 := fun d hdt => hd d (by simp [hdt])
  have hb := magnitude_lt t ht
  rw [hlt] at hb
  by_cases h0 : h = 0
  · subst h0
    simp only [strip_one, magnitude_cons, hlt, Nat.zero_mul, Nat.zero_add, hb, if_true]
    exact ⟨ht, trivial, trivial⟩
  · have hs : strip_one (h :: t) = h :: t := by
      unfold strip_one
      split
      · rename_i heq
        injection heq with e1 e2
        exact absurd e1.symm (fun e => h0 e.symm)
      · rfl
    have h1 : 1 * 10 ^ L ≤ h * 10 ^ L := Nat.mul_le_mul_right _ (Nat.pos_of_ne_zero h0)
    have h2 : ¬ (h * 10 ^ L + magnitude t < 10 ^ L) := by omega
    rw [hs, magnitude_cons, hlt, if_neg h2]
    exact ⟨hd, rfl, hl⟩

theorem idx_zero_strip (zs : List Nat) (hne : zs ≠ []) :
    ∃ h, idx zs 0 = .ok h ∧ (if h = 0 then zs.drop 1 else zs) = strip_one zs := by
  obtain ⟨h, t, rfl⟩ := List.exists_cons_of_ne_nil hne
  refine ⟨h, by simp [idx], ?_⟩
  by_cases h0 : h = 0
  · subst h0
    simp [strip_one]
  · rw [if_neg h0]
    unfold strip_one
    split
    · rename_i heq
      injection heq with e1 e2
      exact absurd e1 h0
    · rfl

theorem sign_is_cons (s : Nat) (d : List Nat) (k : Nat) :
    sign_is (s :: d) k = .ok (decide (s = k)) := by
  simp [sign_is, idx, Except.map]

/-- The same-sign branch of `operator+=` on two vectors with the same sign slot
and decimal digits: the sign slot is kept, the magnitudes are added, and the
length of the result is that of the longer operand, plus one exactly when the
sum needs the extra digit. -/
theorem add_same_sign_spec (s : Nat) (hs : s = 0 ∨ s = 1) (xs ys : List Nat)
    (hx : ∀ d ∈ xs, d < 10) (hy : ∀ d ∈ ys, d < 10) :
    ∃ zs, add_same_sign (s :: xs) (s :: ys) = .ok (s :: zs) ∧ (∀ d ∈ zs, d < 10) ∧
      magnitude zs = magnitude xs + magnitude ys ∧
      zs.length = (if magnitude xs + magnitude ys < 10 ^ (max xs.length ys.length)
        then max xs.length ys.length else max xs.length ys.length + 1) := by
  obtain ⟨e1, e2, e3⟩ := add_le_spec (max xs.length ys.length) xs.reverse ys.reverse 0
    (by omega) (by simpa using hx) (by simpa using hy) (by simp) (by simp)
  have hmax : max (s :: xs).length (s :: ys).length = max xs.length ys.length + 1 := by
    simp only [List.length_cons]
    omega
  have hloop := add_loop_eq s xs s ys (max xs.length ys.length + 1) 1 0 [] (le_refl _)
  simp only [Nat.sub_self, List.drop_zero, List.nil_append] at hloop
  set zs0 := (add_le (max xs.length ys.length + 1) xs.reverse ys.reverse 0).reverse with hz0
  have hz0len : zs0.length = max xs.length ys.length + 1 := by simp [hz0, e3]
  have hz0d : ∀ d ∈ zs0, d < 10 := by
    intro d hd
    exact e2 d (List.mem_reverse.mp hd)
  have hz0m : magnitude zs0 = magnitude xs + magnitude ys := by
    simp only [magnitude, hz0, List.reverse_reverse, e1]
    omega
  obtain ⟨f1, f2, f3⟩ := strip_one_spec zs0 _ hz0len hz0d
  obtain ⟨h, g1, g2⟩ := idx_zero_strip zs0 (List.ne_nil_of_length_eq_add_one hz0len)
  refine ⟨strip_one zs0, ?_, f1, by rw [f2, hz0m], by rw [f3, hz0m]⟩
  simp only [add_same_sign, hmax, hloop, bind, Except.bind, pure, Except.pure, ← hz0, g1, g2,
    and_then, sign_is_cons]
  rcases hs with rfl | rfl <;> simp

theorem head_ne_zero_of_le (zs : List Nat) (hd : ∀ d ∈ zs, d < 10) (hne : zs ≠ [])
    (h : 10 ^ (zs.length - 1) ≤ magnitude zs) : zs.head? ≠ some 0 := by
  obtain ⟨a, t, rfl⟩ := List.exists_cons_of_ne_nil hne
  intro h0
  have ha : a = 0 := by simpa using h0
  subst ha
  have hb := magnitude_lt t (fun d hdt => hd d (by simp [hdt]))
  rw [magnitude_cons] at h
  simp only [List.length_cons, Nat.add_sub_cancel] at h
  omega

/-- A sign slot of 0 or 1 followed by decimal digits without a leading zero
satisfies the representation invariants. -/
theorem well_formed_of_head (s : Nat) (hs : s = 0 ∨ s = 1) (zs : List Nat)
    (hd : ∀ d ∈ zs, d < 10) (hne : zs ≠ []) (hh : zs.head? ≠ some 0) : well_formed (s :: zs) := by
  refine ⟨hs, hne, hd, fun h => absurd h hh, fun h => ?_⟩
  rw [h] at hh
  exact absurd rfl hh

/-- The same-sign branch of `operator+=` on two non-zero values satisfying the
representation invariants yields a value satisfying them, with the magnitudes
added. -/
theorem add_same_sign_well_formed (s : Nat) (xs ys : List Nat) (hx : well_formed (s :: xs))
    (hy : well_formed (s :: ys)) (hmx : magnitude xs ≠ 0) (hmy : magnitude ys ≠ 0) :
    ∃ zs, add_same_sign (s :: xs) (s :: ys) = .ok (s :: zs) ∧ well_formed (s :: zs) ∧
      magnitude zs = magnitude xs + magnitude ys := by
  obtain ⟨hs, hlx, hdx, hux, _, hnx⟩ := well_formed_facts s xs hx
  obtain ⟨_, hly, hdy, huy, _, hny⟩ := well_formed_facts s ys hy
  obtain ⟨zs, e1, e2, e3, e4⟩ := add_same_sign_spec s hs xs ys hdx hdy
  have hxl := (hnx hmx).1
  have hyl := (hny hmy).1
  have hne : zs ≠ [] := by
    intro h
    rw [h] at e4
    simp only [List.length_nil] at e4
    split_ifs at e4
    omega
  have hge : 10 ^ (zs.length - 1) ≤ magnitude zs := by
    rw [e3, e4]
    split_ifs with hlt
    · rcases Nat.le_total xs.length ys.length with h | h
      · rw [Nat.max_eq_right h]
        omega
      · rw [Nat.max_eq_left h]
        omega
    · simp only [Nat.add_sub_cancel]
      omega
  exact ⟨zs, e1, well_formed_of_head s hs zs e2 hne (head_ne_zero_of_le zs e2 hne hge), e3⟩

theorem canonical_ne_zero (x : Int) (hx : x ≠ 0) : operator_eq (canonical x) zero = false := by
  cases h : operator_eq (canonical x) zero
  · rfl
  · exfalso
    have h1 := (operator_eq_iff _ _).mp h
    have h2 := denote_canonical x
    rw [h1] at h2
    apply hx
    rw [← h2]
    simp [zero, denote, magnitude]

theorem canonical_zero : canonical 0 = zero := by
  simp [canonical, zero]

theorem canonical_cons (x : Int) (hx : x ≠ 0) :
    canonical x = (if x < 0 then 0 else 1) :: (Nat.digits 10 x.natAbs).reverse ∧
    magnitude (Nat.digits 10 x.natAbs).reverse = x.natAbs := by
  refine ⟨by simp only [canonical, hx, if_false], ?_⟩
  simp only [magnitude, List.reverse_reverse, Nat.ofDigits_digits]

/-- Binary `operator+` on the canonical representations of two integers of
the same sign (zero counting with either sign) yields the canonical
representation of their sum. -/
theorem operator_add_same_sign (x y : Int) (h : (0 ≤ x ∧ 0 ≤ y) ∨ (x ≤ 0 ∧ y ≤ 0)) :
    operator_add (canonical x) (canonical y) = .ok (canonical (x + y)) := by
  by_cases hx : x = 0
  · subst hx
    have : operator_eq (canonical 0) zero = true := by rw [canonical_zero]; decide
    simp [operator_add, operator_add_assign, max_depth, add_assign_depth, this, Except.map]
  by_cases hy : y = 0
  · subst hy
    have : operator_eq (canonical 0) zero = true := by rw [canonical_zero]; decide
    simp [operator_add, operator_add_assign, max_depth, add_assign_depth, this, Except.map,
      canonical_ne_zero x hx]
  obtain ⟨cx, mx⟩ := canonical_cons x hx
  obtain ⟨cy, my⟩ := canonical_cons y hy
  have hsign : (if x < 0 then 0 else 1 : Nat) = (if y < 0 then 0 else 1 : Nat) := by
    rcases h with ⟨h1, h2⟩ | ⟨h1, h2⟩
    · rw [if_neg (by omega), if_neg (by omega)]
    · rw [if_pos (by omega), if_pos (by omega)]
  have wx := canonical_well_formed x
  have wy := canonical_well_formed y
  rw [cx] at wx
  rw [cy, ← hsign] at wy
  obtain ⟨zs, e1, e2, e3⟩ := add_same_sign_well_formed _ _ _ wx wy
    (by rw [mx]; exact Int.natAbs_ne_zero.mpr hx) (by rw [my]; exact Int.natAbs_ne_zero.mpr hy)
  have hden : denote ((if x < 0 then 0 else 1 : Nat) :: zs) = x + y := by
    by_cases hneg : x < 0
    · simp only [denote, e3, mx, my, hneg, if_true]
      rw [Nat.cast_add]
      omega
    · simp only [denote, e3, mx, my, hneg, if_false, one_ne_zero]
      rw [Nat.cast_add]
      omega
  have hres := well_formed_eq_canonical _ e2
  rw [hden] at hres
  have hnx := canonical_ne_zero x hx
  have hny := canonical_ne_zero y hy
  rw [cx] at hnx
  rw [cy, ← hsign] at hny
  rw [cx, cy, ← hsign, ← hres]
  simp only [operator_add, operator_add_assign, max_depth, add_assign_depth, hnx, hny,
    Bool.false_eq_true, if_false, and_then, sign_is_cons, bind, Except.bind, e1, pure,
    Except.pure, Except.map]
  by_cases hneg : x < 0 <;> simp [hneg]

/-! ## The call depth budget -/

theorem sign_is_true (v : bigint) (s : Nat) (h : sign_is v s = .ok true) :
    ∃ t, v = s :: t := by
  cases v with
  | nil => simp [sign_is, idx, Except.map] at h
  | cons a t =>
    rw [sign_is_cons] at h
    have : a = s := by simpa using h
    exact ⟨t, by rw [this]⟩

theorem operator_neg_cons (s : Nat) (t : List Nat) :
    operator_neg (s :: t) = .ok ((if s = 0 then 1 else 0) :: t) := by
  by_cases h : s = 0 <;> simp [operator_neg, idx, h]

/-- With two positive sign slots `operator-=` makes no further call. -/
theorem sub_assign_depth_positive (d : Nat) (xs ys : List Nat) :
    sub_assign_depth (d + 1) (1 :: xs) (1 :: ys) = sub_assign_depth 1 (1 :: xs) (1 :: ys) := by
  simp [sub_assign_depth, and_then, sign_is_cons, bind, Except.bind]

/-- With two equal sign slots `operator+=` makes no further call. -/
theorem add_assign_depth_same (d s : Nat) (xs ys : List Nat) :
    add_assign_depth (d + 1) (s :: xs) (s :: ys) = add_assign_depth 1 (s :: xs) (s :: ys) := by
  by_cases h0 : s = 0 <;> by_cases h1 : s = 1 <;>
    simp [add_assign_depth, and_then, sign_is_cons, bind, Except.bind, h0, h1]

/-- A budget of two suffices for `operator+=`. -/
theorem add_assign_depth_stable (d : Nat) (lhs rhs : bigint) :
    add_assign_depth (d + 2) lhs rhs = add_assign_depth 2 lhs rhs := by
  rw [add_assign_depth, add_assign_depth]
  split_ifs with hz1 hz2
  · rfl
  · rfl
  · cases h1 : and_then (sign_is lhs 0) (sign_is rhs 1) with
    | error e => simp [bind, Except.bind]
    | ok b1 =>
      cases b1 with
      | true =>
        have hl : sign_is lhs 0 = .ok true := by
          cases hh : sign_is lhs 0 with
          | error e => simp [and_then, hh, Except.bind] at h1
          | ok b => cases b <;> simp_all [and_then, Except.bind]
        have hr : sign_is rhs 1 = .ok true := by
          simpa [and_then, hl, Except.bind] using h1
        obtain ⟨xs, rfl⟩ := sign_is_true lhs 0 hl
        obtain ⟨ys, rfl⟩ := sign_is_true rhs 1 hr
        simp only [bind, Except.bind, operator_neg_cons, if_true]
        exact sub_assign_depth_positive d ys xs
      | false =>
        cases h2 : and_then (sign_is lhs 1) (sign_is rhs 0) with
        | error e => simp [bind, Except.bind]
        | ok b2 =>
          cases b2 with
          | true =>
            have hl : sign_is lhs 1 = .ok true := by
              cases hh : sign_is lhs 1 with
              | error e => simp [and_then, hh, Except.bind] at h2
              | ok b => cases b <;> simp_all [and_then, Except.bind]
            have hr : sign_is rhs 0 = .ok true := by
              simpa [and_then, hl, Except.bind] using h2
            obtain ⟨xs, rfl⟩ := sign_is_true lhs 1 hl
            obtain ⟨ys, rfl⟩ := sign_is_true rhs 0 hr
            simp only [bind, Except.bind, operator_neg_cons, if_true]
            rw [sub_assign_depth_positive d xs ys]
            simp
          | false => simp [bind, Except.bind]

/-- A budget of three suffices for `operator-=`: a larger budget gives the
same result. -/
theorem sub_assign_depth_stable (d : Nat) (lhs rhs : bigint) :
    sub_assign_depth (d + 3) lhs rhs = sub_assign_depth 3 lhs rhs := by
  rw [sub_assign_depth, sub_assign_depth]
  split_ifs with hz1 hz2
  · rfl
  · rfl
  · have e := add_assign_depth_stable d
    have e0 := add_assign_depth_stable 0
    simp only [bind, Except.bind, add_assign_depth_stable d]

/-- A budget of three suffices for `operator+=` as well. -/
theorem add_assign_depth_stable3 (d : Nat) (lhs rhs : bigint) :
    add_assign_depth (d + 3) lhs rhs = add_assign_depth 3 lhs rhs := by
  rw [add_assign_depth_stable (d + 1), add_assign_depth_stable 1]

/-! ## Claims on addition and subtraction -/

theorem canonical_1000 : canonical 1000 = [1, 1, 0, 0, 0] := by
  simp [canonical]

theorem canonical_999 : canonical 999 = [1, 9, 9, 9] := by
  simp [canonical]

theorem canonical_neg_999 : canonical (-999) = [0, 9, 9, 9] := by
  simp [canonical]

theorem canonical_1 : canonical 1 = [1, 1] := by
  simp [canonical]

/-- C1: adding the canonical representations of 1000 and -999 yields the
vector [1, 0, 1], with a leading zero digit, which `operator==` tells apart
from the canonical representation of 1. -/
theorem c1_add_leaves_leading_zero :
    operator_add (canonical 1000) (canonical (-999)) = .ok [1, 0, 1] ∧
    operator_eq [1, 0, 1] (canonical (1000 + -999)) = false := by
  have h : (1000 : Int) + -999 = 1 := by norm_num
  rw [h, canonical_1000, canonical_neg_999, canonical_1]
  decide

/-- C2: subtracting the canonical representation of 999 from that of 1000
yields the vector [1, 0, 1], with a leading zero digit, which `operator==`
tells apart from the canonical representation of 1. -/
theorem c2_sub_leaves_leading_zero :
    operator_sub (canonical 1000) (canonical 999) = .ok [1, 0, 1] ∧
    operator_eq [1, 0, 1] (canonical (1000 - 999)) = false := by
  have h : (1000 : Int) - 999 = 1 := by norm_num
  rw [h, canonical_1000, canonical_999, canonical_1]
  decide

/-! ## Long multiplication -/

theorem mul_rows_zero (lhs rhs : bigint) (state : Int × bigint × bigint) :
    mul_rows lhs rhs 0 state = .ok state := by
  rw [mul_rows]

theorem mul_rows_succ (lhs rhs : bigint) (i : Nat) (state : Int × bigint × bigint) :
    mul_rows lhs rhs (i + 1) state =
      (mul_row lhs rhs i state.1 state.2.1).bind
        (fun next => mul_rows lhs rhs i (next.1, next.2, next.2)) := by
  rw [mul_rows]

theorem i16_of_small (k : Int) (h1 : -32768 ≤ k) (h2 : k ≤ 32767) : i16 k = k := by
  unfold i16
  omega

theorem u8_of_small (k : Nat) (h : k < 256) : u8 (k : Int) = k := by
  unfold u8
  have : (k : Int) % 256 = (k : Int) := Int.emod_eq_of_lt (by omega) (by omega)
  rw [this]
  exact Int.toNat_ofNat _

theorem magnitude_append_singleton (l : List Nat) (d : Nat) :
    magnitude (l ++ [d]) = 10 * magnitude l + d := by
  simp [magnitude, Nat.ofDigits_cons, Nat.add_comm]

theorem magnitude_append_zeros (l : List Nat) (r : Nat) :
    magnitude (l ++ List.replicate r 0) = magnitude l * 10 ^ r := by
  induction r with
  | zero => simp
  | succ r ih =>
    rw [List.replicate_succ', ← List.append_assoc, magnitude_append_singleton, ih]
    ring

theorem magnitude_replicate_zero (r : Nat) : magnitude (List.replicate r 0) = 0 := by
  have := magnitude_append_zeros [] r
  simpa [magnitude] using this

theorem idx_cons_succ (s : Nat) (ds : List Nat) (j : Nat) (h : j < ds.length) :
    idx (s :: ds) (j + 1) = .ok ds[j] := by
  simp [idx, List.getElem?_eq_getElem h]

theorem mul_step_arith (p : Nat) (hp : p ≤ 90) :
    i16 (p : Int) = (p : Int) ∧
    (if (10 : Int) ≤ (p : Int) then i16 ((p : Int) / 10) else 0) = ((p / 10 : Nat) : Int) ∧
    (if (10 : Int) ≤ (p : Int) then (p : Int) % 10 else (p : Int)) = ((p % 10 : Nat) : Int) ∧
    ¬ ((10 : Int) ≤ ((p % 10 : Nat) : Int)) := by
  have e1 : (p : Int) / 10 = ((p / 10 : Nat) : Int) := by norm_cast
  have e2 : (p : Int) % 10 = ((p % 10 : Nat) : Int) := by norm_cast
  refine ⟨i16_of_small _ (by omega) (by omega), ?_, ?_, by omega⟩
  · by_cases hge : (10 : Int) ≤ (p : Int)
    · rw [if_pos hge, e1]
      exact i16_of_small _ (by omega) (by omega)
    · rw [if_neg hge]
      have : p / 10 = 0 := by omega
      rw [this]
      rfl
  · by_cases hge : (10 : Int) ≤ (p : Int)
    · rw [if_pos hge, e2]
    · rw [if_neg hge]
      have : p % 10 = p := by omega
      rw [this]

/-- One row of the long multiplication: the digit `x` of the left operand
times the first `j` digits of the right operand, plus the incoming carry,
written with `j + 1` digits in front of the row built so far; the carry left
over is 0. -/
theorem mul_cols_digit_row (sx : Nat) (xs : List Nat) (sy : Nat) (ys : List Nat) (i x : Nat)
    (hi : 1 ≤ i) (hx : idx (sx :: xs) i = .ok x) (hx10 : x < 10) (hy : ∀ d ∈ ys, d < 10)
    (j : Nat) (hj : j ≤ ys.length) (c : Nat) (hc : c ≤ 9) (res : List Nat) :
    ∃ row, mul_cols (sx :: xs) (sy :: ys) i (j + 1) (c : Int) res = .ok (0, row ++ res) ∧
      row.length = j + 1 ∧ (∀ d ∈ row, d < 10) ∧
      magnitude row = x * magnitude (ys.take j) + c := by
  have hi0 : i ≠ 0 := by omega
  induction j generalizing c res with
  | zero =>
    refine ⟨[c], ?_, rfl, by simp; omega, by simp [magnitude]⟩
    have h1 : i16 (0 + (c : Int)) = (c : Int) := by
      rw [Int.zero_add]; exact i16_of_small _ (by omega) (by omega)
    have h2 : ¬ ((c : Int) ≥ 10) := by omega
    rw [mul_cols]
    simp only [hi0, false_and, if_false, or_true, if_true, h1, h2,
      u8_of_small c (by omega)]
    rw [mul_cols]
    rfl
  | succ j ih =>
    have hjl : j < ys.length := by omega
    have hyj : ys[j] < 10 := hy _ (List.getElem_mem _)
    have hidx := idx_cons_succ sy ys j hjl
    have hprod : x * ys[j] ≤ 9 * 9 :=
      Nat.mul_le_mul (show x ≤ 9 by omega) (show ys[j] ≤ 9 by omega)
    obtain ⟨p, hp⟩ : ∃ p : Nat, p = x * ys[j] + c := ⟨_, rfl⟩
    have hp90 : p ≤ 90 := by omega
    have hcast0 : (x : Int) * (ys[j] : Int) = ((x * ys[j] : Nat) : Int) := by push_cast; rfl
    have h0 : i16 ((x : Int) * (ys[j] : Int)) = (x : Int) * (ys[j] : Int) := by
      rw [hcast0]
      exact i16_of_small _ (by omega) (by omega)
    have hcast : (x : Int) * (ys[j] : Int) + (c : Int) = (p : Int) := by
      rw [hp]; push_cast; rfl
    obtain ⟨a1, a2, a3, a4⟩ := mul_step_arith p hp90
    obtain ⟨row, e1, e2, e3, e4⟩ := ih (by omega) (p / 10) (by omega) ((p % 10) :: res)
    refine ⟨row ++ [p % 10], ?_, by simp [e2], ?_, ?_⟩
    · rw [mul_cols]
      simp only [hi0, false_and, if_false, false_or, Nat.add_one_ne_zero, hx, hidx, h0, hcast,
        a1, ge_iff_le, a2, a3, a4, u8_of_small (p % 10) (by omega), e1]
      simp
    · intro d hd
      rcases List.mem_append.mp hd with h | h
      · exact e3 d h
      · have : d = p % 10 := by simpa using h
        omega
    · rw [magnitude_append_singleton, e4, List.take_succ,
        List.getElem?_eq_getElem hjl]
      simp only [Option.toList_some]
      rw [magnitude_append_singleton]
      have h6 : 10 * (p / 10) + p % 10 = x * ys[j] + c := by omega
      have h5 : 10 * (x * magnitude (List.take j ys) + p / 10) + p % 10 =
          10 * (x * magnitude (List.take j ys)) + (10 * (p / 10) + p % 10) := by ring
      rw [h5, h6]
      ring

/-- The row of the sign slot: nothing but zeros, one per digit of the right
operand handled. -/
theorem mul_cols_sign_row (lhs rhs : bigint) (j : Nat) (res : List Nat) :
    mul_cols lhs rhs 0 (j + 1) 0 res = .ok (0, List.replicate j 0 ++ res) := by
  induction j generalizing res with
  | zero => simp [mul_cols]
  | succ j ih =>
    have h1 : i16 (0 + 0) = 0 := by decide
    have h2 : u8 0 = 0 := by decide
    rw [mul_cols]
    simp only [true_and, Nat.add_one_ne_zero, if_false, true_or, if_true, h1,
      ge_iff_le, show ¬ ((10 : Int) ≤ 0) by omega, h2]
    rw [ih, List.replicate_succ', List.append_assoc]
    rfl

theorem operator_eq_zero_cons (cs : List Nat) :
    operator_eq (1 :: cs) zero = decide (cs = [0]) := by
  by_cases h : cs = [0]
  · subst h
    decide
  · have : operator_eq (1 :: cs) zero ≠ true := by
      intro he
      have := (operator_eq_iff _ _).mp he
      simp only [zero, List.cons.injEq, true_and] at this
      exact h this
    simp [h, this]

/-- The operator `operator+=` on two vectors with a positive sign slot and decimal digits:
the right operand is left alone, the magnitudes are added, and the result is
at most one digit longer than the longer operand, and then only if the sum
needs that digit. -/
theorem add_assign_positive (cs ps : List Nat) (hc : ∀ d ∈ cs, d < 10)
    (hp : ∀ d ∈ ps, d < 10) :
    ∃ qs, operator_add_assign (1 :: cs) (1 :: ps) = .ok (1 :: qs, 1 :: ps) ∧
      (∀ d ∈ qs, d < 10) ∧ magnitude qs = magnitude cs + magnitude ps ∧
      qs.length ≤ max cs.length ps.length + 1 ∧
      (qs.length = max cs.length ps.length + 1 →
        10 ^ max cs.length ps.length ≤ magnitude qs) := by
  by_cases h1 : cs = [0]
  · subst h1
    refine ⟨ps, ?_, hp, by simp [magnitude], by omega, fun h => by omega⟩
    simp [operator_add_assign, max_depth, add_assign_depth, operator_eq_zero_cons]
  by_cases h2 : ps = [0]
  · subst h2
    refine ⟨cs, ?_, hc, by simp [magnitude], by omega, fun h => by omega⟩
    simp [operator_add_assign, max_depth, add_assign_depth, operator_eq_zero_cons, h1]
  obtain ⟨zs, e1, e2, e3, e4⟩ := add_same_sign_spec 1 (Or.inr rfl) cs ps hc hp
  refine ⟨zs, ?_, e2, e3, ?_, ?_⟩
  · simp [operator_add_assign, max_depth, add_assign_depth, operator_eq_zero_cons, h1, h2,
      and_then, sign_is_cons, bind, Except.bind, e1, pure, Except.pure]
  · rw [e4]
    split_ifs <;> omega
  · intro h
    rw [e4] at h
    rw [e3]
    split_ifs at h with hlt
    · omega
    · omega

theorem strip_one_ge (zs : List Nat) (hd : ∀ d ∈ zs, d < 10) (m : Nat)
    (hl : zs.length = m + 1) (hge : 10 ^ (m - 1) ≤ magnitude zs) :
    10 ^ ((strip_one zs).length - 1) ≤ magnitude (strip_one zs) ∧ m ≤ (strip_one zs).length := by
  obtain ⟨_, f2, f3⟩ := strip_one_spec zs m hl hd
  rw [f2, f3]
  split_ifs with hlt
  · exact ⟨hge, le_refl _⟩
  · simp only [Nat.add_sub_cancel]
    exact ⟨by omega, by omega⟩

theorem row_bound (x A B R P : Nat) (hx : x ≤ 9) (hA : A < B) (hP : P < B * R) :
    x * A * R + P < 10 * (B * R) := by
  have c1 : x * A * R ≤ 9 * (A * R) := by
    rw [Nat.mul_assoc]
    exact Nat.mul_le_mul_right _ hx
  have c2 : (A + 1) * R ≤ B * R := Nat.mul_le_mul_right _ hA
  rw [Nat.add_mul, Nat.one_mul] at c2
  generalize A * R = U at *
  generalize B * R = T at *
  generalize x * A * R = V at *
  omega

/-- The body of the row loop for a digit row (`i ≥ 1`), entered with carry 0
and a positive `prev` of decimal digits: `current` becomes the row (the digit
times the right operand, shifted) plus `prev`, the carry is 0 again, and the
length stays within one digit of the row's own length. -/
theorem mul_row_digit (sx : Nat) (xs : List Nat) (sy : Nat) (ys : List Nat)
    (hyd : ∀ d ∈ ys, d < 10)
    (hxl : xs.length + 1 ≤ 32767) (hyl : ys.length + 1 ≤ 32767) (hm : 1 ≤ ys.length)
    (i : Nat) (hi1 : 1 ≤ i) (hin : i ≤ xs.length) (x : Nat) (hidx : idx (sx :: xs) i = .ok x)
    (hx10 : x < 10) (ps : List Nat) (hps : ∀ d ∈ ps, d < 10)
    (hpl : ps.length ≤ ys.length + (xs.length - i)) :
    ∃ qs, mul_row (sx :: xs) (sy :: ys) i 0 (1 :: ps) = .ok (0, 1 :: qs) ∧
      (∀ d ∈ qs, d < 10) ∧
      magnitude qs = x * magnitude ys * 10 ^ (xs.length - i) + magnitude ps ∧
      qs.length ≤ ys.length + (xs.length - i) + 1 ∧
      (x ≠ 0 → 10 ^ (ys.length - 1) ≤ magnitude ys →
        10 ^ (qs.length - 1) ≤ magnitude qs) := by
  obtain ⟨rowd, r1, r2, r3, r4⟩ := mul_cols_digit_row sx xs sy ys i x hi1 hidx hx10 hyd
    ys.length (le_refl _) 0 (by omega) []
  simp only [List.take_length, Nat.add_zero, List.append_nil, Nat.cast_zero] at r1 r4
  have hrow : (i16 (i16 ((sx :: xs).length : Nat) - (i : Int) - 1)).toNat = xs.length - i := by
    have e1 : i16 ((sx :: xs).length : Nat) = (xs.length : Int) + 1 := by
      rw [i16_of_small _ (by simp; omega) (by simp; omega)]
      simp
    rw [e1, i16_of_small _ (by omega) (by omega)]
    omega
  have hj0 : (i16 (i16 ((sy :: ys).length : Nat) - 1) + 1).toNat = ys.length + 1 := by
    have e1 : i16 ((sy :: ys).length : Nat) = (ys.length : Int) + 1 := by
      rw [i16_of_small _ (by simp; omega) (by simp; omega)]
      simp
    rw [e1, i16_of_small _ (by omega) (by omega)]
    omega
  obtain ⟨h, g1, g2⟩ := idx_zero_strip rowd (List.ne_nil_of_length_eq_add_one r2)
  obtain ⟨f1, f2, f3⟩ := strip_one_spec rowd ys.length r2 r3
  set cs := strip_one rowd ++ List.replicate (xs.length - i) 0 with hcs
  have hcd : ∀ d ∈ cs, d < 10 := by
    intro d hd
    rcases List.mem_append.mp hd with h | h
    · exact f1 d h
    · rw [(List.mem_replicate.mp h).2]
      omega
  have hcm : magnitude cs = x * magnitude ys * 10 ^ (xs.length - i) := by
    rw [hcs, magnitude_append_zeros, f2, r4]
  have hcl : cs.length = (strip_one rowd).length + (xs.length - i) := by
    simp [hcs]
  obtain ⟨qs, a1, a2, a3, a4, a5⟩ := add_assign_positive cs ps hcd hps
  have hmy := magnitude_lt ys hyd
  have hmp := magnitude_lt ps hps
  have hmq := magnitude_lt qs a2
  have hpow : ∀ a b : Nat, a ≤ b → 10 ^ a ≤ 10 ^ b :=
    fun a b hab => Nat.pow_le_pow_right (by norm_num) hab
  refine ⟨qs, ?_, a2, by rw [a3, hcm], ?_, ?_⟩
  · simp only [mul_row, hrow, hj0, r1, bind, Except.bind, g1, g2, pure, Except.pure,
      List.cons_append, ← hcs, a1]
  · -- the length bound
    by_contra hcon
    have hq : qs.length = max cs.length ps.length + 1 := by
      have : cs.length ≤ ys.length + (xs.length - i) + 1 := by
        rw [hcl, f3]
        split_ifs <;> omega
      omega
    have h10 := a5 hq
    have hL : ys.length + (xs.length - i) + 1 ≤ max cs.length ps.length := by omega
    have h11 := hpow _ _ hL
    have hrowv : x * magnitude ys * 10 ^ (xs.length - i) + magnitude ps <
        10 ^ (ys.length + (xs.length - i) + 1) := by
      have b3 : magnitude ps < 10 ^ (ys.length + (xs.length - i)) :=
        lt_of_lt_of_le hmp (hpow _ _ hpl)
      have b5 : 10 ^ (ys.length + (xs.length - i) + 1) =
          10 * (10 ^ ys.length * 10 ^ (xs.length - i)) := by
        rw [pow_succ, pow_add]; ring
      rw [pow_add] at b3
      rw [b5]
      exact row_bound _ _ _ _ _ (by omega) hmy b3
    rw [a3, hcm] at h10
    omega
  · intro hx0 hy0
    have hrge : 10 ^ (ys.length - 1) ≤ magnitude rowd := by
      rw [r4]
      calc 10 ^ (ys.length - 1) ≤ magnitude ys := hy0
        _ = 1 * magnitude ys := (Nat.one_mul _).symm
        _ ≤ x * magnitude ys := Nat.mul_le_mul_right _ (Nat.pos_of_ne_zero hx0)
    obtain ⟨s1, s2⟩ := strip_one_ge rowd r3 ys.length r2 hrge
    have hcge : 10 ^ (cs.length - 1) ≤ magnitude cs := by
      rw [hcl, hcs, magnitude_append_zeros]
      have : (strip_one rowd).length + (xs.length - i) - 1 =
          ((strip_one rowd).length - 1) + (xs.length - i) := by omega
      rw [this, pow_add]
      exact Nat.mul_le_mul_right _ s1
    have hmax : max cs.length ps.length = cs.length := by
      apply Nat.max_eq_left
      omega
    rw [hmax] at a4 a5
    by_cases hq : qs.length = cs.length + 1
    · have := a5 hq
      rw [hq]
      simpa using this
    · have h1 : qs.length - 1 ≤ cs.length - 1 := by omega
      calc 10 ^ (qs.length - 1) ≤ 10 ^ (cs.length - 1) := hpow _ _ h1
        _ ≤ magnitude cs := hcge
        _ ≤ magnitude qs := by rw [a3]; omega

theorem i16_length (s : Nat) (ds : List Nat) (h : ds.length + 1 ≤ 32767) :
    i16 ((s :: ds).length : Nat) = (ds.length : Int) + 1 := by
  rw [i16_of_small _ (by simp; omega) (by simp; omega)]
  simp

/-- The body of the row loop for the row of the sign slot (`i = 0`), entered
with carry 0 and a positive `prev` without leading zero that is at least as
long as the row: `current` has the magnitude of `prev` and no leading zero. -/
theorem mul_row_sign (sx : Nat) (xs : List Nat) (sy : Nat) (ys : List Nat)
    (hxl : xs.length + 1 ≤ 32767) (hyl : ys.length + 1 ≤ 32767) (hm : 1 ≤ ys.length)
    (ps : List Nat) (hps : ∀ d ∈ ps, d < 10) (hcanon : 10 ^ (ps.length - 1) ≤ magnitude ps)
    (hlen : ys.length - 1 + xs.length ≤ ps.length) :
    ∃ qs, mul_row (sx :: xs) (sy :: ys) 0 0 (1 :: ps) = .ok (0, 1 :: qs) ∧
      (∀ d ∈ qs, d < 10) ∧ magnitude qs = magnitude ps ∧
      10 ^ (qs.length - 1) ≤ magnitude qs := by
  have hrow : (i16 (i16 ((sx :: xs).length : Nat) - ((0 : Nat) : Int) - 1)).toNat = xs.length := by
    rw [i16_length sx xs hxl, i16_of_small _ (by omega) (by omega)]
    omega
  have hj0 : (i16 (i16 ((sy :: ys).length : Nat) - 1) + 1).toNat = ys.length + 1 := by
    rw [i16_length sy ys hyl, i16_of_small _ (by omega) (by omega)]
    omega
  have hcols := mul_cols_sign_row (sx :: xs) (sy :: ys) ys.length []
  rw [List.append_nil] at hcols
  have hzd : ∀ d ∈ List.replicate ys.length 0, d < 10 := by
    intro d hd
    rw [(List.mem_replicate.mp hd).2]
    omega
  have hzl : (List.replicate ys.length 0).length = (ys.length - 1) + 1 := by
    rw [List.length_replicate]
    omega
  obtain ⟨h, g1, g2⟩ := idx_zero_strip (List.replicate ys.length 0)
    (List.ne_nil_of_length_eq_add_one hzl)
  obtain ⟨f1, f2, f3⟩ := strip_one_spec _ _ hzl hzd
  rw [magnitude_replicate_zero] at f2 f3
  have hpos : 0 < 10 ^ (ys.length - 1) := Nat.pos_pow_of_pos _ (by norm_num)
  rw [if_pos hpos] at f3
  set cs := strip_one (List.replicate ys.length 0) ++ List.replicate xs.length 0 with hcs
  have hcd : ∀ d ∈ cs, d < 10 := by
    intro d hd
    rcases List.mem_append.mp hd with h | h
    · exact f1 d h
    · rw [(List.mem_replicate.mp h).2]
      omega
  have hcm : magnitude cs = 0 := by
    rw [hcs, magnitude_append_zeros, f2, Nat.zero_mul]
  have hcl : cs.length = ys.length - 1 + xs.length := by
    simp [hcs, f3]
  obtain ⟨qs, a1, a2, a3, a4, a5⟩ := add_assign_positive cs ps hcd hps
  have hmp := magnitude_lt ps hps
  have hmax : max cs.length ps.length = ps.length := Nat.max_eq_right (by omega)
  rw [hmax] at a4 a5
  rw [hcm, Nat.zero_add] at a3
  have hql : qs.length ≤ ps.length := by
    by_contra hcon
    have := a5 (by omega)
    omega
  refine ⟨qs, ?_, a2, a3, ?_⟩
  · simp only [mul_row, hrow, hj0, hcols, bind, Except.bind, g1, g2, pure, Except.pure,
      List.cons_append, ← hcs, a1]
  · rw [a3]
    exact le_trans (Nat.pow_le_pow_right (by norm_num) (by omega)) hcanon

/-- The row loop of `operator*=` from a digit row down to the sign row: once
`prev` holds the product of the digits already handled with the right
operand, the loop ends with `current` holding the product of the two
magnitudes, without leading zero. -/
theorem mul_rows_digits (sx : Nat) (xs : List Nat) (sy : Nat) (ys : List Nat)
    (hxd : ∀ d ∈ xs, d < 10) (hyd : ∀ d ∈ ys, d < 10)
    (hxl : xs.length + 1 ≤ 32767) (hyl : ys.length + 1 ≤ 32767)
    (hn : 1 ≤ xs.length) (hm : 1 ≤ ys.length)
    (hx0 : 10 ^ (xs.length - 1) ≤ magnitude xs) (hy0 : 10 ^ (ys.length - 1) ≤ magnitude ys)
    (k : Nat) (hk : k + 1 ≤ xs.length) (ps cur : List Nat) (hps : ∀ d ∈ ps, d < 10)
    (hpm : magnitude ps = magnitude (xs.drop (k + 1)) * magnitude ys)
    (hpl : ps.length ≤ ys.length + (xs.length - (k + 1))) :
    ∃ qs, mul_rows (sx :: xs) (sy :: ys) (k + 2) (0, 1 :: ps, cur) = .ok (0, 1 :: qs, 1 :: qs) ∧
      (∀ d ∈ qs, d < 10) ∧ magnitude qs = magnitude xs * magnitude ys ∧
      10 ^ (qs.length - 1) ≤ magnitude qs := by
  induction k generalizing ps cur with
  | zero =>
    obtain ⟨x0, xt, rfl⟩ := List.exists_cons_of_ne_nil (List.length_pos.mp hn)
    have hx0ne : x0 ≠ 0 := by
      have := head_ne_zero_of_le (x0 :: xt) hxd (by simp) hx0
      simpa using this
    have hidx : idx (sx :: x0 :: xt) 1 = .ok x0 := by simp [idx]
    obtain ⟨q1, b1, b2, b3, b4, b5⟩ := mul_row_digit sx (x0 :: xt) sy ys hyd hxl hyl hm 1
      (le_refl _) hn x0 hidx (hxd x0 (by simp)) ps hps hpl
    have hq1m : magnitude q1 = magnitude (x0 :: xt) * magnitude ys := by
      rw [b3, hpm, magnitude_cons]
      simp only [List.length_cons, Nat.add_sub_cancel, Nat.zero_add, List.drop_succ_cons,
        List.drop_zero]
      ring
    have hq1c := b5 hx0ne hy0
    have hq1len : ys.length - 1 + (x0 :: xt).length ≤ q1.length := by
      have h1 := magnitude_lt q1 b2
      have h2 : 10 ^ ((x0 :: xt).length - 1) * 10 ^ (ys.length - 1) ≤
          magnitude (x0 :: xt) * magnitude ys := Nat.mul_le_mul hx0 hy0
      rw [← pow_add, ← hq1m] at h2
      have h3 := lt_of_le_of_lt h2 h1
      have h4 := (Nat.pow_lt_pow_iff_right (by norm_num : 1 < 10)).mp h3
      omega
    obtain ⟨qs, c1, c2, c3, c4⟩ := mul_row_sign sx (x0 :: xt) sy ys hxl hyl hm q1 b2 hq1c hq1len
    refine ⟨qs, ?_, c2, by rw [c3, hq1m], c4⟩
    rw [mul_rows_succ]
    simp only [b1, Except.bind]
    rw [mul_rows_succ]
    simp only [c1, Except.bind]
    rw [mul_rows_zero]
  | succ k ih =>
    have hkl : k + 1 < xs.length := by omega
    have hdrop : xs.drop (k + 1) = xs[k + 1] :: xs.drop (k + 2) := List.drop_eq_getElem_cons hkl
    have hidx := idx_cons_succ sx xs (k + 1) hkl
    have hx10 : xs[k + 1] < 10 := hxd _ (List.getElem_mem _)
    obtain ⟨q1, b1, b2, b3, b4, _⟩ := mul_row_digit sx xs sy ys hyd hxl hyl hm (k + 2)
      (by omega) hk _ hidx hx10 ps hps hpl
    have hq1m : magnitude q1 = magnitude (xs.drop (k + 1)) * magnitude ys := by
      rw [b3, hpm, hdrop, magnitude_cons, List.length_drop]
      ring
    obtain ⟨qs, c1, c2, c3, c4⟩ := ih (by omega) q1 (1 :: q1) b2 hq1m (by omega)
    refine ⟨qs, ?_, c2, c3, c4⟩
    rw [mul_rows_succ]
    simp only [b1, Except.bind]
    exact c1

/-- The operator `operator*=` on two non-zero values satisfying the representation
invariants, each stored in at most 32767 entries: the result satisfies the
invariants, its sign slot is 1 exactly when the two sign slots agree, and its
magnitude is the product of the magnitudes. -/
theorem mul_assign_well_formed (sx : Nat) (xs : List Nat) (sy : Nat) (ys : List Nat)
    (hx : well_formed (sx :: xs)) (hy : well_formed (sy :: ys))
    (hmx : magnitude xs ≠ 0) (hmy : magnitude ys ≠ 0)
    (hxl : xs.length + 1 ≤ 32767) (hyl : ys.length + 1 ≤ 32767) :
    ∃ qs, operator_mul_assign (sx :: xs) (sy :: ys) = .ok ((if sx = sy then 1 else 0) :: qs) ∧
      well_formed ((if sx = sy then 1 else 0) :: qs) ∧
      magnitude qs = magnitude xs * magnitude ys := by
  obtain ⟨hsx, hlx, hdx, _, _, hnx⟩ := well_formed_facts sx xs hx
  obtain ⟨hsy, hly, hdy, _, _, hny⟩ := well_formed_facts sy ys hy
  have hzx : operator_eq (sx :: xs) zero = false := by
    cases h : operator_eq (sx :: xs) zero
    · rfl
    · have := (operator_eq_iff _ _).mp h
      simp only [zero, List.cons.injEq] at this
      rw [this.2] at hmx
      exact absurd (by simp [magnitude]) hmx
  have hzy : operator_eq (sy :: ys) zero = false := by
    cases h : operator_eq (sy :: ys) zero
    · rfl
    · have := (operator_eq_iff _ _).mp h
      simp only [zero, List.cons.injEq] at this
      rw [this.2] at hmy
      exact absurd (by simp [magnitude]) hmy
  have hi0 : (i16 (i16 ((sx :: xs).length : Nat) - 1) + 1).toNat = (xs.length - 1) + 2 := by
    rw [i16_length sx xs hxl, i16_of_small _ (by omega) (by omega)]
    omega
  have hdropn : xs.drop (xs.length - 1 + 1) = [] := List.drop_eq_nil_of_le (by omega)
  obtain ⟨qs, r1, r2, r3, r4⟩ := mul_rows_digits sx xs sy ys hdx hdy hxl hyl hlx hly
    (hnx hmx).1 (hny hmy).1 (xs.length - 1) (by omega) [0] [1, 0] (by simp)
    (by rw [hdropn]; simp [magnitude]) (by simp; omega)
  have hqne : qs ≠ [] := by
    intro h
    rw [h] at r3
    have : magnitude xs * magnitude ys ≠ 0 := Nat.mul_ne_zero hmx hmy
    exact this (by rw [← r3]; simp [magnitude])
  refine ⟨qs, ?_, ?_, r3⟩
  · have hz : zero = 1 :: [0] := rfl
    unfold operator_mul_assign
    rw [hzx, hzy]
    simp only [Bool.or_self, Bool.false_eq_true, if_false]
    rw [hi0, hz, r1]
    simp only [and_then, sign_is_cons, bind, Except.bind, pure, Except.pure, idx,
      List.getElem?_cons_zero, List.set_cons_zero]
    rcases hsx with rfl | rfl <;> rcases hsy with rfl | rfl <;> simp
  · apply well_formed_of_head _ _ qs r2 hqne (head_ne_zero_of_le qs r2 hqne r4)
    by_cases h : sx = sy <;> simp [h]

/-- Binary `operator*` on the canonical representations of two integers,
each stored in at most 32767 entries, yields the canonical representation of
their product. -/
theorem operator_mul_canonical (x y : Int) (hx : (canonical x).length ≤ 32767)
    (hy : (canonical y).length ≤ 32767) :
    operator_mul (canonical x) (canonical y) = .ok (canonical (x * y)) := by
  have hzz : operator_eq zero zero = true := by decide
  by_cases hx0 : x = 0
  · subst hx0
    rw [Int.zero_mul, canonical_zero]
    simp only [operator_mul, operator_mul_assign, hzz, Bool.true_or, if_true]
  by_cases hy0 : y = 0
  · subst hy0
    rw [Int.mul_zero, canonical_zero]
    simp only [operator_mul, operator_mul_assign, hzz, Bool.or_true, if_true]
  obtain ⟨cx, mx⟩ := canonical_cons x hx0
  obtain ⟨cy, my⟩ := canonical_cons y hy0
  have wx := canonical_well_formed x
  have wy := canonical_well_formed y
  rw [cx] at wx hx
  rw [cy] at wy hy
  obtain ⟨qs, e1, e2, e3⟩ := mul_assign_well_formed _ _ _ _ wx wy
    (by rw [mx]; exact Int.natAbs_ne_zero.mpr hx0) (by rw [my]; exact Int.natAbs_ne_zero.mpr hy0)
    (by simpa using hx) (by simpa using hy)
  have hres := well_formed_eq_canonical _ e2
  have hden : denote ((if (if x < 0 then 0 else 1 : Nat) = (if y < 0 then 0 else 1 : Nat)
      then 1 else 0) :: qs) = x * y := by
    have habs : ((x.natAbs * y.natAbs : Nat) : Int) = |x * y| := by
      rw [Nat.cast_mul, Int.natCast_natAbs, Int.natCast_natAbs, abs_mul]
    simp only [denote, e3, mx, my, habs]
    by_cases hxn : x < 0 <;> by_cases hyn : y < 0
    · have : 0 < x * y := mul_pos_of_neg_of_neg hxn hyn
      simp [hxn, hyn, abs_of_pos this]
    · have hy1 : 0 < y := lt_of_le_of_ne (not_lt.mp hyn) (Ne.symm hy0)
      have : x * y < 0 := mul_neg_of_neg_of_pos hxn hy1
      simp [hxn, hyn, abs_of_neg this]
    · have hx1 : 0 < x := lt_of_le_of_ne (not_lt.mp hxn) (Ne.symm hx0)
      have : x * y < 0 := mul_neg_of_pos_of_neg hx1 hyn
      simp [hxn, hyn, abs_of_neg this]
    · have hx1 : 0 < x := lt_of_le_of_ne (not_lt.mp hxn) (Ne.symm hx0)
      have hy1 : 0 < y := lt_of_le_of_ne (not_lt.mp hyn) (Ne.symm hy0)
      have : 0 < x * y := mul_pos hx1 hy1
      simp [hxn, hyn, abs_of_pos this]
  rw [hden] at hres
  rw [cx, cy, ← hres]
  exact e1

/-! ## Claim on multiplication -/

theorem canonical_pow (k : Nat) : canonical ((10 : Int) ^ k) = 1 :: 1 :: List.replicate k 0 := by
  have h1 : ¬ ((10 : Int) ^ k < 0) := not_lt.mpr (pow_nonneg (by norm_num) k)
  have h2 : (10 : Int) ^ k ≠ 0 := pow_ne_zero k (by norm_num)
  have h3 : ((10 : Int) ^ k).natAbs = 10 ^ k * 1 := by
    rw [Int.natAbs_pow]
    simp
  have h4 : Nat.digits 10 (10 ^ k * 1) = List.replicate k 0 ++ Nat.digits 10 1 :=
    Nat.digits_base_pow_mul (by norm_num) (by norm_num)
  simp only [canonical, h1, h2, if_false, h3, h4]
  simp

theorem mul_without_rows (t : List Nat) (ht : t.length = 32767) :
    operator_mul (1 :: 1 :: t) [1, 1] = .ok [1, 0] := by
  have hlen : (1 :: 1 :: t).length = 32769 := by
    simp only [List.length_cons, ht]
  have hz : operator_eq (1 :: 1 :: t) zero = false := by
    have hl : (1 :: 1 :: t).length ≠ zero.length := by
      rw [hlen]
      decide
    simp only [operator_eq, hl, ne_eq, not_false_eq_true, if_true]
  have hz2 : operator_eq [1, 1] zero = false := by decide
  have hi : (i16 (i16 ((1 :: 1 :: t).length : Nat) - 1) + 1).toNat = 0 := by
    rw [hlen]
    decide
  have hs1 : sign_is (1 :: 1 :: t) 0 = .ok false := by
    simp [sign_is, idx, Except.map]
  have hs2 : sign_is (1 :: 1 :: t) 1 = .ok true := by
    simp [sign_is, idx, Except.map]
  have hs3 : sign_is [1, 1] 0 = .ok false := by decide
  have hx1 : idx (1 :: 1 :: t) 0 = .ok 1 := by simp [idx]
  have hx2 : idx [1, 1] 0 = .ok 1 := by decide
  unfold operator_mul operator_mul_assign
  rw [hz, hz2]
  simp only [Bool.or_self, Bool.false_eq_true, if_false]
  rw [hi, mul_rows_zero]
  simp only [and_then, hs1, hs2, hs3, hx1, hx2, Except.bind, bind, pure, Except.pure, if_true,
    if_false, Bool.false_eq_true]
  rfl

theorem zero_ne_long (t : List Nat) (ht : t.length = 32767) :
    operator_eq [1, 0] (1 :: 1 :: t) = false := by
  have hl : [1, 0].length ≠ (1 :: 1 :: t).length := by
    simp only [List.length_cons, ht, List.length_nil]
    omega
  simp only [operator_eq, hl, ne_eq, not_false_eq_true, if_true]

theorem zero_ne_longer (t : List Nat) (ht : 1 ≤ t.length) :
    operator_eq [1, 0] (1 :: 1 :: t) = false := by
  have hl : [1, 0].length ≠ (1 :: 1 :: t).length := by
    simp only [List.length_cons, List.length_nil]
    omega
  simp only [operator_eq, hl, ne_eq, not_false_eq_true, if_true]

/-- C3: multiplying the canonical representation of 10^32767 (a vector of
32769 entries) by that of 1 yields the zero vector [1, 0]: the 16-bit row
counter starts out negative and no row is ever computed. -/
theorem c3_mul_large_operand_is_zero :
    operator_mul (canonical ((10 : Int) ^ 32767)) (canonical 1) = .ok [1, 0] ∧
    operator_eq [1, 0] (canonical ((10 : Int) ^ 32767 * 1)) = false := by
  have e1 : (10 : Int) ^ 32767 * 1 = (10 : Int) ^ 32767 := Int.mul_one _
  rw [e1, canonical_pow, canonical_1]
  exact ⟨mul_without_rows _ (List.length_replicate _ _),
    zero_ne_long _ (List.length_replicate _ _)⟩

/-! ## Claims on zero and on the algebraic laws of addition -/

/-- C11 (counterexample): the value built from the string "-0" formats as
"-0", not as "0". -/
theorem c11_negative_zero_keeps_sign :
    (∃ v, of_string "-0".toList = .ok v ∧ operator_lshift [] v = .ok "-0".toList) ∧
    ¬ (∃ v, of_string "-0".toList = .ok v ∧ operator_lshift [] v = .ok "0".toList) := by
  have h : of_string "-0".toList = .ok [0, 0] := by decide
  refine ⟨⟨[0, 0], h, by decide⟩, ?_⟩
  rintro ⟨v, hv, hp⟩
  rw [h] at hv
  injection hv with hv
  subst hv
  revert hp
  decide

/-- C11 (amended): default construction, construction from the integer 0 and
from the strings "0" and "+0" yield a value that formats as "0" with no sign
character; construction from the string "-0" stores the sign slot 0 and
formats as "-0". -/
theorem c11_zero_formats :
    operator_lshift [] zero = .ok "0".toList ∧
    operator_lshift [] (of_int64 0) = .ok "0".toList ∧
    (∃ v, of_string "0".toList = .ok v ∧ operator_lshift [] v = .ok "0".toList) ∧
    (∃ v, of_string "+0".toList = .ok v ∧ operator_lshift [] v = .ok "0".toList) ∧
    (∃ v, of_string "-0".toList = .ok v ∧ operator_lshift [] v = .ok "-0".toList) :=
  ⟨by decide, by decide, ⟨[1, 0], by decide, by decide⟩, ⟨[1, 0], by decide, by decide⟩,
    ⟨[0, 0], by decide, by decide⟩⟩

theorem canonical_5 : canonical 5 = [1, 5] := by
  simp [canonical]

theorem canonical_neg_5 : canonical (-5) = [0, 5] := by
  simp [canonical]

/-- C12: adding the canonical representations of 5 and -5, in either order,
reads `result[1]` of a one-entry vector: neither sum is a defined value that
`operator==` could compare. -/
theorem c12_add_opposite_digits_out_of_range :
    operator_add (canonical 5) (canonical (-5)) = .error .out_of_range ∧
    operator_add (canonical (-5)) (canonical 5) = .error .out_of_range := by
  rw [canonical_5, canonical_neg_5]
  decide

/-- C14: with a = 100, b = 900 and c = -999 the sum (a + b) + c is the vector
[1, 0, 1] while a + (b + c) and (b + c) + a are [1, 1]; `operator==` tells
them apart. -/
theorem c14_add_not_associative :
    (operator_add (canonical 100) (canonical 900)).bind
      (fun s => operator_add s (canonical (-999))) = .ok [1, 0, 1] ∧
    (operator_add (canonical 900) (canonical (-999))).bind
      (fun s => operator_add (canonical 100) s) = .ok [1, 1] ∧
    (operator_add (canonical 900) (canonical (-999))).bind
      (fun s => operator_add s (canonical 100)) = .ok [1, 1] ∧
    operator_eq [1, 0, 1] [1, 1] = false := by
  have h1 : canonical 100 = [1, 1, 0, 0] := by simp [canonical]
  have h2 : canonical 900 = [1, 9, 0, 0] := by simp [canonical]
  rw [h1, h2, canonical_neg_999]
  decide

/-- C17: for a = 1000 both a + (-a) and a - a are the vector [1, 0, 0], which
`operator==` tells apart from the default-constructed zero. -/
theorem c17_inverse_leaves_zeros :
    (operator_neg (canonical 1000)).bind (fun n => operator_add (canonical 1000) n) =
      .ok [1, 0, 0] ∧
    operator_sub (canonical 1000) (canonical 1000) = .ok [1, 0, 0] ∧
    operator_eq [1, 0, 0] zero = false := by
  rw [canonical_1000]
  decide

/-! ## Multiplication beyond the range of the 16-bit counters -/

/-- A left operand of 32769 to 65536 entries: the row counter of `operator*=`
starts out negative, no row is computed and the product is the zero vector. -/
theorem mul_without_rows_long (t : List Nat) (h1 : 32767 ≤ t.length) (h2 : t.length ≤ 65534) :
    operator_mul (1 :: 1 :: t) [1, 1] = .ok [1, 0] := by
  have hz : operator_eq (1 :: 1 :: t) zero = false := by
    have hl : (1 :: 1 :: t).length ≠ zero.length := by
      simp only [List.length_cons, zero, List.length_nil]
      omega
    simp only [operator_eq, hl, ne_eq, not_false_eq_true, if_true]
  have hz2 : operator_eq [1, 1] zero = false := by decide
  have hi : (i16 (i16 ((1 :: 1 :: t).length : Nat) - 1) + 1).toNat = 0 := by
    simp only [List.length_cons, i16]
    omega
  have hs1 : sign_is (1 :: 1 :: t) 0 = .ok false := by
    simp [sign_is, idx, Except.map]
  have hs2 : sign_is (1 :: 1 :: t) 1 = .ok true := by
    simp [sign_is, idx, Except.map]
  have hs3 : sign_is [1, 1] 0 = .ok false := by decide
  have hx1 : idx (1 :: 1 :: t) 0 = .ok 1 := by simp [idx]
  have hx2 : idx [1, 1] 0 = .ok 1 := by decide
  unfold operator_mul operator_mul_assign
  rw [hz, hz2]
  simp only [Bool.or_self, Bool.false_eq_true, if_false]
  rw [hi, mul_rows_zero]
  simp only [and_then, hs1, hs2, hs3, hx1, hx2, Except.bind, bind, pure, Except.pure, if_true,
    if_false, Bool.false_eq_true]
  rfl

/-- A right operand of 32769 entries: the column counter of `operator*=`
starts out negative, the row stays empty and `result[0]` is read outside the
vector. -/
theorem mul_empty_row (t : List Nat) (ht : t.length = 32767) :
    operator_mul_assign [1, 1] (1 :: 1 :: t) = .error .out_of_range := by
  have hlen : (1 :: 1 :: t).length = 32769 := by
    simp only [List.length_cons, ht]
  have hz : operator_eq (1 :: 1 :: t) zero = false := by
    have hl : (1 :: 1 :: t).length ≠ zero.length := by
      rw [hlen]
      decide
    simp only [operator_eq, hl, ne_eq, not_false_eq_true, if_true]
  have hz2 : operator_eq [1, 1] zero = false := by decide
  have hi : (i16 (i16 (([1, 1] : List Nat).length : Nat) - 1) + 1).toNat = 2 := by decide
  have hj : (i16 (i16 ((1 :: 1 :: t).length : Nat) - 1) + 1).toNat = 0 := by
    rw [hlen]
    decide
  have hs1 : sign_is (1 :: 1 :: t) 0 = .ok false := by
    simp [sign_is, idx, Except.map]
  have hs2 : sign_is (1 :: 1 :: t) 1 = .ok true := by
    simp [sign_is, idx, Except.map]
  have hs3 : sign_is [1, 1] 0 = .ok false := by decide
  have hx1 : idx (1 :: 1 :: t) 0 = .ok 1 := by simp [idx]
  have hx2 : idx [1, 1] 0 = .ok 1 := by decide
  have hs4 : sign_is [1, 1] 1 = .ok true := by decide
  have hrow : mul_row [1, 1] (1 :: 1 :: t) 1 0 zero = .error .out_of_range := by
    unfold mul_row
    simp only []
    rw [hj, mul_cols]
    rfl
  unfold operator_mul_assign
  rw [hz, hz2]
  simp only [Bool.or_self, Bool.false_eq_true, if_false]
  rw [hi, mul_rows_succ, hrow]
  simp only [and_then, hs1, hs2, hs3, hs4, hx1, hx2, Except.bind, bind, pure, Except.pure, if_true,
    if_false, Bool.false_eq_true]

/-! ## Claims on the algebraic laws of multiplication, on `power` and on totality -/

/-- C13: with a = 10^32767 (a vector of 32769 entries) and b = 1 the product
a * b is the zero vector [1, 0], while b * a reads `result[0]` of an empty
row: the two orders do not give the same value. -/
theorem c13_mul_order_matters :
    operator_mul (canonical ((10 : Int) ^ 32767)) (canonical 1) = .ok [1, 0] ∧
    operator_mul (canonical 1) (canonical ((10 : Int) ^ 32767)) = .error .out_of_range := by
  rw [canonical_pow, canonical_1]
  exact ⟨mul_without_rows_long _ (by rw [List.length_replicate]) (by rw [List.length_replicate]; omega),
    mul_empty_row _ (List.length_replicate _ _)⟩

/-- C15: with a = b = 10^20000 and c = 1 the product (a * b) * c is the zero
vector [1, 0], while a * (b * c) is the canonical representation of 10^40000;
`operator==` tells them apart. -/
theorem c15_mul_not_associative :
    (operator_mul (canonical ((10 : Int) ^ 20000)) (canonical ((10 : Int) ^ 20000))).bind
      (fun p => operator_mul p (canonical 1)) = .ok [1, 0] ∧
    (operator_mul (canonical ((10 : Int) ^ 20000)) (canonical 1)).bind
      (fun q => operator_mul (canonical ((10 : Int) ^ 20000)) q) =
        .ok (canonical ((10 : Int) ^ 40000)) ∧
    operator_eq [1, 0] (canonical ((10 : Int) ^ 40000)) = false := by
  have hl : (canonical ((10 : Int) ^ 20000)).length ≤ 32767 := by
    rw [canonical_pow]
    simp only [List.length_cons, List.length_replicate]
    omega
  have h1l : (canonical 1).length ≤ 32767 := by
    rw [canonical_1]
    decide
  have hpow : (10 : Int) ^ 20000 * (10 : Int) ^ 20000 = (10 : Int) ^ 40000 := by
    rw [← pow_add]
  have hab := operator_mul_canonical _ _ hl hl
  have hbc := operator_mul_canonical _ _ hl h1l
  rw [hpow] at hab
  rw [Int.mul_one] at hbc
  have hlong : operator_mul (canonical ((10 : Int) ^ 40000)) (canonical 1) = .ok [1, 0] := by
    rw [canonical_pow, canonical_1]
    exact mul_without_rows_long _ (by rw [List.length_replicate]; omega)
      (by rw [List.length_replicate]; omega)
  refine ⟨?_, ?_, ?_⟩
  · rw [hab, Except.bind]
    exact hlong
  · rw [hbc, Except.bind]
    exact hab
  · rw [canonical_pow]
    exact zero_ne_longer _ (by rw [List.length_replicate]; omega)

/-- C16: with a = 999, b = -998 and c = 2 the product (a + b) * c is the
vector [1, 2] while a * c + b * c is [1, 0, 2]; `operator==` tells them
apart. -/
theorem c16_not_distributive :
    (operator_add (canonical 999) (canonical (-998))).bind
      (fun s => operator_mul s (canonical 2)) = .ok [1, 2] ∧
    (operator_mul (canonical 999) (canonical 2)).bind
      (fun p => (operator_mul (canonical (-998)) (canonical 2)).bind
        (fun q => operator_add p q)) = .ok [1, 0, 2] ∧
    operator_eq [1, 2] [1, 0, 2] = false := by
  have h998 : canonical (-998) = [0, 9, 9, 8] := by simp [canonical]
  have h2 : canonical 2 = [1, 2] := by simp [canonical]
  have h1998 : canonical 1998 = [1, 1, 9, 9, 8] := by simp [canonical]
  have h1996 : canonical (-1996) = [0, 1, 9, 9, 6] := by simp [canonical]
  have l999 : (canonical 999).length ≤ 32767 := by rw [canonical_999]; decide
  have l998 : (canonical (-998)).length ≤ 32767 := by rw [h998]; decide
  have l1 : (canonical 1).length ≤ 32767 := by rw [canonical_1]; decide
  have l2 : (canonical 2).length ≤ 32767 := by rw [h2]; decide
  have m1 := operator_mul_canonical 1 2 l1 l2
  have m2 := operator_mul_canonical 999 2 l999 l2
  have m3 := operator_mul_canonical (-998) 2 l998 l2
  have e1 : (1 : Int) * 2 = 2 := by norm_num
  have e2 : (999 : Int) * 2 = 1998 := by norm_num
  have e3 : (-998 : Int) * 2 = -1996 := by norm_num
  rw [e1] at m1
  rw [e2] at m2
  rw [e3] at m3
  have hsum : operator_add (canonical 999) (canonical (-998)) = .ok (canonical 1) := by
    rw [canonical_999, h998, canonical_1]
    decide
  have hsum2 : operator_add (canonical 1998) (canonical (-1996)) = .ok [1, 0, 2] := by
    rw [h1998, h1996]
    decide
  refine ⟨?_, ?_, by decide⟩
  · rw [hsum, Except.bind, m1, h2]
  · rw [m2, Except.bind, m3, Except.bind]
    exact hsum2

/-- C18: with the base 10^32767 (a vector of 32769 entries) and the exponent
1 the single multiplication of `power` reads `result[0]` of an empty row,
whatever bound is put on the number of guard evaluations: no power is
returned. -/
theorem c18_power_large_base (fuel : Nat) :
    power (canonical ((10 : Int) ^ 32767)) (canonical 1) (fuel + 1) =
      some (.error .out_of_range) := by
  have h1 : of_int64 1 = [1, 1] := by decide
  have hlt : operator_lt zero [1, 1] = .ok true := by decide
  rw [canonical_pow, canonical_1]
  unfold power
  rw [power_loop, hlt, h1, mul_empty_row _ (List.length_replicate _ _)]

/-- With an exponent whose sign slot is 0 the guard `i < big_b` of `power` is
false at its first evaluation: the value built from 1 is returned and no
multiplication is performed. -/
theorem power_negative_sign (self ds : bigint) (fuel : Nat) :
    power self (0 :: ds) (fuel + 1) = some (.ok (of_int64 1, 0)) := by
  have hgt : operator_gt zero (0 :: ds) = .ok true := by
    unfold zero
    rw [operator_gt_cons]
    simp [gt_closed]
  have hlt : operator_lt zero (0 :: ds) = .ok false := by
    unfold operator_lt operator_ge
    rw [hgt]
    rfl
  unfold power
  rw [power_loop, hlt]

/-- C19 (counterexample): with the base 5 and the exponent -3 `power` returns
the value 1 at the first evaluation of the guard, after no multiplication. -/
theorem c19_negative_exponent_returns :
    power (canonical 5) (canonical (-3)) 1 = some (.ok ([1, 1], 0)) ∧
    ¬ (∀ fuel, power (canonical 5) (canonical (-3)) fuel = none) := by
  have h3 : canonical (-3) = [0, 3] := by simp [canonical]
  have h : power (canonical 5) (canonical (-3)) 1 = some (.ok ([1, 1], 0)) := by
    rw [canonical_5, h3]
    decide
  refine ⟨h, fun hall => ?_⟩
  rw [hall 1] at h
  exact Option.noConfusion h

/-- C19 (amended): for every base and every negative exponent e satisfying
the representation invariants, `power` terminates at the first evaluation of
the guard `i < e`, which is false for the counter zero, and returns the value
built from 1 after no multiplication. -/
theorem c19_negative_exponent_gives_one (self e : bigint) (fuel : Nat)
    (he : well_formed e) (hneg : denote e < 0) :
    power self e (fuel + 1) = some (.ok (of_int64 1, 0)) := by
  match e, he, hneg with
  | s :: ds, he, hneg =>
    obtain ⟨hs, _⟩ := well_formed_facts s ds he
    rcases hs with hs | hs
    · subst hs
      exact power_negative_sign self ds fuel
    · subst hs
      simp only [denote, one_ne_zero, if_false] at hneg
      omega

/-- A concrete instance: the base 5 and the exponent -3, with one evaluation
of the guard allowed. -/
theorem c19_negative_exponent_gives_one_witness :
    well_formed (canonical (-3)) ∧ denote (canonical (-3)) < 0 ∧
    power (canonical 5) (canonical (-3)) (0 + 1) = some (.ok (of_int64 1, 0)) :=
  ⟨canonical_well_formed _, by rw [denote_canonical]; decide,
    c19_negative_exponent_gives_one (canonical 5) (canonical (-3)) 0 (canonical_well_formed _)
      (by rw [denote_canonical]; decide)⟩

/-- C20: on the canonical representations of 5 and 5 `operator-=` reads
`result[1]` of a one-entry vector, on those of 5 and -5 `operator+=` does the
same through the subtraction it delegates to, and on those of 1 and 10^32767
`operator*=` reads `result[0]` of an empty row. -/
theorem c20_out_of_range_reads :
    well_formed (canonical 5) ∧ well_formed (canonical (-5)) ∧
    well_formed (canonical 1) ∧ well_formed (canonical ((10 : Int) ^ 32767)) ∧
    operator_sub_assign (canonical 5) (canonical 5) = .error .out_of_range ∧
    operator_add_assign (canonical 5) (canonical (-5)) = .error .out_of_range ∧
    operator_mul_assign (canonical 1) (canonical ((10 : Int) ^ 32767)) =
      .error .out_of_range := by
  refine ⟨canonical_well_formed _, canonical_well_formed _, canonical_well_formed _,
    canonical_well_formed _, ?_, ?_, ?_⟩
  · rw [canonical_5]
    decide
  · rw [canonical_5, canonical_neg_5]
    decide
  · rw [canonical_pow, canonical_1]
    exact mul_empty_row _ (List.length_replicate _ _)

/-! ## Laws that hold within the range of the operators -/

/-- Binary `operator+` on a positive and a negative non-zero vector, in either
order, is the subtraction of the two magnitudes. -/
theorem operator_add_mixed (dx dy : List Nat) (hx : operator_eq (1 :: dx) zero = false) :
    operator_add (1 :: dx) (0 :: dy) = (sub_assign_depth 2 (1 :: dx) (1 :: dy)).map Prod.fst ∧
    operator_add (0 :: dy) (1 :: dx) = (sub_assign_depth 2 (1 :: dx) (1 :: dy)).map Prod.fst := by
  have hy : operator_eq (0 :: dy) zero = false := by
    cases h : operator_eq (0 :: dy) zero
    · rfl
    · have := (operator_eq_iff _ _).mp h
      simp [zero] at this
  constructor
  · simp only [operator_add, operator_add_assign, max_depth, add_assign_depth, hx, hy,
      and_then, sign_is_cons, operator_neg_cons, bind, Except.bind, pure, Except.pure,
      Bool.false_eq_true, if_false, if_true, decide_True, decide_False, one_ne_zero,
      zero_ne_one]
    cases sub_assign_depth 2 (1 :: dx) (1 :: dy) <;> rfl
  · simp only [operator_add, operator_add_assign, max_depth, add_assign_depth, hx, hy,
      and_then, sign_is_cons, operator_neg_cons, bind, Except.bind, pure, Except.pure,
      Bool.false_eq_true, if_false, if_true, decide_True, decide_False, one_ne_zero,
      zero_ne_one]

/-- Binary `operator+` has the same outcome in both orders on values
satisfying the representation invariants: the same vector, or the same
out-of-range read. -/
theorem operator_add_comm (a b : bigint) (ha : well_formed a) (hb : well_formed b) :
    operator_add a b = operator_add b a := by
  rw [well_formed_eq_canonical a ha, well_formed_eq_canonical b hb]
  generalize denote a = x
  generalize denote b = y
  have hmixed : ∀ u v : Int, 0 < u → v < 0 →
      operator_add (canonical u) (canonical v) = operator_add (canonical v) (canonical u) := by
    intro u v hu hv
    have hu0 : u ≠ 0 := by omega
    have hv0 : v ≠ 0 := by omega
    have hz := canonical_ne_zero u hu0
    rw [(canonical_cons u hu0).1, (canonical_cons v hv0).1] at *
    have h1 : ¬ (u < 0) := by omega
    simp only [h1, hv, if_true, if_false] at *
    obtain ⟨e1, e2⟩ := operator_add_mixed _ (Nat.digits 10 v.natAbs).reverse hz
    rw [e1, e2]
  by_cases hs : (0 ≤ x ∧ 0 ≤ y) ∨ (x ≤ 0 ∧ y ≤ 0)
  · have hs2 : (0 ≤ y ∧ 0 ≤ x) ∨ (y ≤ 0 ∧ x ≤ 0) := by omega
    rw [operator_add_same_sign x y hs, operator_add_same_sign y x hs2, Int.add_comm]
  · by_cases hx : 0 < x
    · exact hmixed x y hx (by omega)
    · exact (hmixed y x (by omega) (by omega)).symm

/-- Binary `operator*` has the same outcome in both orders on values
satisfying the representation invariants and stored in at most 32767
entries. -/
theorem operator_mul_comm (a b : bigint) (ha : well_formed a) (hb : well_formed b)
    (hla : a.length ≤ 32767) (hlb : b.length ≤ 32767) :
    operator_mul a b = operator_mul b a := by
  rw [well_formed_eq_canonical a ha, well_formed_eq_canonical b hb] at *
  rw [operator_mul_canonical _ _ hla hlb, operator_mul_canonical _ _ hlb hla, Int.mul_comm]

/-- Binary `operator*` is associative on integers whose canonical
representations, and those of the two inner products, are stored in at most
32767 entries. -/
theorem operator_mul_assoc (x y z : Int) (hx : (canonical x).length ≤ 32767)
    (hy : (canonical y).length ≤ 32767) (hz : (canonical z).length ≤ 32767)
    (hxy : (canonical (x * y)).length ≤ 32767) (hyz : (canonical (y * z)).length ≤ 32767) :
    (operator_mul (canonical x) (canonical y)).bind (fun p => operator_mul p (canonical z)) =
      .ok (canonical (x * y * z)) ∧
    (operator_mul (canonical y) (canonical z)).bind (fun q => operator_mul (canonical x) q) =
      .ok (canonical (x * y * z)) := by
  constructor
  · rw [operator_mul_canonical _ _ hx hy, Except.bind, operator_mul_canonical _ _ hxy hz]
  · rw [operator_mul_canonical _ _ hy hz, Except.bind, operator_mul_canonical _ _ hx hyz,
      Int.mul_assoc]

/-! ## The function `power` within the range of `operator*=` -/

theorem canonical_nat (k : Nat) :
    ∃ dk, canonical (k : Int) = 1 :: dk ∧ magnitude dk = k ∧ well_formed (1 :: dk) := by
  have h1 : ¬ ((k : Int) < 0) := by omega
  have hc : canonical (k : Int) =
      1 :: (if (k : Int) = 0 then [0] else (Nat.digits 10 (k : Int).natAbs).reverse) := by
    simp only [canonical, h1, if_false]
  refine ⟨_, hc, ?_, ?_⟩
  · have h := denote_canonical (k : Int)
    rw [hc] at h
    simp only [denote, one_ne_zero, if_false] at h
    exact_mod_cast h
  · rw [← hc]
    exact canonical_well_formed _

/-- The operator `operator>` on two positive vectors satisfying the
representation invariants compares the magnitudes. -/
theorem operator_gt_positive (da db : List Nat) (ha : well_formed (1 :: da))
    (hb : well_formed (1 :: db)) :
    operator_gt (1 :: da) (1 :: db) = .ok (decide (magnitude db < magnitude da)) := by
  obtain ⟨_, hla, hda, hua, hza, hna⟩ := well_formed_facts 1 da ha
  obtain ⟨_, hlb, hdb, hub, hzb, hnb⟩ := well_formed_facts 1 db hb
  rw [operator_gt_cons]
  congr 1
  have hpow : ∀ m n : Nat, m < n → 10 ^ m ≤ 10 ^ (n - 1) :=
    fun m n hmn => Nat.pow_le_pow_right (by norm_num) (by omega)
  have hlong : ∀ (xs ys : List Nat), xs.length < ys.length → magnitude xs < 10 ^ xs.length →
      (magnitude ys ≠ 0 → 10 ^ (ys.length - 1) ≤ magnitude ys ∧ ys.head? ≠ some 0) →
      (magnitude ys = 0 → ys = [0]) → 0 < xs.length → magnitude xs < magnitude ys := by
    intro xs ys hl hu hn hz hx
    by_cases hm : magnitude ys = 0
    · have := hz hm
      subst this
      simp only [List.length_singleton] at hl
      omega
    · have h1 := (hn hm).1
      have h2 := hpow _ _ hl
      omega
  simp only [gt_closed, one_ne_zero, and_false, false_and, if_false, gt_iff_lt]
  by_cases h1 : db.length < da.length
  · have := hlong db da h1 hub hna (fun h => (hza h).2) hlb
    simp [h1, this]
  · by_cases h2 : da.length < db.length
    · have := hlong da db h2 hua hnb (fun h => (hzb h).2) hla
      have h3 : ¬ (magnitude db < magnitude da) := by omega
      simp [h1, h2, h3]
    · have hl : da.length = db.length := by omega
      simp only [h1, h2, if_false, scan_positive_eq da db hl hda hdb]

/-- The operator `operator<` on the canonical representations of two natural
numbers is their order. -/
theorem operator_lt_nat (k e : Nat) :
    operator_lt (canonical (k : Int)) (canonical (e : Int)) = .ok (decide (k < e)) := by
  obtain ⟨dk, ck, mk, wk⟩ := canonical_nat k
  obtain ⟨de, ce, me, we⟩ := canonical_nat e
  have hgt := operator_gt_positive dk de wk we
  rw [mk, me] at hgt
  have heq : operator_eq (1 :: dk) (1 :: de) = decide (k = e) := by
    by_cases h : k = e
    · subst h
      have : dk = de := by
        have := ck.symm.trans ce
        simpa using this
      subst this
      simp [(operator_eq_iff (1 :: dk) (1 :: dk)).mpr rfl]
    · cases hq : operator_eq (1 :: dk) (1 :: de)
      · simp [h]
      · exfalso
        have := (operator_eq_iff _ _).mp hq
        simp only [List.cons.injEq, true_and] at this
        rw [this] at mk
        omega
  rw [ck, ce]
  unfold operator_lt operator_ge
  rw [hgt, heq]
  by_cases h1 : e < k
  · have h2 : ¬ (k < e) := by omega
    simp [h1, h2, bind, Except.bind, pure, Except.pure]
  · by_cases h3 : k = e
    · subst h3
      simp [bind, Except.bind, pure, Except.pure]
    · have h2 : k < e := by omega
      simp [h1, h2, h3, bind, Except.bind, pure, Except.pure]

/-- Post-increment of the canonical representation of a natural number
returns it and leaves its successor in the operand. -/
theorem operator_post_increment_nat (k : Nat) :
    operator_post_increment (canonical (k : Int)) =
      .ok (canonical (k : Int), canonical ((k + 1 : Nat) : Int)) := by
  have h1 : of_int64 1 = canonical 1 := by
    rw [canonical_1]
    decide
  have h := operator_add_same_sign (k : Int) 1 (Or.inl ⟨by omega, by omega⟩)
  unfold operator_add at h
  unfold operator_post_increment
  simp only [h1]
  cases hr : operator_add_assign (canonical (k : Int)) (canonical 1) with
  | error err =>
    rw [hr] at h
    simp [Except.map] at h
  | ok r =>
    rw [hr] at h
    simp only [Except.map, Except.ok.injEq] at h
    simp only [Except.map, h, Nat.cast_add, Nat.cast_one]

/-- The loop of `power` from the counter k on, when the base and all the
powers multiplied are stored in at most 32767 entries. -/
theorem power_loop_within_range (b : Int) (e : Nat) (hb : (canonical b).length ≤ 32767)
    (hp : ∀ k, k < e → (canonical (b ^ k)).length ≤ 32767) (fuel : Nat) :
    ∀ k, k ≤ e → e - k < fuel →
      power_loop (canonical b) (canonical (e : Int)) fuel (canonical (k : Int))
        (canonical (b ^ k)) k = some (.ok (canonical (b ^ e), e)) := by
  induction fuel with
  | zero =>
    intro k _ h
    omega
  | succ fuel ih =>
    intro k hk hf
    rw [power_loop, operator_lt_nat]
    by_cases hlt : k < e
    · have hm := operator_mul_canonical (b ^ k) b (hp k hlt) hb
      unfold operator_mul at hm
      simp only [hlt, decide_True, hm, operator_post_increment_nat]
      rw [← pow_succ]
      exact ih (k + 1) (by omega) (by omega)
    · have : k = e := by omega
      subst this
      simp only [hlt, decide_False]

/-- The function `power` on a base b and a natural exponent e, when b and the
powers of b below the e-th are stored in at most 32767 entries: with more than
e evaluations of the guard allowed, the canonical representation of b^e is
returned after exactly e multiplications. -/
theorem power_within_range (b : Int) (e fuel : Nat) (hb : (canonical b).length ≤ 32767)
    (hp : ∀ k, k < e → (canonical (b ^ k)).length ≤ 32767) (hf : e < fuel) :
    power (canonical b) (canonical (e : Int)) fuel = some (.ok (canonical (b ^ e), e)) := by
  have h := power_loop_within_range b e hb hp fuel 0 (by omega) (by omega)
  have h1 : of_int64 1 = canonical (b ^ 0) := by
    rw [pow_zero, canonical_1]
    decide
  have h0 : zero = canonical ((0 : Nat) : Int) := by
    rw [Nat.cast_zero, canonical_zero]
  unfold power
  rw [h1, h0]
  exact h

/-! ## Claims on the counters of multiplication, on increment, layout, negation and random generation -/

/-- A right operand of 32769 to 65536 entries: the column counter of
`operator*=` starts out negative, the row stays empty and `result[0]` is read
outside the vector. -/
theorem mul_empty_row_long (t : List Nat) (h1 : 32767 ≤ t.length) (h2 : t.length ≤ 65534) :
    operator_mul_assign [1, 1] (1 :: 1 :: t) = .error .out_of_range := by
  have hz : operator_eq (1 :: 1 :: t) zero = false := by
    have hl : (1 :: 1 :: t).length ≠ zero.length := by
      simp only [List.length_cons, zero, List.length_nil]
      omega
    simp only [operator_eq, hl, ne_eq, not_false_eq_true, if_true]
  have hz2 : operator_eq [1, 1] zero = false := by decide
  have hi : (i16 (i16 (([1, 1] : List Nat).length : Nat) - 1) + 1).toNat = 2 := by decide
  have hj : (i16 (i16 ((1 :: 1 :: t).length : Nat) - 1) + 1).toNat = 0 := by
    simp only [List.length_cons, i16]
    omega
  have hs1 : sign_is (1 :: 1 :: t) 0 = .ok false := by
    simp [sign_is, idx, Except.map]
  have hs2 : sign_is (1 :: 1 :: t) 1 = .ok true := by
    simp [sign_is, idx, Except.map]
  have hs3 : sign_is [1, 1] 0 = .ok false := by decide
  have hx1 : idx (1 :: 1 :: t) 0 = .ok 1 := by simp [idx]
  have hx2 : idx [1, 1] 0 = .ok 1 := by decide
  have hs4 : sign_is [1, 1] 1 = .ok true := by decide
  have hrow : mul_row [1, 1] (1 :: 1 :: t) 1 0 zero = .error .out_of_range := by
    unfold mul_row
    simp only []
    rw [hj, mul_cols]
    rfl
  unfold operator_mul_assign
  rw [hz, hz2]
  simp only [Bool.or_self, Bool.false_eq_true, if_false]
  rw [hi, mul_rows_succ, hrow]
  simp only [and_then, hs1, hs2, hs3, hs4, hx1, hx2, Except.bind, bind, pure, Except.pure, if_true,
    if_false, Bool.false_eq_true]

/-- C22: with the 16-bit counters wrapping as in the code, `operator*=` on
10^40000 (a vector of 40002 entries) and 1 leaves the zero vector [1, 0] in
the left operand, which `operator==` tells apart from the canonical
representation of the product 10^40000, and on 1 and 10^40000 it reads
`result[0]` of an empty row. -/
theorem c22_mul_beyond_counter_range :
    operator_mul_assign (canonical ((10 : Int) ^ 40000)) (canonical 1) = .ok [1, 0] ∧
    operator_eq [1, 0] (canonical ((10 : Int) ^ 40000)) = false ∧
    operator_mul_assign (canonical 1) (canonical ((10 : Int) ^ 40000)) =
      .error .out_of_range := by
  refine ⟨?_, ?_, ?_⟩
  · have h := mul_without_rows_long (List.replicate 40000 0)
      (by rw [List.length_replicate]; omega) (by rw [List.length_replicate]; omega)
    unfold operator_mul at h
    rw [canonical_pow, canonical_1]
    exact h
  · rw [canonical_pow]
    exact zero_ne_longer _ (by rw [List.length_replicate]; omega)
  · rw [canonical_pow, canonical_1]
    exact mul_empty_row_long _ (by rw [List.length_replicate]; omega)
      (by rw [List.length_replicate]; omega)

/-- The increments have the outcome of `a + 1` and the decrements that of
`a - 1`, where 1 is the value built from the integer 1: each pair is the
value returned and the new a.  On the value 11 of the test they give 12 and
10. -/
theorem increment_decrement_outcomes (a : bigint) :
    operator_pre_increment a = (operator_add a (of_int64 1)).map (fun r => (r, r)) ∧
    operator_post_increment a = (operator_add a (of_int64 1)).map (fun r => (a, r)) ∧
    operator_pre_decrement a = (operator_sub a (of_int64 1)).map (fun r => (r, r)) ∧
    operator_post_decrement a = (operator_sub a (of_int64 1)).map (fun r => (a, r)) ∧
    operator_pre_increment [1, 1, 1] = .ok ([1, 1, 2], [1, 1, 2]) ∧
    operator_post_increment [1, 1, 1] = .ok ([1, 1, 1], [1, 1, 2]) ∧
    operator_pre_decrement [1, 1, 1] = .ok ([1, 1, 0], [1, 1, 0]) ∧
    operator_post_decrement [1, 1, 1] = .ok ([1, 1, 1], [1, 1, 0]) := by
  refine ⟨?_, ?_, ?_, ?_, by decide, by decide, by decide, by decide⟩
  · simp only [operator_pre_increment, operator_add]
    cases operator_add_assign a (of_int64 1) <;> rfl
  · simp only [operator_post_increment, operator_add]
    cases operator_add_assign a (of_int64 1) <;> rfl
  · simp only [operator_pre_decrement, operator_sub]
    cases operator_sub_assign a (of_int64 1) <;> rfl
  · simp only [operator_post_decrement, operator_sub]
    cases operator_sub_assign a (of_int64 1) <;> rfl

/-- C24 (counterexample): the value 12, built from the integer or from the
string, is stored as [1, 1, 2]: entry 1 is the digit 1 of 10^1, not the digit
2 of 10^0, and entry 2 is the digit 2 of 10^0, not the digit 1 of 10^1. -/
theorem c24_digits_most_significant_first :
    of_int64 12 = [1, 1, 2] ∧ of_string "12".toList = .ok [1, 1, 2] ∧
    idx [1, 1, 2] 1 = .ok 1 ∧ idx [1, 1, 2] 2 = .ok 2 ∧
    idx (of_int64 12) 1 ≠ .ok 2 ∧ idx (of_int64 12) 2 ≠ .ok 1 := by
  decide

/-- C25: for every stored vector a whose sign slot s is 0 or 1, `-a` is a
with the sign slot replaced by 1 - s and the digits untouched, and
`-(-a) == a` is true. -/
theorem c25_negation_involution (a : bigint) (s : Nat) (h : idx a 0 = .ok s)
    (hs : s = 0 ∨ s = 1) :
    ∃ ds, a = s :: ds ∧ operator_neg a = .ok ((1 - s) :: ds) ∧
      ((operator_neg a).bind operator_neg).map (fun r => operator_eq r a) = .ok true := by
  cases a with
  | nil => simp [idx] at h
  | cons x ds =>
    have hx : x = s := by simpa [idx] using h
    subst hx
    have he : operator_eq (x :: ds) (x :: ds) = true := (operator_eq_iff _ _).mpr rfl
    refine ⟨ds, rfl, ?_, ?_⟩
    · rcases hs with rfl | rfl <;> simp [operator_neg_cons]
    · rcases hs with rfl | rfl <;>
        simp [operator_neg_cons, Except.bind, Except.map, he]

/-- A concrete instance: the value -123. -/
theorem c25_negation_involution_witness :
    ∃ ds, [0, 1, 2, 3] = 0 :: ds ∧ operator_neg [0, 1, 2, 3] = .ok ((1 - 0) :: ds) ∧
      ((operator_neg [0, 1, 2, 3]).bind operator_neg).map
        (fun r => operator_eq r [0, 1, 2, 3]) = .ok true :=
  c25_negation_involution [0, 1, 2, 3] 0 (by decide) (Or.inl rfl)

theorem random_loop_eq (source : Nat → Nat) (n i : Nat) (acc : List Nat) :
    random_loop source n i acc =
      ((List.range n).map (fun j => source (i + j + 1))).reverse ++ acc := by
  induction n generalizing i acc with
  | zero => simp [random_loop]
  | succ n ih =>
    rw [random_loop, ih, List.range_succ_eq_map]
    simp only [List.map_cons, List.map_map, List.reverse_cons, List.append_assoc,
      List.singleton_append, Nat.add_zero]
    congr 3
    funext j
    simp only [Function.comp]
    congr 1
    omega

/-- C29: with the sign s = source 0 and the digits d_j = source j drawn in
this order, `random_bigint(k)` is the vector [s, d_k, ..., d_1] of k + 1
entries, not normalised: for k = 0 the magnitude is empty, a draw d_k = 0
with k at least 2 leaves a leading zero, which breaks the representation
invariants, and the draws s = 0, d_1 = 0 give the negative zero [0, 0]. -/
theorem c29_random_bigint_shape (source : Nat → Nat) (k : Nat) :
    random_bigint source k =
      source 0 :: ((List.range k).map (fun j => source (j + 1))).reverse ∧
    (random_bigint source k).length = k + 1 ∧
    random_bigint source 0 = [source 0] ∧
    (2 ≤ k → source k = 0 → ¬ well_formed (random_bigint source k)) ∧
    random_bigint (fun _ => 0) 1 = [0, 0] := by
  have hshape : ∀ n, random_bigint source n =
      source 0 :: ((List.range n).map (fun j => source (j + 1))).reverse := by
    intro n
    unfold random_bigint
    simp only [random_loop_eq, List.append_nil, Nat.zero_add]
  refine ⟨hshape k, ?_, ?_, ?_, ?_⟩
  · rw [hshape]
    simp
  · rw [hshape]
    rfl
  · intro hk hz hw
    obtain ⟨m, rfl⟩ : ∃ m, k = m + 2 := ⟨k - 2, by omega⟩
    rw [hshape, List.range_succ] at hw
    simp only [List.map_append, List.map_cons, List.map_nil, List.reverse_append,
      List.reverse_cons, List.reverse_nil, List.nil_append, List.singleton_append, hz] at hw
    obtain ⟨_, _, _, hlead, _⟩ := hw
    have := hlead rfl
    simp only [List.cons.injEq, true_and] at this
    have hlen := congrArg List.length this
    simp at hlen
  · decide

/-- A concrete instance: every draw is 0 and two digits are asked for. -/
theorem c29_random_bigint_shape_witness :
    (2 ≤ 2) ∧ ((fun _ : Nat => 0) 2 = 0) ∧ ¬ well_formed (random_bigint (fun _ => 0) 2) :=
  ⟨by decide, rfl, (c29_random_bigint_shape (fun _ => 0) 2).2.2.2.1 (by decide) rfl⟩

/-! ## Subtraction of magnitudes -/

theorem sub_le_nil (n : Nat) (c : Int) : sub_le n [] [] c = [] := by
  induction n with
  | zero => rfl
  | succ n ih => simp [sub_le, ih]

theorem sub_loop_eq (sx : Nat) (xs : List Nat) (sy : Nat) (ys : List Nat) (n i : Nat) (carry : Int)
    (result : List Nat) (hi : 1 ≤ i) :
    sub_loop (sx :: xs) (sy :: ys) n i carry result =
      .ok (result ++ sub_le n (xs.reverse.drop (i - 1)) (ys.reverse.drop (i - 1)) carry) := by
  induction n generalizing i carry result with
  | zero => simp [sub_loop, sub_le]
  | succ n ih =>
    have ht : ∀ l : List Nat, (l.drop (i - 1)).tail = l.drop (i + 1 - 1) := by
      intro l
      rw [List.tail_drop]
      congr 1
      omega
    have hc : (i ≥ (sx :: xs).length ∧ i ≥ (sy :: ys).length) ↔
        (xs.reverse.drop (i - 1) = [] ∧ ys.reverse.drop (i - 1) = []) := by
      simp only [List.length_cons, List.drop_eq_nil_iff, List.length_reverse]
      omega
    rw [sub_loop, sub_le]
    by_cases hb : i ≥ (sx :: xs).length ∧ i ≥ (sy :: ys).length
    · rw [if_pos hb, if_pos (hc.mp hb), ih (i + 1) carry _ (by omega), ht, ht]
    · rw [if_neg hb, if_neg (fun h => hb (hc.mpr h))]
      simp only [digit_from_right_cons _ _ _ hi, ht]
      split_ifs
      · rw [ih (i + 1) 1 _ (by omega)]
        simp
      · rw [ih (i + 1) 0 _ (by omega)]
        simp

/-- The digits pushed by the loop of `operator-=`, least significant first:
as many as the longer operand has, all decimal, and their value is the
difference of the operands, up to a final borrow b. -/
theorem sub_le_spec (n : Nat) (xs ys : List Nat) (c : Nat) (hc : c ≤ 1)
    (hx : ∀ d ∈ xs, d < 10) (hy : ∀ d ∈ ys, d < 10) (hlx : xs.length ≤ n) (hly : ys.length ≤ n) :
    (sub_le (n + 1) xs ys (c : Int)).length = max xs.length ys.length ∧
    (∀ d ∈ sub_le (n + 1) xs ys (c : Int), d < 10) ∧
    ∃ b, b ≤ 1 ∧ Nat.ofDigits 10 (sub_le (n + 1) xs ys (c : Int)) + Nat.ofDigits 10 ys + c =
      Nat.ofDigits 10 xs + b * 10 ^ (max xs.length ys.length) := by
  induction n generalizing xs ys c with
  | zero =>
    have h1 : xs = [] := List.length_eq_zero.mp (by omega)
    have h2 : ys = [] := List.length_eq_zero.mp (by omega)
    subst h1 h2
    rw [sub_le_nil]
    refine ⟨rfl, by simp, c, hc, by simp [Nat.ofDigits]⟩
  | succ n ih =>
    by_cases hboth : xs = [] ∧ ys = []
    · obtain ⟨h1, h2⟩ := hboth
      subst h1 h2
      rw [sub_le_nil]
      refine ⟨rfl, by simp, c, hc, by simp [Nat.ofDigits]⟩
    · have hxh : xs.headD 0 < 10 := by
        cases xs with
        | nil => simp
        | cons a t => simpa using hx a (by simp)
      have hyh : ys.headD 0 < 10 := by
        cases ys with
        | nil => simp
        | cons a t => simpa using hy a (by simp)
      have hxt : ∀ d ∈ xs.tail, d < 10 := fun d hd => hx d (List.mem_of_mem_tail hd)
      have hyt : ∀ d ∈ ys.tail, d < 10 := fun d hd => hy d (List.mem_of_mem_tail hd)
      have hlxt : xs.tail.length ≤ n := by simp; omega
      have hlyt : ys.tail.length ≤ n := by simp; omega
      have hxv : Nat.ofDigits 10 xs = xs.headD 0 + 10 * Nat.ofDigits 10 xs.tail := by
        cases xs with
        | nil => simp [Nat.ofDigits]
        | cons a t => simp [Nat.ofDigits_cons]
      have hyv : Nat.ofDigits 10 ys = ys.headD 0 + 10 * Nat.ofDigits 10 ys.tail := by
        cases ys with
        | nil => simp [Nat.ofDigits]
        | cons a t => simp [Nat.ofDigits_cons]
      have hmax : max xs.length ys.length = max xs.tail.length ys.tail.length + 1 := by
        cases xs with
        | nil =>
          cases ys with
          | nil => simp at hboth
          | cons b u => simp
        | cons a t =>
          cases ys with
          | nil => simp
          | cons b u => simp; omega
      generalize hX : xs.headD 0 = x0 at *
      generalize hY : ys.headD 0 = y0 at *
      have hsub : i16 ((x0 : Int) - (y0 : Int) - (c : Int)) = (x0 : Int) - (y0 : Int) - (c : Int) :=
        i16_of_small _ (by omega) (by omega)
      rw [sub_le, if_neg hboth]
      simp only [hX, hY, hsub]
      by_cases hneg : (x0 : Int) - (y0 : Int) - (c : Int) < 0
      · obtain ⟨e1, e2, b, hb, e3⟩ := ih xs.tail ys.tail 1 (le_refl _) hxt hyt hlxt hlyt
        have h10 : i16 ((x0 : Int) - (y0 : Int) - (c : Int) + 10) =
            ((x0 + 10 - y0 - c : Nat) : Int) := by
          rw [i16_of_small _ (by omega) (by omega)]
          omega
        rw [if_pos hneg, h10, u8_of_small _ (by omega)]
        simp only [Nat.cast_one] at e1 e2 e3
        refine ⟨by simp [e1, hmax], ?_, b, hb, ?_⟩
        · intro d hd
          rcases List.mem_cons.mp hd with h | h
          · omega
          · exact e2 d h
        · rw [Nat.ofDigits_cons, hxv, hyv, hmax, pow_succ]
          have : b * (10 ^ max xs.tail.length ys.tail.length * 10) =
              10 * (b * 10 ^ max xs.tail.length ys.tail.length) := by ring
          rw [this]
          omega
      · obtain ⟨e1, e2, b, hb, e3⟩ := ih xs.tail ys.tail 0 (by omega) hxt hyt hlxt hlyt
        have h10 : (x0 : Int) - (y0 : Int) - (c : Int) = ((x0 - y0 - c : Nat) : Int) := by
          omega
        rw [if_neg hneg, h10, u8_of_small _ (by omega)]
        simp only [Nat.cast_zero] at e1 e2 e3
        refine ⟨by simp [e1, hmax], ?_, b, hb, ?_⟩
        · intro d hd
          rcases List.mem_cons.mp hd with h | h
          · omega
          · exact e2 d h
        · rw [Nat.ofDigits_cons, hxv, hyv, hmax, pow_succ]
          have : b * (10 ^ max xs.tail.length ys.tail.length * 10) =
              10 * (b * 10 ^ max xs.tail.length ys.tail.length) := by ring
          rw [this]
          omega

/-- The end of `operator-=` on the digits D of the difference, most
significant first: one leading zero is erased, the sign is inserted, and a
second leading zero is erased.  The read of `result[1]` is out of range
exactly when D is the single digit 0. -/
theorem sub_finish (D : List Nat) (sign : Nat) (hne : D ≠ []) (hd : ∀ d ∈ D, d < 10) :
    ∃ h, idx D 0 = .ok h ∧
      ((D = [0] ∧ idx (sign :: (if h = 0 then D.drop 1 else D)) 1 = .error .out_of_range) ∨
       (D ≠ [0] ∧ ∃ h2 r, idx (sign :: (if h = 0 then D.drop 1 else D)) 1 = .ok h2 ∧
          (if h2 = 0 then (sign :: (if h = 0 then D.drop 1 else D)).eraseIdx 1
            else sign :: (if h = 0 then D.drop 1 else D)) = sign :: r ∧
          magnitude r = magnitude D ∧ ∀ d ∈ r, d < 10)) := by
  obtain ⟨a, t, rfl⟩ := List.exists_cons_of_ne_nil hne
  refine ⟨a, by simp [idx], ?_⟩
  have ht : ∀ d ∈ t, d < 10 := fun d h => hd d (by simp [h])
  by_cases ha : a = 0
  · subst ha
    simp only [if_true, List.drop_one, List.tail_cons]
    cases t with
    | nil =>
      left
      exact ⟨rfl, by simp [idx]⟩
    | cons b u =>
      right
      refine ⟨by simp, b, if b = 0 then u else b :: u, by simp [idx], ?_, ?_, ?_⟩
      · by_cases hb : b = 0 <;> simp [hb]
      · by_cases hb : b = 0
        · subst hb
          simp [magnitude_cons]
        · simp [hb, magnitude_cons]
      · intro d hdm
        by_cases hb : b = 0
        · rw [if_pos hb] at hdm
          exact ht d (by simp [hdm])
        · rw [if_neg hb] at hdm
          exact ht d hdm
  · right
    simp only [ha, if_false]
    refine ⟨by simp [ha], a, a :: t, by simp [idx], by simp [ha], rfl, hd⟩

/-- The loop of `operator-=` on two positive vectors of decimal digits, the
first of which has the larger magnitude: the digits pushed, read most
significant first, are as many as the longer operand has and their value is
the difference of the magnitudes. -/
theorem sub_digits (big small : List Nat) (hb : ∀ d ∈ big, d < 10) (hs : ∀ d ∈ small, d < 10)
    (hle : magnitude small ≤ magnitude big) :
    ∃ R, sub_loop (1 :: big) (1 :: small) (max (1 :: big).length (1 :: small).length) 1 0 [] =
        .ok R ∧ R.reverse.length = max big.length small.length ∧ (∀ d ∈ R.reverse, d < 10) ∧
      magnitude R.reverse = magnitude big - magnitude small := by
  have hmax : max (1 :: big).length (1 :: small).length = max big.length small.length + 1 := by
    simp only [List.length_cons]
    omega
  have hloop := sub_loop_eq 1 big 1 small (max big.length small.length + 1) 1 0 [] (le_refl _)
  simp only [Nat.sub_self, List.drop_zero, List.nil_append] at hloop
  obtain ⟨e1, e2, b, hb1, e3⟩ := sub_le_spec (max big.length small.length) big.reverse
    small.reverse 0 (by omega) (by simpa using hb) (by simpa using hs) (by simp) (by simp)
  simp only [Nat.cast_zero, List.length_reverse, Nat.add_zero] at e1 e2 e3
  refine ⟨_, by rw [hmax]; exact hloop, by simp [e1], ?_, ?_⟩
  · intro d hd
    exact e2 d (List.mem_reverse.mp hd)
  · have hlt := Nat.ofDigits_lt_base_pow_length (b := 10)
      (l := sub_le (max big.length small.length + 1) big.reverse small.reverse 0)
      (by norm_num) e2
    rw [e1] at hlt
    simp only [magnitude, List.reverse_reverse] at hle ⊢
    have hb0 : b = 0 := by
      rcases Nat.eq_zero_or_pos b with h | h
      · exact h
      · have : b = 1 := by omega
        subst this
        omega
    subst hb0
    omega

theorem single_zero (D : List Nat) (hl : D.length = 1) (hm : magnitude D = 0) : D = [0] := by
  match D, hl with
  | [a], _ =>
    simp only [magnitude_cons, List.length_nil, pow_zero, Nat.mul_one] at hm
    have : a = 0 := by
      have h0 : magnitude ([] : List Nat) = 0 := rfl
      omega
    rw [this]

/-- The last branch of `operator-=` on two positive values satisfying the
representation invariants.  When both have one digit and the same magnitude,
`result[1]` is read out of range.  Otherwise the result carries the
difference of the magnitudes, under the sign slot 0 when the right operand is
the larger one, and in that case the right operand leaves with the old left
value. -/
theorem sub_magnitudes_spec (xs ys : List Nat) (hx : well_formed (1 :: xs))
    (hy : well_formed (1 :: ys)) :
    (xs.length = 1 ∧ ys.length = 1 ∧ magnitude xs = magnitude ys →
      sub_magnitudes (1 :: xs) (1 :: ys) = .error .out_of_range) ∧
    (¬ (xs.length = 1 ∧ ys.length = 1 ∧ magnitude xs = magnitude ys) →
      ∃ r, sub_magnitudes (1 :: xs) (1 :: ys) =
          .ok ((if magnitude xs < magnitude ys then 0 else 1) :: r,
            if magnitude xs < magnitude ys then 1 :: xs else 1 :: ys) ∧
        (∀ d ∈ r, d < 10) ∧
        magnitude r = (if magnitude xs < magnitude ys then magnitude ys - magnitude xs
          else magnitude xs - magnitude ys)) := by
  obtain ⟨_, hlx, hdx, _, _, _⟩ := well_formed_facts 1 xs hx
  obtain ⟨_, hly, hdy, _, _, _⟩ := well_formed_facts 1 ys hy
  have hgt := operator_gt_positive ys xs hy hx
  by_cases hlt : magnitude xs < magnitude ys
  · obtain ⟨R, l1, l2, l3, l4⟩ := sub_digits ys xs hdy hdx (by omega)
    have hne : R.reverse ≠ [] := by
      intro h
      rw [h] at l2
      simp only [List.length_nil] at l2
      omega
    obtain ⟨h, f1, f2⟩ := sub_finish R.reverse 0 hne l3
    have hnz : R.reverse ≠ [0] := by
      intro h0
      rw [h0] at l4
      simp only [magnitude_cons, List.length_nil, pow_zero, Nat.mul_one] at l4
      have h0 : magnitude ([] : List Nat) = 0 := rfl
      omega
    refine ⟨fun hc => by omega, fun _ => ?_⟩
    rcases f2 with ⟨g1, _⟩ | ⟨_, h2, r, g1, g2, g3, g4⟩
    · exact absurd g1 hnz
    · refine ⟨r, ?_, g4, by rw [g3, l4, if_pos hlt]⟩
      simp only [sub_magnitudes, hgt, hlt, decide_True, bind, Except.bind, pure, Except.pure,
        if_true, l1, f1, g1, g2]
  · obtain ⟨R, l1, l2, l3, l4⟩ := sub_digits xs ys hdx hdy (by omega)
    have hne : R.reverse ≠ [] := by
      intro h
      rw [h] at l2
      simp only [List.length_nil] at l2
      omega
    obtain ⟨h, f1, f2⟩ := sub_finish R.reverse 1 hne l3
    constructor
    · rintro ⟨c1, c2, c3⟩
      have hz : R.reverse = [0] := single_zero _ (by rw [l2, c1, c2]; rfl) (by rw [l4]; omega)
      rcases f2 with ⟨_, g1⟩ | ⟨g0, _⟩
      · simp only [sub_magnitudes, hgt, hlt, decide_False, bind, Except.bind, pure, Except.pure,
          if_false, l1, f1, g1, Bool.false_eq_true, zero_ne_one]
      · exact absurd hz g0
    · intro hc
      rcases f2 with ⟨g0, _⟩ | ⟨_, h2, r, g1, g2, g3, g4⟩
      · exfalso
        apply hc
        have hl1 : max xs.length ys.length = 1 := by
          rw [← l2, g0]
          rfl
        have hm0 : magnitude xs - magnitude ys = 0 := by
          rw [← l4, g0]
          rfl
        exact ⟨by omega, by omega, by omega⟩
      · refine ⟨r, ?_, g4, by rw [g3, l4, if_neg hlt]⟩
        simp only [sub_magnitudes, hgt, hlt, decide_False, bind, Except.bind, pure, Except.pure,
          if_false, l1, f1, g1, g2, Bool.false_eq_true, zero_ne_one]

/-! ## The paths of `operator+=` and `operator-=` through the signs -/

theorem operator_eq_negative_zero (xs : List Nat) : operator_eq (0 :: xs) zero = false := by
  cases h : operator_eq (0 :: xs) zero
  · rfl
  · have := (operator_eq_iff _ _).mp h
    simp [zero] at this

theorem sub_assign_depth_magnitudes (d : Nat) (xs ys : List Nat)
    (hx : operator_eq (1 :: xs) zero = false) (hy : operator_eq (1 :: ys) zero = false) :
    sub_assign_depth (d + 1) (1 :: xs) (1 :: ys) = sub_magnitudes (1 :: xs) (1 :: ys) := by
  simp only [sub_assign_depth, hx, hy, and_then, sign_is_cons, bind, Except.bind,
    Bool.false_eq_true, if_false, if_true, decide_True, decide_False, one_ne_zero, zero_ne_one]

theorem add_assign_depth_same_sign (d s : Nat) (hs : s = 0 ∨ s = 1) (xs ys : List Nat)
    (hx : operator_eq (s :: xs) zero = false) (hy : operator_eq (s :: ys) zero = false) :
    add_assign_depth (d + 1) (s :: xs) (s :: ys) =
      (add_same_sign (s :: xs) (s :: ys)).map (fun r => (r, s :: ys)) := by
  rcases hs with rfl | rfl
  · simp only [add_assign_depth, hx, hy, and_then, sign_is_cons, bind, Except.bind,
      Bool.false_eq_true, if_false, if_true, decide_True, decide_False, one_ne_zero, zero_ne_one,
      pure, Except.pure]
    cases add_same_sign (0 :: xs) (0 :: ys) <;> rfl
  · simp only [add_assign_depth, hx, hy, and_then, sign_is_cons, bind, Except.bind,
      Bool.false_eq_true, if_false, if_true, decide_True, decide_False, one_ne_zero, zero_ne_one,
      pure, Except.pure]
    cases add_same_sign (1 :: xs) (1 :: ys) <;> rfl

/-- A negative left and a positive right operand of `operator+=`: the
operands are exchanged and the magnitudes subtracted. -/
theorem add_assign_depth_negative_positive (d : Nat) (xs ys : List Nat)
    (hx : operator_eq (1 :: xs) zero = false) (hy : operator_eq (1 :: ys) zero = false) :
    add_assign_depth (d + 2) (0 :: xs) (1 :: ys) = sub_magnitudes (1 :: ys) (1 :: xs) := by
  rw [← sub_assign_depth_magnitudes d ys xs hy hx]
  simp only [add_assign_depth, hy, operator_eq_negative_zero, and_then, sign_is_cons,
    operator_neg_cons, bind, Except.bind, Bool.false_eq_true, if_false, if_true, decide_True,
    decide_False, one_ne_zero, zero_ne_one, pure, Except.pure]

/-- A positive left and a negative right operand of `operator+=`: the
magnitudes are subtracted and the right operand is left alone. -/
theorem add_assign_depth_positive_negative (d : Nat) (xs ys : List Nat)
    (hx : operator_eq (1 :: xs) zero = false) (hy : operator_eq (1 :: ys) zero = false) :
    add_assign_depth (d + 2) (1 :: xs) (0 :: ys) =
      (sub_magnitudes (1 :: xs) (1 :: ys)).map (fun r => (r.1, 0 :: ys)) := by
  rw [← sub_assign_depth_magnitudes d xs ys hx hy]
  simp only [add_assign_depth, hx, operator_eq_negative_zero, and_then, sign_is_cons,
    operator_neg_cons, bind, Except.bind, Bool.false_eq_true, if_false, if_true, decide_True,
    decide_False, one_ne_zero, zero_ne_one, pure, Except.pure]
  cases sub_assign_depth (d + 1) (1 :: xs) (1 :: ys) <;> rfl

/-- A positive left and a negative right operand of `operator-=`: the
magnitudes are added. -/
theorem sub_assign_depth_positive_negative (d : Nat) (xs ys : List Nat)
    (hx : operator_eq (1 :: xs) zero = false) (hy : operator_eq (1 :: ys) zero = false) :
    sub_assign_depth (d + 2) (1 :: xs) (0 :: ys) =
      (add_same_sign (1 :: xs) (1 :: ys)).map (fun r => (r, 0 :: ys)) := by
  have h := add_assign_depth_same_sign d 1 (Or.inr rfl) xs ys hx hy
  rw [sub_assign_depth]
  simp only [hx, operator_eq_negative_zero, and_then, sign_is_cons,
    operator_neg_cons, bind, Except.bind, Bool.false_eq_true, if_false, if_true, decide_True,
    decide_False, one_ne_zero, zero_ne_one, pure, Except.pure, h]
  cases add_same_sign (1 :: xs) (1 :: ys) <;> rfl

/-- Two negative operands of `operator-=`: the magnitudes are subtracted in
the opposite order. -/
theorem sub_assign_depth_negative_negative (d : Nat) (xs ys : List Nat)
    (hx : operator_eq (1 :: xs) zero = false) (hy : operator_eq (1 :: ys) zero = false) :
    sub_assign_depth (d + 3) (0 :: xs) (0 :: ys) =
      (sub_magnitudes (1 :: ys) (1 :: xs)).map (fun r => (r.1, 0 :: ys)) := by
  have h := add_assign_depth_negative_positive d xs ys hx hy
  rw [sub_assign_depth]
  simp only [operator_eq_negative_zero, and_then, sign_is_cons,
    operator_neg_cons, bind, Except.bind, Bool.false_eq_true, if_false, if_true, decide_True,
    decide_False, one_ne_zero, zero_ne_one, pure, Except.pure, h]
  cases sub_magnitudes (1 :: ys) (1 :: xs) <;> rfl

/-- A negative left and a positive right operand of `operator-=`: the
magnitudes are added under the negative sign. -/
theorem sub_assign_depth_negative_positive (d : Nat) (xs ys : List Nat)
    (hy : operator_eq (1 :: ys) zero = false) :
    sub_assign_depth (d + 2) (0 :: xs) (1 :: ys) =
      (add_same_sign (0 :: xs) (0 :: ys)).map (fun r => (r, 1 :: ys)) := by
  have h := add_assign_depth_same_sign d 0 (Or.inl rfl) xs ys (operator_eq_negative_zero _)
    (operator_eq_negative_zero _)
  rw [sub_assign_depth]
  simp only [hy, operator_eq_negative_zero, and_then, sign_is_cons,
    operator_neg_cons, bind, Except.bind, Bool.false_eq_true, if_false, if_true, decide_True,
    decide_False, one_ne_zero, zero_ne_one, pure, Except.pure, h]
  cases add_same_sign (0 :: xs) (0 :: ys) <;> rfl

/-! ## The value of sums and differences -/

theorem well_formed_positive (s : Nat) (ds : List Nat) (h : well_formed (s :: ds)) :
    well_formed (1 :: ds) :=
  ⟨Or.inr rfl, h.2.1, h.2.2.1, h.2.2.2.1, fun _ => rfl⟩

theorem well_formed_negative (s : Nat) (ds : List Nat) (h : well_formed (s :: ds))
    (hm : magnitude ds ≠ 0) : well_formed (0 :: ds) := by
  refine ⟨Or.inl rfl, h.2.1, h.2.2.1, h.2.2.2.1, fun h0 => ?_⟩
  rw [h0] at hm
  exact absurd rfl hm

theorem nonzero_of_magnitude (s : Nat) (ds : List Nat) (hm : magnitude ds ≠ 0) :
    operator_eq (s :: ds) zero = false := by
  cases hq : operator_eq (s :: ds) zero
  · rfl
  · have := (operator_eq_iff _ _).mp hq
    simp only [zero, List.cons.injEq] at this
    rw [this.2] at hm
    exact absurd rfl hm

theorem well_formed_zero (s : Nat) (ds : List Nat) (h : well_formed (s :: ds))
    (hm : magnitude ds = 0) : s :: ds = zero := by
  obtain ⟨_, _, _, _, hz, _⟩ := well_formed_facts s ds h
  obtain ⟨h1, h2⟩ := hz hm
  rw [h1, h2]
  rfl

theorem one_digit_iff (s : Nat) (ds : List Nat) (h : well_formed (s :: ds)) :
    ds.length = 1 ↔ magnitude ds < 10 := by
  obtain ⟨_, hl, _, hu, hz, hn⟩ := well_formed_facts s ds h
  constructor
  · intro h1
    rw [h1] at hu
    simpa using hu
  · intro h10
    by_cases hm : magnitude ds = 0
    · rw [(hz hm).2]
      rfl
    · have h2 := (hn hm).1
      by_contra hne
      have h3 : 10 ^ 1 ≤ 10 ^ (ds.length - 1) := Nat.pow_le_pow_right (by norm_num) (by omega)
      omega

/-- The last branch of `operator-=` on two positive values satisfying the
representation invariants, by value: the read of `result[1]` is out of range
exactly when the magnitudes are equal and below 10; otherwise the result
denotes the difference, and the right operand leaves with the old left value
exactly when it was the larger one. -/
theorem sub_magnitudes_value (xs ys : List Nat) (hx : well_formed (1 :: xs))
    (hy : well_formed (1 :: ys)) :
    (magnitude xs = magnitude ys ∧ magnitude xs < 10 →
      sub_magnitudes (1 :: xs) (1 :: ys) = .error .out_of_range) ∧
    (¬ (magnitude xs = magnitude ys ∧ magnitude xs < 10) →
      ∃ r, sub_magnitudes (1 :: xs) (1 :: ys) = .ok r ∧
        denote r.1 = (magnitude xs : Int) - (magnitude ys : Int) ∧
        r.2 = (if magnitude xs < magnitude ys then 1 :: xs else 1 :: ys) ∧
        idx r.1 0 = .ok (if magnitude xs < magnitude ys then 0 else 1)) := by
  obtain ⟨e1, e2⟩ := sub_magnitudes_spec xs ys hx hy
  have h1 := one_digit_iff 1 xs hx
  have h2 := one_digit_iff 1 ys hy
  have hiff : (xs.length = 1 ∧ ys.length = 1 ∧ magnitude xs = magnitude ys) ↔
      (magnitude xs = magnitude ys ∧ magnitude xs < 10) := by
    constructor
    · rintro ⟨a, b, c⟩
      exact ⟨c, h1.mp a⟩
    · rintro ⟨a, b⟩
      exact ⟨h1.mpr b, h2.mpr (by omega), a⟩
  refine ⟨fun h => e1 (hiff.mpr h), fun h => ?_⟩
  obtain ⟨r, f1, _, f3⟩ := e2 (fun h0 => h (hiff.mp h0))
  refine ⟨_, f1, ?_, rfl, by simp [idx]⟩
  by_cases hlt : magnitude xs < magnitude ys
  · simp only [hlt, if_true, denote] at f3 ⊢
    rw [f3]
    omega
  · simp only [hlt, if_false, denote, one_ne_zero] at f3 ⊢
    rw [f3]
    omega

/-- The operator `operator+=` on values satisfying the representation
invariants: the read of `result[1]` is out of range exactly when the operands
are opposite non-zero one-digit values; otherwise the new left operand
denotes the sum. -/
theorem operator_add_assign_value (a b : bigint) (ha : well_formed a) (hb : well_formed b) :
    (denote a + denote b = 0 ∧ denote a ≠ 0 ∧ (denote a).natAbs < 10 →
      operator_add_assign a b = .error .out_of_range) ∧
    (¬ (denote a + denote b = 0 ∧ denote a ≠ 0 ∧ (denote a).natAbs < 10) →
      ∃ r, operator_add_assign a b = .ok r ∧ denote r.1 = denote a + denote b) := by
  match a, b, ha, hb with
  | sa :: da, sb :: db, ha, hb =>
    obtain ⟨hsa, _, hda, _, _, _⟩ := well_formed_facts sa da ha
    obtain ⟨hsb, _, hdb, _, _, _⟩ := well_formed_facts sb db hb
    have hzz : operator_eq zero zero = true := by decide
    by_cases hma : magnitude da = 0
    · have hz := well_formed_zero sa da ha hma
      rw [hz]
      have hd0 : denote zero = 0 := by decide
      rw [hd0]
      refine ⟨fun h => absurd rfl h.2.1, fun _ => ⟨(sb :: db, sb :: db), ?_, by simp⟩⟩
      simp only [operator_add_assign, max_depth, add_assign_depth, hzz, if_true]
    by_cases hmb : magnitude db = 0
    · have hz := well_formed_zero sb db hb hmb
      rw [hz]
      have hd0 : denote zero = 0 := by decide
      have hna := nonzero_of_magnitude sa da hma
      rw [hd0]
      constructor
      · rintro ⟨h1, h2, _⟩
        omega
      · intro _
        refine ⟨(sa :: da, zero), ?_, by simp⟩
        simp only [operator_add_assign, max_depth, add_assign_depth, hzz, hna, if_true,
          Bool.false_eq_true, if_false]
    have wa := well_formed_positive sa da ha
    have wb := well_formed_positive sb db hb
    have na := nonzero_of_magnitude 1 da hma
    have nb := nonzero_of_magnitude 1 db hmb
    have dn : ∀ ds : List Nat, denote (0 :: ds) = -(magnitude ds : Int) := fun ds => by
      simp [denote]
    have dp : ∀ ds : List Nat, denote (1 :: ds) = (magnitude ds : Int) := fun ds => by
      simp [denote]
    rcases hsa with rfl | rfl <;> rcases hsb with rfl | rfl
    · -- both negative
      obtain ⟨zs, g1, _, g3, _⟩ := add_same_sign_spec 0 (Or.inl rfl) da db hda hdb
      rw [dn da, dn db]
      constructor
      · rintro ⟨h1, h2, _⟩
        omega
      · intro _
        refine ⟨(0 :: zs, 0 :: db), ?_, ?_⟩
        · rw [operator_add_assign, max_depth, add_assign_depth_same_sign 2 0 (Or.inl rfl) da db
            (operator_eq_negative_zero _) (operator_eq_negative_zero _), g1]
          rfl
        · rw [dn zs, g3, Nat.cast_add]
          omega
    · -- negative, positive
      obtain ⟨v1, v2⟩ := sub_magnitudes_value db da wb wa
      rw [dn da, dp db]
      rw [operator_add_assign, max_depth, add_assign_depth_negative_positive 1 da db na nb]
      constructor
      · rintro ⟨h1, h2, h3⟩
        exact v1 ⟨by omega, by omega⟩
      · intro hc
        obtain ⟨r, f1, f2, _⟩ := v2 (fun h => hc ⟨by omega, by omega, by omega⟩)
        exact ⟨r, f1, by rw [f2]; omega⟩
    · -- positive, negative
      obtain ⟨v1, v2⟩ := sub_magnitudes_value da db wa wb
      rw [dp da, dn db]
      rw [operator_add_assign, max_depth, add_assign_depth_positive_negative 1 da db na nb]
      constructor
      · rintro ⟨h1, h2, h3⟩
        rw [v1 ⟨by omega, by omega⟩]
        rfl
      · intro hc
        obtain ⟨r, f1, f2, _⟩ := v2 (fun h => hc ⟨by omega, by omega, by omega⟩)
        refine ⟨(r.1, 0 :: db), by rw [f1]; rfl, by rw [f2]; omega⟩
    · -- both positive
      obtain ⟨zs, g1, _, g3, _⟩ := add_same_sign_spec 1 (Or.inr rfl) da db hda hdb
      rw [dp da, dp db]
      constructor
      · rintro ⟨h1, h2, _⟩
        omega
      · intro _
        refine ⟨(1 :: zs, 1 :: db), ?_, ?_⟩
        · rw [operator_add_assign, max_depth, add_assign_depth_same_sign 2 1 (Or.inr rfl) da db
            na nb, g1]
          rfl
        · rw [dp zs, g3, Nat.cast_add]

/-- The operator `operator-=` on values satisfying the representation
invariants: the read of `result[1]` is out of range exactly when the operands
are equal non-zero one-digit values; otherwise the new left operand denotes
the difference. -/
theorem operator_sub_assign_value (a b : bigint) (ha : well_formed a) (hb : well_formed b) :
    (denote a = denote b ∧ denote a ≠ 0 ∧ (denote a).natAbs < 10 →
      operator_sub_assign a b = .error .out_of_range) ∧
    (¬ (denote a = denote b ∧ denote a ≠ 0 ∧ (denote a).natAbs < 10) →
      ∃ r, operator_sub_assign a b = .ok r ∧ denote r.1 = denote a - denote b) := by
  match a, b, ha, hb with
  | sa :: da, sb :: db, ha, hb =>
    obtain ⟨hsa, _, hda, _, _, _⟩ := well_formed_facts sa da ha
    obtain ⟨hsb, _, hdb, _, _, _⟩ := well_formed_facts sb db hb
    have hzz : operator_eq zero zero = true := by decide
    have dn : ∀ ds : List Nat, denote (0 :: ds) = -(magnitude ds : Int) := fun ds => by
      simp [denote]
    have dp : ∀ ds : List Nat, denote (1 :: ds) = (magnitude ds : Int) := fun ds => by
      simp [denote]
    by_cases hma : magnitude da = 0
    · have hz := well_formed_zero sa da ha hma
      rw [hz]
      have hd0 : denote zero = 0 := by decide
      rw [hd0]
      refine ⟨fun h => absurd rfl h.2.1, fun _ => ?_⟩
      rcases hsb with rfl | rfl
      · refine ⟨(1 :: db, 0 :: db), ?_, by rw [dp, dn]; omega⟩
        simp only [operator_sub_assign, max_depth, sub_assign_depth, hzz, if_true,
          operator_neg_cons, bind, Except.bind, pure, Except.pure]
      · refine ⟨(0 :: db, 1 :: db), ?_, by rw [dp, dn]; omega⟩
        simp only [operator_sub_assign, max_depth, sub_assign_depth, hzz, if_true,
          operator_neg_cons, bind, Except.bind, pure, Except.pure, one_ne_zero, if_false]
    by_cases hmb : magnitude db = 0
    · have hz := well_formed_zero sb db hb hmb
      rw [hz]
      have hd0 : denote zero = 0 := by decide
      have hna := nonzero_of_magnitude sa da hma
      rw [hd0]
      constructor
      · rintro ⟨h1, h2, _⟩
        omega
      · intro _
        refine ⟨(sa :: da, zero), ?_, by simp⟩
        simp only [operator_sub_assign, max_depth, sub_assign_depth, hzz, hna, if_true,
          Bool.false_eq_true, if_false]
    have wa := well_formed_positive sa da ha
    have wb := well_formed_positive sb db hb
    have na := nonzero_of_magnitude 1 da hma
    have nb := nonzero_of_magnitude 1 db hmb
    rcases hsa with rfl | rfl <;> rcases hsb with rfl | rfl
    · -- both negative
      obtain ⟨v1, v2⟩ := sub_magnitudes_value db da wb wa
      rw [dn da, dn db]
      rw [operator_sub_assign, max_depth, sub_assign_depth_negative_negative 0 da db na nb]
      constructor
      · rintro ⟨h1, h2, h3⟩
        rw [v1 ⟨by omega, by omega⟩]
        rfl
      · intro hc
        obtain ⟨r, f1, f2, _⟩ := v2 (fun h => hc ⟨by omega, by omega, by omega⟩)
        refine ⟨(r.1, 0 :: db), by rw [f1]; rfl, by rw [f2]; omega⟩
    · -- negative, positive
      obtain ⟨zs, g1, _, g3, _⟩ := add_same_sign_spec 0 (Or.inl rfl) da db hda hdb
      rw [dn da, dp db]
      constructor
      · rintro ⟨h1, h2, _⟩
        omega
      · intro _
        refine ⟨(0 :: zs, 1 :: db), ?_, ?_⟩
        · rw [operator_sub_assign, max_depth, sub_assign_depth_negative_positive 1 da db nb, g1]
          rfl
        · rw [dn zs, g3, Nat.cast_add]
          omega
    · -- positive, negative
      obtain ⟨zs, g1, _, g3, _⟩ := add_same_sign_spec 1 (Or.inr rfl) da db hda hdb
      rw [dp da, dn db]
      constructor
      · rintro ⟨h1, h2, _⟩
        omega
      · intro _
        refine ⟨(1 :: zs, 0 :: db), ?_, ?_⟩
        · rw [operator_sub_assign, max_depth, sub_assign_depth_positive_negative 1 da db na nb,
            g1]
          rfl
        · rw [dp zs, g3, Nat.cast_add]
          omega
    · -- both positive
      obtain ⟨v1, v2⟩ := sub_magnitudes_value da db wa wb
      rw [dp da, dp db]
      rw [operator_sub_assign, max_depth, sub_assign_depth_magnitudes 2 da db na nb]
      constructor
      · rintro ⟨h1, h2, h3⟩
        exact v1 ⟨by omega, by omega⟩
      · intro hc
        obtain ⟨r, f1, f2, _⟩ := v2 (fun h => hc ⟨by omega, by omega, by omega⟩)
        exact ⟨r, f1, f2⟩

/-! ## Claims on same-sign addition, on the operand swap and on values -/

/-- C26: for non-zero values a and b of the same sign satisfying the
representation invariants, `a += b` leaves in a the canonical representation
of the sum of the two integers and leaves b alone; the sign slot is the common
one, and the result has one entry more than the longer operand exactly when
the sum of the magnitudes needs the extra digit. -/
theorem c26_same_sign_addition (a b : bigint) (ha : well_formed a) (hb : well_formed b)
    (h : (0 < denote a ∧ 0 < denote b) ∨ (denote a < 0 ∧ denote b < 0)) :
    operator_add_assign a b = .ok (canonical (denote a + denote b), b) ∧
    idx (canonical (denote a + denote b)) 0 = idx a 0 ∧
    (canonical (denote a + denote b)).length =
      (if (denote a).natAbs + (denote b).natAbs < 10 ^ (max a.length b.length - 1)
        then max a.length b.length else max a.length b.length + 1) := by
  match a, b, ha, hb, h with
  | sa :: da, sb :: db, ha, hb, h =>
    obtain ⟨hsa, _, hda, _, _, _⟩ := well_formed_facts sa da ha
    obtain ⟨hsb, _, hdb, _, _, _⟩ := well_formed_facts sb db hb
    have hs : sb = sa ∧ magnitude da ≠ 0 ∧ magnitude db ≠ 0 := by
      simp only [denote] at h
      rcases hsa with rfl | rfl <;> rcases hsb with rfl | rfl <;>
        simp only [if_true, one_ne_zero, if_false] at h <;> omega
    obtain ⟨rfl, hma, hmb⟩ := hs
    obtain ⟨zs, e1, e2, e3⟩ := add_same_sign_well_formed sb da db ha hb hma hmb
    obtain ⟨zs2, f1, _, _, f4⟩ := add_same_sign_spec sb hsa da db hda hdb
    have hzz : zs2 = zs := by
      rw [f1] at e1
      simpa using e1
    subst hzz
    have hden : denote (sb :: zs2) = denote (sb :: da) + denote (sb :: db) := by
      simp only [denote]
      rcases hsa with rfl | rfl
      · simp only [if_true, e3, Nat.cast_add]
        omega
      · simp only [one_ne_zero, if_false, e3, Nat.cast_add]
    have hcan := well_formed_eq_canonical _ e2
    rw [hden] at hcan
    have hna : (denote (sb :: da)).natAbs = magnitude da := by
      simp only [denote]
      rcases hsa with rfl | rfl
      · simp
      · simp
    have hnb : (denote (sb :: db)).natAbs = magnitude db := by
      simp only [denote]
      rcases hsa with rfl | rfl
      · simp
      · simp
    rw [← hcan, hna, hnb]
    refine ⟨?_, by simp [idx], ?_⟩
    · rw [operator_add_assign, max_depth, add_assign_depth_same_sign 2 sb hsa da db
        (nonzero_of_magnitude sb da hma) (nonzero_of_magnitude sb db hmb), f1]
      rfl
    · have hmx : max (sb :: da).length (sb :: db).length = max da.length db.length + 1 := by
        simp only [List.length_cons]
        omega
      rw [hmx, List.length_cons, f4, Nat.add_sub_cancel]
      split_ifs <;> rfl

/-- A concrete instance: 95 += 7. -/
theorem c26_same_sign_addition_witness :
    well_formed [1, 9, 5] ∧ well_formed [1, 7] ∧
    operator_add_assign [1, 9, 5] [1, 7] =
      .ok (canonical (denote [1, 9, 5] + denote [1, 7]), [1, 7]) :=
  ⟨by decide, by decide,
    (c26_same_sign_addition [1, 9, 5] [1, 7] (by decide) (by decide)
      (Or.inl ⟨by decide, by decide⟩)).1⟩

/-- C28: for non-zero positive values lhs and rhs satisfying the
representation invariants, `lhs -= rhs` reads out of range when the two are
the same one-digit value, and otherwise returns: when `rhs > lhs` held on
entry the right operand holds the old lhs and the sign slot of the result is
0, and when it did not the right operand is unchanged and the sign slot of
the result is 1. -/
theorem c28_operand_swap (lhs rhs : bigint) (hl : well_formed lhs) (hr : well_formed rhs)
    (hlp : 0 < denote lhs) (hrp : 0 < denote rhs) :
    ∃ g, operator_gt rhs lhs = .ok g ∧
      (denote lhs = denote rhs ∧ denote lhs < 10 →
        operator_sub_assign lhs rhs = .error .out_of_range) ∧
      (¬ (denote lhs = denote rhs ∧ denote lhs < 10) →
        ∃ r, operator_sub_assign lhs rhs = .ok (r, if g then lhs else rhs) ∧
          idx r 0 = .ok (if g then 0 else 1)) := by
  match lhs, rhs, hl, hr, hlp, hrp with
  | sa :: da, sb :: db, hl, hr, hlp, hrp =>
    obtain ⟨hsa, _, _, _, _, _⟩ := well_formed_facts sa da hl
    obtain ⟨hsb, _, _, _, _, _⟩ := well_formed_facts sb db hr
    have hs : sa = 1 ∧ sb = 1 ∧ magnitude da ≠ 0 ∧ magnitude db ≠ 0 := by
      simp only [denote] at hlp hrp
      rcases hsa with rfl | rfl <;> rcases hsb with rfl | rfl <;>
        simp only [if_true, one_ne_zero, if_false] at hlp hrp <;> omega
    obtain ⟨rfl, rfl, hma, hmb⟩ := hs
    have dp : ∀ ds : List Nat, denote (1 :: ds) = (magnitude ds : Int) := fun ds => by
      simp [denote]
    obtain ⟨v1, v2⟩ := sub_magnitudes_value da db hl hr
    refine ⟨decide (magnitude da < magnitude db), operator_gt_positive db da hr hl, ?_, ?_⟩
    · rw [dp, dp, operator_sub_assign, max_depth, sub_assign_depth_magnitudes 2 da db
        (nonzero_of_magnitude 1 da hma) (nonzero_of_magnitude 1 db hmb)]
      intro hc
      exact v1 ⟨by omega, by omega⟩
    · rw [dp, dp, operator_sub_assign, max_depth, sub_assign_depth_magnitudes 2 da db
        (nonzero_of_magnitude 1 da hma) (nonzero_of_magnitude 1 db hmb)]
      intro hc
      obtain ⟨r, f1, _, f3, f4⟩ := v2 (fun h => hc ⟨by omega, by omega⟩)
      refine ⟨r.1, ?_, ?_⟩
      · rw [f1]
        congr 1
        by_cases hlt : magnitude da < magnitude db
        · simp only [hlt, if_true, decide_True] at f3 ⊢
          exact Prod.ext rfl f3
        · simp only [hlt, if_false, decide_False, Bool.false_eq_true] at f3 ⊢
          exact Prod.ext rfl f3
      · rw [f4]
        by_cases hlt : magnitude da < magnitude db <;> simp [hlt]

/-- A concrete instance: 5 -= 7 leaves -2 in the left operand and 5 in the
right one. -/
theorem c28_operand_swap_witness :
    well_formed [1, 5] ∧ well_formed [1, 7] ∧ 0 < denote [1, 5] ∧ 0 < denote [1, 7] ∧
    ∃ g, operator_gt [1, 7] [1, 5] = .ok g ∧
      (denote [1, 5] = denote [1, 7] ∧ denote [1, 5] < 10 →
        operator_sub_assign [1, 5] [1, 7] = .error .out_of_range) ∧
      (¬ (denote [1, 5] = denote [1, 7] ∧ denote [1, 5] < 10) →
        ∃ r, operator_sub_assign [1, 5] [1, 7] = .ok (r, if g then [1, 5] else [1, 7]) ∧
          idx r 0 = .ok (if g then 0 else 1)) :=
  ⟨by decide, by decide, by decide, by decide,
    c28_operand_swap [1, 5] [1, 7] (by decide) (by decide) (by decide)
      (by decide)⟩

/-- C30: for operands a and b satisfying the representation invariants,
`a + b` reads out of range exactly when a and b are opposite non-zero
one-digit values, and `a - b` exactly when they are equal non-zero one-digit
values; in every other case the result, whatever its leading zeros or sign
slot, denotes the sum, respectively the difference, of the two integers. -/
theorem c30_value_of_sum_and_difference (a b : bigint) (ha : well_formed a)
    (hb : well_formed b) :
    (denote a + denote b = 0 ∧ denote a ≠ 0 ∧ (denote a).natAbs < 10 →
      operator_add a b = .error .out_of_range) ∧
    (¬ (denote a + denote b = 0 ∧ denote a ≠ 0 ∧ (denote a).natAbs < 10) →
      ∃ r, operator_add a b = .ok r ∧ denote r = denote a + denote b) ∧
    (denote a = denote b ∧ denote a ≠ 0 ∧ (denote a).natAbs < 10 →
      operator_sub a b = .error .out_of_range) ∧
    (¬ (denote a = denote b ∧ denote a ≠ 0 ∧ (denote a).natAbs < 10) →
      ∃ r, operator_sub a b = .ok r ∧ denote r = denote a - denote b) := by
  obtain ⟨a1, a2⟩ := operator_add_assign_value a b ha hb
  obtain ⟨s1, s2⟩ := operator_sub_assign_value a b ha hb
  refine ⟨fun h => ?_, fun h => ?_, fun h => ?_, fun h => ?_⟩
  · rw [operator_add, a1 h]
    rfl
  · obtain ⟨r, e1, e2⟩ := a2 h
    exact ⟨r.1, by rw [operator_add, e1]; rfl, e2⟩
  · rw [operator_sub, s1 h]
    rfl
  · obtain ⟨r, e1, e2⟩ := s2 h
    exact ⟨r.1, by rw [operator_sub, e1]; rfl, e2⟩

/-- A concrete instance: 1000 + (-999), whose result [1, 0, 1] has a leading
zero and denotes 1. -/
theorem c30_value_of_sum_and_difference_witness :
    well_formed [1, 1, 0, 0, 0] ∧ well_formed [0, 9, 9, 9] ∧
    ∃ r, operator_add [1, 1, 0, 0, 0] [0, 9, 9, 9] = .ok r ∧
      denote r = denote [1, 1, 0, 0, 0] + denote [0, 9, 9, 9] :=
  ⟨by decide, by decide,
    (c30_value_of_sum_and_difference [1, 1, 0, 0, 0] [0, 9, 9, 9] (by decide) (by decide)).2.1
      (by decide)⟩

/-! ## Claims on the representation invariants and on subtraction with zero -/

theorem operator_neg_canonical (y : Int) (hy : y ≠ 0) :
    operator_neg (canonical y) = .ok (canonical (-y)) := by
  have hny : -y ≠ 0 := by omega
  rw [(canonical_cons y hy).1, (canonical_cons (-y) hny).1, operator_neg_cons, Int.natAbs_neg]
  by_cases h : y < 0
  · have h2 : ¬ (-y < 0) := by omega
    simp [h, h2]
  · have h2 : -y < 0 := by omega
    simp [h, h2]

/-- Binary `operator-` on the canonical representations of two integers of
opposite signs, or of which exactly one is zero, yields the canonical
representation of their difference. -/
theorem operator_sub_opposite_sign (x y : Int)
    (h : (0 ≤ x ∧ y < 0) ∨ (x ≤ 0 ∧ 0 < y) ∨ (x ≠ 0 ∧ y = 0)) :
    operator_sub (canonical x) (canonical y) = .ok (canonical (x - y)) := by
  have hzz : operator_eq zero zero = true := by decide
  by_cases hy : y = 0
  · subst hy
    have hx : x ≠ 0 := by omega
    rw [canonical_zero, Int.sub_zero]
    simp only [operator_sub, operator_sub_assign, max_depth, sub_assign_depth,
      canonical_ne_zero x hx, hzz, if_true, Bool.false_eq_true, if_false, Except.map]
  by_cases hx : x = 0
  · subst hx
    rw [canonical_zero, Int.zero_sub]
    simp only [operator_sub, operator_sub_assign, max_depth, sub_assign_depth, hzz, if_true,
      operator_neg_canonical y hy, bind, Except.bind, pure, Except.pure, Except.map]
  obtain ⟨cx, mx⟩ := canonical_cons x hx
  obtain ⟨cy, my⟩ := canonical_cons y hy
  have wx := canonical_well_formed x
  have wy := canonical_well_formed y
  rw [cx] at wx
  rw [cy] at wy
  have hmx : magnitude (Nat.digits 10 x.natAbs).reverse ≠ 0 := by
    rw [mx]
    exact Int.natAbs_ne_zero.mpr hx
  have hmy : magnitude (Nat.digits 10 y.natAbs).reverse ≠ 0 := by
    rw [my]
    exact Int.natAbs_ne_zero.mpr hy
  rw [cx, cy]
  by_cases hpos : 0 < x
  · have hyn : y < 0 := by omega
    have hxn : ¬ (x < 0) := by omega
    simp only [hxn, hyn, if_true, if_false] at wx wy ⊢
    obtain ⟨zs, e1, e2, e3⟩ := add_same_sign_well_formed 1 _ _ wx (well_formed_positive _ _ wy)
      hmx hmy
    have hden : denote (1 :: zs) = x - y := by
      simp only [denote, one_ne_zero, if_false, e3, mx, my, Nat.cast_add]
      omega
    have hcan := well_formed_eq_canonical _ e2
    rw [hden] at hcan
    rw [operator_sub, operator_sub_assign, max_depth, sub_assign_depth_positive_negative 1 _ _
      (nonzero_of_magnitude 1 _ hmx) (nonzero_of_magnitude 1 _ hmy), e1, ← hcan]
    rfl
  · have hxn : x < 0 := by omega
    have hyp : ¬ (y < 0) := by omega
    simp only [hxn, hyp, if_true, if_false] at wx wy ⊢
    obtain ⟨zs, e1, e2, e3⟩ := add_same_sign_well_formed 0 _ _ wx
      (well_formed_negative _ _ wy hmy) hmx hmy
    have hden : denote (0 :: zs) = x - y := by
      simp only [denote, if_true, e3, mx, my, Nat.cast_add]
      omega
    have hcan := well_formed_eq_canonical _ e2
    rw [hden] at hcan
    rw [operator_sub, operator_sub_assign, max_depth, sub_assign_depth_negative_positive 1 _ _
      (nonzero_of_magnitude 1 _ hmy), e1, ← hcan]
    rfl

/-- C21 (counterexample): the negation of the default-constructed zero is
the vector [0, 0], a zero with the negative sign, which breaks the third
invariant. -/
theorem c21_negated_zero_is_negative :
    well_formed zero ∧ operator_neg zero = .ok [0, 0] ∧ ¬ well_formed [0, 0] := by
  decide

/-- C27 (counterexample): `0 - 0` is the negative zero [0, 0], which
`operator==` tells apart from the zero it was computed from. -/
theorem c27_zero_minus_zero :
    well_formed zero ∧ operator_sub zero zero = .ok [0, 0] ∧
    (operator_sub zero zero).map (fun r => operator_eq r zero) = .ok false := by
  decide

/-- C27 (amended): for every non-zero value a satisfying the representation
invariants `a - 0 == a` is true; for every value a satisfying them, zero
included, `0 - a == -a` is true; and `0 - 0` is the negative zero [0, 0]. -/
theorem c27_zero_short_circuits (a : bigint) (ha : well_formed a) :
    (denote a ≠ 0 → (operator_sub a zero).map (fun r => operator_eq r a) = .ok true) ∧
    (operator_sub zero a).bind (fun l => (operator_neg a).map (fun r => operator_eq l r)) =
      .ok true ∧
    operator_sub zero zero = .ok [0, 0] := by
  have hzz : operator_eq zero zero = true := by decide
  match a, ha with
  | s :: ds, ha =>
    refine ⟨fun h => ?_, ?_, by decide⟩
    · have hm : magnitude ds ≠ 0 := by
        intro h0
        apply h
        simp only [denote, h0]
        split_ifs <;> simp
      simp only [operator_sub, operator_sub_assign, max_depth, sub_assign_depth,
        nonzero_of_magnitude s ds hm, hzz, if_true, Bool.false_eq_true, if_false, Except.map,
        (operator_eq_iff (s :: ds) (s :: ds)).mpr rfl]
    · simp only [operator_sub, operator_sub_assign, max_depth, sub_assign_depth, hzz, if_true,
        operator_neg_cons, bind, Except.bind, pure, Except.pure, Except.map,
        (operator_eq_iff _ _).mpr rfl]

/-- A concrete instance: the value -42. -/
theorem c27_zero_short_circuits_witness :
    well_formed [0, 4, 2] ∧ denote [0, 4, 2] ≠ 0 ∧
    (operator_sub [0, 4, 2] zero).map (fun r => operator_eq r [0, 4, 2]) = .ok true :=
  ⟨by decide, by decide, (c27_zero_short_circuits [0, 4, 2] (by decide)).1 (by decide)⟩

/-! ## The derived comparisons on vectors that need not be normalised -/

theorem scan_negative_swap (xs ys : List Nat) : scan_negative xs ys = scan_positive ys xs := by
  induction xs generalizing ys with
  | nil => cases ys <;> rfl
  | cons x xs ih =>
    cases ys with
    | nil => rfl
    | cons y ys => simp only [scan_negative, scan_positive, ih, gt_iff_lt]

/-- On digit lists of one length the scan of `operator>` in one direction
decides the other: exactly one of the two scans succeeds unless the lists are
equal. -/
theorem scan_positive_swap (xs ys : List Nat) (hlen : xs.length = ys.length) :
    scan_positive ys xs = (!(scan_positive xs ys) && !(decide (xs = ys))) := by
  induction xs generalizing ys with
  | nil =>
    cases ys with
    | nil => rfl
    | cons y ys => simp at hlen
  | cons x xs ih =>
    cases ys with
    | nil => simp at hlen
    | cons y ys =>
      have hl : xs.length = ys.length := by simpa using hlen
      simp only [scan_positive, gt_iff_lt, List.cons.injEq]
      rcases Nat.lt_trichotomy x y with h | h | h
      · have h1 : ¬ (y < x) := by omega
        have h2 : ¬ (x = y) := by omega
        simp [h, h1, h2]
      · subst h
        simp [ih ys hl]
      · have h1 : ¬ (x < y) := by omega
        have h2 : ¬ (x = y) := by omega
        simp [h, h1, h2]

/-- On two vectors with sign slots 0 or 1, `b > a` is true exactly when
`a > b` is false and the vectors differ. -/
theorem gt_closed_swap (sa : Nat) (da : List Nat) (sb : Nat) (db : List Nat)
    (hsa : sa = 0 ∨ sa = 1) (hsb : sb = 0 ∨ sb = 1) :
    gt_closed sb db sa da = (!(gt_closed sa da sb db) && !(decide (sa :: da = sb :: db))) := by
  have hne : da.length ≠ db.length → da ≠ db := fun h e => h (by rw [e])
  rcases hsa with rfl | rfl <;> rcases hsb with rfl | rfl
  · simp only [gt_closed, one_ne_zero, zero_ne_one, and_false, false_and, and_self, if_true,
      if_false, gt_iff_lt, List.cons.injEq, true_and, scan_negative_swap]
    rcases Nat.lt_trichotomy da.length db.length with h | h | h
    · have h1 : ¬ (db.length < da.length) := by omega
      simp [h, h1, hne (by omega)]
    · have h1 : ¬ (db.length < da.length) := by omega
      have h2 : ¬ (da.length < db.length) := by omega
      simp only [h1, h2, if_false]
      rw [scan_positive_swap db da h.symm]
      by_cases e : da = db
      · subst e
        simp [scan_positive_self]
      · have e2 : ¬ (db = da) := fun h => e h.symm
        simp [e, e2]
    · have h1 : ¬ (da.length < db.length) := by omega
      simp [h, h1, hne (by omega)]
  · simp [gt_closed]
  · simp [gt_closed]
  · simp only [gt_closed, one_ne_zero, zero_ne_one, and_false, false_and, if_false, gt_iff_lt,
      List.cons.injEq, true_and]
    rcases Nat.lt_trichotomy da.length db.length with h | h | h
    · have h1 : ¬ (db.length < da.length) := by omega
      simp [h, h1, hne (by omega)]
    · have h1 : ¬ (db.length < da.length) := by omega
      have h2 : ¬ (da.length < db.length) := by omega
      simp only [h1, h2, if_false]
      exact scan_positive_swap da db h
    · have h1 : ¬ (da.length < db.length) := by omega
      simp [h, h1, hne (by omega)]

/-- C32: for stored vectors a and b, normalised or not, whose sign slots are
0 or 1, `a < b` has the outcome of `b > a` and `a <= b` the outcome of
`b >= a`. -/
theorem c32_derived_comparisons_consistent (a b : bigint) (sa sb : Nat)
    (ha : idx a 0 = .ok sa) (hb : idx b 0 = .ok sb) (hsa : sa = 0 ∨ sa = 1)
    (hsb : sb = 0 ∨ sb = 1) :
    (∃ t, operator_lt a b = .ok t ∧ operator_gt b a = .ok t) ∧
    (∃ t, operator_le a b = .ok t ∧ operator_ge b a = .ok t) := by
  cases a with
  | nil => simp [idx] at ha
  | cons x da =>
    cases b with
    | nil => simp [idx] at hb
    | cons y db =>
      have hx : x = sa := by simpa [idx] using ha
      have hy : y = sb := by simpa [idx] using hb
      subst hx hy
      have hswap := gt_closed_swap x da y db hsa hsb
      have heq : operator_eq (x :: da) (y :: db) = decide (x :: da = y :: db) := by
        by_cases e : x :: da = y :: db
        · rw [(operator_eq_iff _ _).mpr e]
          simp [e]
        · cases hq : operator_eq (x :: da) (y :: db)
          · simp [e]
          · exact absurd ((operator_eq_iff _ _).mp hq) e
      have heq2 : operator_eq (y :: db) (x :: da) = decide (x :: da = y :: db) := by
        by_cases e : x :: da = y :: db
        · rw [(operator_eq_iff _ _).mpr e.symm]
          simp [e]
        · cases hq : operator_eq (y :: db) (x :: da)
          · simp [e]
          · exact absurd ((operator_eq_iff _ _).mp hq).symm e
      constructor
      · refine ⟨gt_closed y db x da, ?_, operator_gt_cons _ _ _ _⟩
        simp only [operator_lt, operator_ge, operator_gt_cons, bind, Except.bind, pure,
          Except.pure, heq, hswap]
        cases gt_closed x da y db <;> simp
      · refine ⟨!(gt_closed x da y db), ?_, ?_⟩
        · simp only [operator_le, operator_gt_cons, bind, Except.bind, pure, Except.pure]
        · simp only [operator_ge, operator_gt_cons, bind, Except.bind, pure, Except.pure, heq2,
            hswap]
          by_cases e : x :: da = y :: db
          · injection e with e1 e2
            subst e1 e2
            simp [gt_closed_self]
          · cases gt_closed x da y db <;> simp [e]

/-- A concrete instance: the values built from "007" and from "7". -/
theorem c32_derived_comparisons_consistent_witness :
    (∃ t, operator_lt [1, 0, 0, 7] [1, 7] = .ok t ∧ operator_gt [1, 7] [1, 0, 0, 7] = .ok t) ∧
    (∃ t, operator_le [1, 0, 0, 7] [1, 7] = .ok t ∧ operator_ge [1, 7] [1, 0, 0, 7] = .ok t) :=
  c32_derived_comparisons_consistent [1, 0, 0, 7] [1, 7] 1 1 (by decide) (by decide)
    (Or.inr rfl) (Or.inr rfl)

/-! ## Subtraction of a value from itself and the right operand of addition -/

theorem sub_le_self (n : Nat) (xs : List Nat) (hl : xs.length ≤ n) :
    sub_le (n + 1) xs xs 0 = List.replicate xs.length 0 := by
  induction n generalizing xs with
  | zero =>
    have h1 : xs = [] := List.length_eq_zero.mp (by omega)
    subst h1
    rw [sub_le_nil]
    rfl
  | succ n ih =>
    cases xs with
    | nil =>
      rw [sub_le_nil]
      rfl
    | cons x t =>
      have h0 : i16 ((x : Int) - (x : Int) - 0) = 0 := by
        rw [Int.sub_self, Int.sub_zero]
        decide
      have hu : u8 0 = 0 := by decide
      have ht : t.length ≤ n := by simpa using hl
      rw [sub_le]
      simp only [List.headD_cons, List.tail_cons, h0, lt_self_iff_false, if_false, hu,
        List.length_cons, List.replicate_succ, ih t ht, reduceCtorEq, false_and]

/-- The last branch of `operator-=` on a positive vector and itself: every
digit of the difference is 0; with one digit the read of `result[1]` is out of
range, otherwise two of the zeros are erased and the others stay. -/
theorem sub_magnitudes_self (ds : List Nat) (k : Nat) (hk : ds.length = k + 1) :
    sub_magnitudes (1 :: ds) (1 :: ds) =
      (if k = 0 then .error .out_of_range
        else .ok (1 :: List.replicate (k - 1) 0, 1 :: ds)) := by
  have hgt : operator_gt (1 :: ds) (1 :: ds) = .ok false := by
    rw [operator_gt_cons, gt_closed_self]
  have hmax : max (1 :: ds).length (1 :: ds).length = ds.length + 1 := by
    simp only [List.length_cons]
    omega
  have hloop := sub_loop_eq 1 ds 1 ds (ds.length + 1) 1 0 [] (le_refl _)
  simp only [Nat.sub_self, List.drop_zero, List.nil_append] at hloop
  rw [sub_le_self ds.length ds.reverse (by simp), List.length_reverse, hk] at hloop
  rw [hk] at hmax
  have hrev : (List.replicate (k + 1) 0).reverse = 0 :: List.replicate k 0 := by
    rw [List.reverse_replicate, List.replicate_succ]
  obtain ⟨R, hloop, hrev⟩ : ∃ R, sub_loop (1 :: ds) (1 :: ds) (k + 1 + 1) 1 0 [] = .ok R ∧
      R.reverse = 0 :: List.replicate k 0 := ⟨_, hloop, hrev⟩
  cases k with
  | zero =>
    simp only [sub_magnitudes, hgt, bind, Except.bind, pure, Except.pure, hmax, hloop, hrev,
      Bool.false_eq_true, if_false, if_true, idx, List.replicate_zero, List.getElem?_cons_zero,
      List.drop_one, List.tail_cons, zero_ne_one, List.getElem?_cons_succ, List.getElem?_nil]
  | succ j =>
    rw [List.replicate_succ] at hrev
    simp only [sub_magnitudes, hgt, bind, Except.bind, pure, Except.pure, hmax, hloop, hrev,
      Bool.false_eq_true, if_false, if_true, idx, List.getElem?_cons_zero,
      List.drop_one, List.tail_cons, zero_ne_one, List.getElem?_cons_succ, List.eraseIdx_cons_succ,
      List.eraseIdx_cons_zero, Nat.add_one_ne_zero, Nat.add_sub_cancel]

/-- Binary `operator-` on a non-zero value satisfying the representation
invariants and itself. -/
theorem operator_sub_self (s : Nat) (ds : List Nat) (h : well_formed (s :: ds))
    (hm : magnitude ds ≠ 0) :
    operator_sub (s :: ds) (s :: ds) =
      (if ds.length = 1 then .error .out_of_range
        else .ok (1 :: List.replicate (ds.length - 2) 0)) := by
  obtain ⟨hs, hl, _, _, _, _⟩ := well_formed_facts s ds h
  obtain ⟨k, hk⟩ : ∃ k, ds.length = k + 1 := ⟨ds.length - 1, by omega⟩
  have hself := sub_magnitudes_self ds k hk
  have nz := nonzero_of_magnitude 1 ds hm
  have e1 : (ds.length = 1) ↔ (k = 0) := by omega
  have e2 : ds.length - 2 = k - 1 := by omega
  rw [e2]
  rcases hs with rfl | rfl
  · rw [operator_sub, operator_sub_assign, max_depth,
      sub_assign_depth_negative_negative 0 ds ds nz nz, hself]
    by_cases h0 : k = 0
    · rw [if_pos h0, if_pos (e1.mpr h0)]
      rfl
    · rw [if_neg h0, if_neg (fun h => h0 (e1.mp h))]
      rfl
  · rw [operator_sub, operator_sub_assign, max_depth, sub_assign_depth_magnitudes 2 ds ds nz nz,
      hself]
    by_cases h0 : k = 0
    · rw [if_pos h0, if_pos (e1.mpr h0)]
      rfl
    · rw [if_neg h0, if_neg (fun h => h0 (e1.mp h))]
      rfl

/-- The number of digits of a non-zero value satisfying the representation
invariants, read off its magnitude. -/
theorem digit_count (s : Nat) (ds : List Nat) (h : well_formed (s :: ds))
    (hm : magnitude ds ≠ 0) :
    (ds.length = 1 ↔ magnitude ds < 10) ∧
    (ds.length = 2 ↔ 10 ≤ magnitude ds ∧ magnitude ds < 100) ∧
    (ds.length = 3 ↔ 100 ≤ magnitude ds ∧ magnitude ds < 1000) ∧
    (4 ≤ ds.length ↔ 1000 ≤ magnitude ds) := by
  obtain ⟨_, hl, _, hu, _, hn⟩ := well_formed_facts s ds h
  have hlow := (hn hm).1
  have hc : ds.length = 1 ∨ ds.length = 2 ∨ ds.length = 3 ∨ 4 ≤ ds.length := by omega
  rcases hc with c | c | c | c
  · rw [c] at hu hlow
    norm_num at hu hlow
    omega
  · rw [c] at hu hlow
    norm_num at hu hlow
    omega
  · rw [c] at hu hlow
    norm_num at hu hlow
    omega
  · have h3 : 10 ^ 3 ≤ 10 ^ (ds.length - 1) := Nat.pow_le_pow_right (by norm_num) (by omega)
    norm_num at h3
    omega

/-- C31: for a value a satisfying the representation invariants, `a - a == 0`
is true exactly when the magnitude of a has three digits.  For a = 0 the
result is the negative zero [0, 0]; for a one-digit magnitude `result[1]` is
read out of range; for a two-digit magnitude the result is the sign slot alone;
and for a magnitude of four or more digits the result keeps two zeros fewer
than a has digits. -/
theorem c31_self_subtraction (a : bigint) (ha : well_formed a) :
    ((operator_sub a a).map (fun r => operator_eq r zero) = .ok true ↔
      100 ≤ (denote a).natAbs ∧ (denote a).natAbs ≤ 999) ∧
    (denote a = 0 → operator_sub a a = .ok [0, 0]) ∧
    (1 ≤ (denote a).natAbs ∧ (denote a).natAbs ≤ 9 →
      operator_sub a a = .error .out_of_range) ∧
    (10 ≤ (denote a).natAbs ∧ (denote a).natAbs ≤ 99 → operator_sub a a = .ok [1]) ∧
    (1000 ≤ (denote a).natAbs →
      operator_sub a a = .ok (1 :: List.replicate (a.length - 3) 0)) := by
  match a, ha with
  | s :: ds, ha =>
    obtain ⟨hs, hl, _, _, hz, _⟩ := well_formed_facts s ds ha
    have hna : (denote (s :: ds)).natAbs = magnitude ds := by
      simp only [denote]
      rcases hs with rfl | rfl
      · simp
      · simp
    have hd0 : denote (s :: ds) = 0 ↔ magnitude ds = 0 := by
      rw [← Int.natAbs_eq_zero, hna]
    by_cases hm : magnitude ds = 0
    · obtain ⟨h1, h2⟩ := hz hm
      subst h1 h2
      decide
    · have hself := operator_sub_self s ds ha hm
      obtain ⟨d1, d2, d3, d4⟩ := digit_count s ds ha hm
      have hlen : (s :: ds).length - 3 = ds.length - 2 := by
        simp only [List.length_cons]
        omega
      rw [hna, hd0, hself, hlen]
      refine ⟨?_, fun h => absurd h hm, ?_, ?_, ?_⟩
      · by_cases c1 : ds.length = 1
        · rw [if_pos c1]
          constructor
          · intro h
            simp [Except.map] at h
          · intro h
            have := d1.mp c1
            omega
        · rw [if_neg c1]
          have hrep : List.replicate (ds.length - 2) 0 = [0] ↔ ds.length = 3 := by
            constructor
            · intro h
              have := congrArg List.length h
              simp only [List.length_replicate, List.length_singleton] at this
              omega
            · intro h
              rw [h]
              rfl
          simp only [Except.map, operator_eq_zero_cons, Except.ok.injEq, decide_eq_true_eq, hrep]
          omega
      · intro h
        rw [if_pos (d1.mpr (by omega))]
      · intro h
        have h2 : ds.length = 2 := d2.mpr (by omega)
        rw [if_neg (by omega), h2]
        rfl
      · intro h
        have h4 := d4.mpr h
        rw [if_neg (by omega)]

/-- A concrete instance: 1000 - 1000 keeps two zero digits. -/
theorem c31_self_subtraction_witness :
    well_formed [1, 1, 0, 0, 0] ∧ 1000 ≤ (denote [1, 1, 0, 0, 0]).natAbs ∧
    operator_sub [1, 1, 0, 0, 0] [1, 1, 0, 0, 0] =
      .ok (1 :: List.replicate ([1, 1, 0, 0, 0].length - 3) 0) :=
  ⟨by decide, by decide,
    (c31_self_subtraction [1, 1, 0, 0, 0] (by decide)).2.2.2.2 (by decide)⟩

/-- C33: for non-zero operands satisfying the representation invariants,
`lhs += rhs` reads out of range when the two are opposite one-digit values,
and otherwise completes; the right operand then differs from the one passed
in exactly when lhs is negative, rhs is positive and |lhs| < rhs, and in that
case it holds the canonical representation of |lhs|. -/
theorem c33_right_operand_of_addition (lhs rhs : bigint) (hl : well_formed lhs)
    (hr : well_formed rhs) (hln : denote lhs ≠ 0) (hrn : denote rhs ≠ 0) :
    (denote lhs + denote rhs = 0 ∧ (denote lhs).natAbs < 10 →
      operator_add_assign lhs rhs = .error .out_of_range) ∧
    (¬ (denote lhs + denote rhs = 0 ∧ (denote lhs).natAbs < 10) →
      ∃ r, operator_add_assign lhs rhs = .ok r ∧
        (r.2 ≠ rhs ↔ denote lhs < 0 ∧ 0 < denote rhs ∧ -denote lhs < denote rhs) ∧
        (denote lhs < 0 ∧ 0 < denote rhs ∧ -denote lhs < denote rhs →
          r.2 = canonical (-denote lhs))) := by
  match lhs, rhs, hl, hr, hln, hrn with
  | sa :: da, sb :: db, hl, hr, hln, hrn =>
    obtain ⟨hsa, _, hda, _, _, _⟩ := well_formed_facts sa da hl
    obtain ⟨hsb, _, hdb, _, _, _⟩ := well_formed_facts sb db hr
    have dn : ∀ ds : List Nat, denote (0 :: ds) = -(magnitude ds : Int) := fun ds => by
      simp [denote]
    have dp : ∀ ds : List Nat, denote (1 :: ds) = (magnitude ds : Int) := fun ds => by
      simp [denote]
    have hma : magnitude da ≠ 0 := by
      intro h0
      apply hln
      rcases hsa with rfl | rfl
      · rw [dn, h0]
        rfl
      · rw [dp, h0]
        rfl
    have hmb : magnitude db ≠ 0 := by
      intro h0
      apply hrn
      rcases hsb with rfl | rfl
      · rw [dn, h0]
        rfl
      · rw [dp, h0]
        rfl
    have wa := well_formed_positive sa da hl
    have wb := well_formed_positive sb db hr
    have na := nonzero_of_magnitude 1 da hma
    have nb := nonzero_of_magnitude 1 db hmb
    rcases hsa with rfl | rfl <;> rcases hsb with rfl | rfl
    · -- both negative
      obtain ⟨zs, g1, _, _, _⟩ := add_same_sign_spec 0 (Or.inl rfl) da db hda hdb
      rw [dn da, dn db]
      constructor
      · rintro ⟨h1, _⟩
        omega
      · intro _
        refine ⟨(0 :: zs, 0 :: db), ?_, ?_, ?_⟩
        · rw [operator_add_assign, max_depth, add_assign_depth_same_sign 2 0 (Or.inl rfl) da db
            (operator_eq_negative_zero _) (operator_eq_negative_zero _), g1]
          rfl
        · constructor
          · intro h
            exact absurd rfl h
          · rintro ⟨_, h2, _⟩
            omega
        · rintro ⟨_, h2, _⟩
          omega
    · -- negative, positive
      obtain ⟨v1, v2⟩ := sub_magnitudes_value db da wb wa
      rw [dn da, dp db]
      rw [operator_add_assign, max_depth, add_assign_depth_negative_positive 1 da db na nb]
      constructor
      · rintro ⟨h1, h2⟩
        rw [Int.natAbs_neg, Int.natAbs_ofNat] at h2
        exact v1 ⟨by omega, by omega⟩
      · intro hc
        rw [Int.natAbs_neg, Int.natAbs_ofNat] at hc
        obtain ⟨r, f1, _, f3, _⟩ := v2 (fun h => hc ⟨by omega, by omega⟩)
        have hcan : 1 :: da = canonical (magnitude da : Int) := by
          have := well_formed_eq_canonical _ wa
          rw [dp] at this
          exact this
        refine ⟨r, f1, ?_, ?_⟩
        · rw [f3]
          by_cases hlt : magnitude db < magnitude da
          · rw [if_pos hlt]
            constructor
            · intro h
              exact absurd rfl h
            · rintro ⟨_, _, h3⟩
              omega
          · rw [if_neg hlt]
            constructor
            · intro h
              have hne : magnitude da ≠ magnitude db := by
                intro e
                apply h
                exact well_formed_unique _ _ wa wb (by rw [dp, dp, e])
              exact ⟨by omega, by omega, by omega⟩
            · rintro ⟨_, _, h3⟩ e
              injection e with _ e2
              rw [e2] at h3
              omega
        · rintro ⟨_, _, h3⟩
          rw [f3, if_neg (by omega), Int.neg_neg]
          exact hcan
    · -- positive, negative
      obtain ⟨v1, v2⟩ := sub_magnitudes_value da db wa wb
      rw [dp da, dn db]
      rw [operator_add_assign, max_depth, add_assign_depth_positive_negative 1 da db na nb]
      constructor
      · rintro ⟨h1, h2⟩
        rw [Int.natAbs_ofNat] at h2
        rw [v1 ⟨by omega, by omega⟩]
        rfl
      · intro hc
        rw [Int.natAbs_ofNat] at hc
        obtain ⟨r, f1, _, _, _⟩ := v2 (fun h => hc ⟨by omega, by omega⟩)
        refine ⟨(r.1, 0 :: db), by rw [f1]; rfl, ?_, ?_⟩
        · constructor
          · intro h
            exact absurd rfl h
          · rintro ⟨h1, _, _⟩
            omega
        · rintro ⟨h1, _, _⟩
          omega
    · -- both positive
      obtain ⟨zs, g1, _, _, _⟩ := add_same_sign_spec 1 (Or.inr rfl) da db hda hdb
      rw [dp da, dp db]
      constructor
      · rintro ⟨h1, _⟩
        omega
      · intro _
        refine ⟨(1 :: zs, 1 :: db), ?_, ?_, ?_⟩
        · rw [operator_add_assign, max_depth, add_assign_depth_same_sign 2 1 (Or.inr rfl) da db
            na nb, g1]
          rfl
        · constructor
          · intro h
            exact absurd rfl h
          · rintro ⟨h1, _, _⟩
            omega
        · rintro ⟨h1, _, _⟩
          omega

/-- A concrete instance: -5 += 7 leaves 2 in the left operand and 5 in the
right one. -/
theorem c33_right_operand_of_addition_witness :
    well_formed [0, 5] ∧ well_formed [1, 7] ∧ denote [0, 5] ≠ 0 ∧ denote [1, 7] ≠ 0 ∧
    ∃ r, operator_add_assign [0, 5] [1, 7] = .ok r ∧
      (r.2 ≠ [1, 7] ↔ denote [0, 5] < 0 ∧ 0 < denote [1, 7] ∧ -denote [0, 5] < denote [1, 7]) ∧
      (denote [0, 5] < 0 ∧ 0 < denote [1, 7] ∧ -denote [0, 5] < denote [1, 7] →
        r.2 = canonical (-denote [0, 5])) :=
  ⟨by decide, by decide, by decide, by decide,
    (c33_right_operand_of_addition [0, 5] [1, 7] (by decide) (by decide) (by decide)
      (by decide)).2 (by decide)⟩

/-! ## Revised claims on increment, decrement and the storage layout -/

/-- Increment of a value other than -1 satisfying the representation
invariants: the operand ends denoting one more; the pre-form returns the new
operand and the post-form the old one. -/
theorem increment_value (a : bigint) (ha : well_formed a) (h : denote a ≠ -1) :
    ∃ r, operator_pre_increment a = .ok (r, r) ∧ operator_post_increment a = .ok (a, r) ∧
      denote r = denote a + 1 := by
  have h1 : of_int64 1 = [1, 1] := by decide
  have hw : well_formed [1, 1] := by decide
  have hd : denote [1, 1] = 1 := by decide
  obtain ⟨_, v2⟩ := operator_add_assign_value a [1, 1] ha hw
  rw [hd] at v2
  obtain ⟨r, e1, e2⟩ := v2 (fun hc => h (by omega))
  refine ⟨r.1, ?_, ?_, e2⟩
  · simp only [operator_pre_increment, h1, e1]
    rfl
  · simp only [operator_post_increment, h1, e1]
    rfl

/-- Decrement of a value other than 1 satisfying the representation
invariants: the operand ends denoting one less; the pre-form returns the new
operand and the post-form the old one. -/
theorem decrement_value (a : bigint) (ha : well_formed a) (h : denote a ≠ 1) :
    ∃ r, operator_pre_decrement a = .ok (r, r) ∧ operator_post_decrement a = .ok (a, r) ∧
      denote r = denote a - 1 := by
  have h1 : of_int64 1 = [1, 1] := by decide
  have hw : well_formed [1, 1] := by decide
  have hd : denote [1, 1] = 1 := by decide
  obtain ⟨_, v2⟩ := operator_sub_assign_value a [1, 1] ha hw
  rw [hd] at v2
  obtain ⟨r, e1, e2⟩ := v2 (fun hc => h (by omega))
  refine ⟨r.1, ?_, ?_, e2⟩
  · simp only [operator_pre_decrement, h1, e1]
    rfl
  · simp only [operator_post_decrement, h1, e1]
    rfl

/-- C23: on the value -1 both increments, and on the value 1 both decrements,
read `result[1]` of a one-entry vector in `operator-=`: the operand is not
set to a + 1, respectively a - 1, and nothing is returned. -/
theorem c23_increment_decrement_out_of_range :
    well_formed [0, 1] ∧ well_formed [1, 1] ∧
    operator_pre_increment [0, 1] = .error .out_of_range ∧
    operator_post_increment [0, 1] = .error .out_of_range ∧
    operator_pre_decrement [1, 1] = .error .out_of_range ∧
    operator_post_decrement [1, 1] = .error .out_of_range := by
  decide

theorem digits_getD (m i : Nat) : (Nat.digits 10 m).getD i 0 = m / 10 ^ i % 10 := by
  induction i generalizing m with
  | zero =>
    rcases Nat.eq_zero_or_pos m with h | h
    · subst h
      simp
    · rw [Nat.digits_def' (by norm_num) h]
      simp
  | succ i ih =>
    rcases Nat.eq_zero_or_pos m with h | h
    · subst h
      simp
    · rw [Nat.digits_def' (by norm_num) h, List.getD_cons_succ, ih, pow_succ,
        Nat.div_div_eq_div_mul, Nat.mul_comm]

/-- The integer constructor stores, after the sign slot, the decimal digits of
the magnitude that `abs` returned, most significant first. -/
theorem of_int64_digits (n : Int) (hn : n ≠ 0) :
    of_int64 n =
      (if n < 0 then 0 else 1) :: (Nat.digits 10 (abs_int n).toNat).reverse := by
  have hp : peel_digits (abs_int n).toNat (abs_int n) [] =
      (Nat.digits 10 (abs_int n).toNat).reverse := by
    by_cases hpos : 0 < abs_int n
    · have hc : abs_int n = ((abs_int n).toNat : Int) := (Int.toNat_of_nonneg (by omega)).symm
      have := peel_digits_eq (abs_int n).toNat (abs_int n).toNat [] (le_refl _)
      rw [← hc, List.append_nil] at this
      exact this
    · have h0 : (abs_int n).toNat = 0 := by omega
      rw [h0]
      simp [peel_digits]
  simp only [of_int64, hn, if_false, hp]
  by_cases hneg : n < 0 <;> simp [hneg]

/-- C24 (amended): entry 0 is the sign slot and the digits follow most
significant first.  The integer constructor stores the decimal digits of the
magnitude it computed, which is |n| for -2^31 < n < 2^31, so that the entry i
places before the last one is the digit of 10^i; the string constructor stores
the digit values of the characters after the sign in the order written. -/
theorem c24_most_significant_first_layout (n : Int) (hn : n ≠ 0) (s : List Char)
    (hs : ∀ c ∈ after_sign s, c.isDigit = true) :
    (∃ ds, of_int64 n = (if n < 0 then 0 else 1) :: ds ∧
      ds.reverse = Nat.digits 10 (abs_int n).toNat ∧
      ∀ i, ds.reverse.getD i 0 = (abs_int n).toNat / 10 ^ i % 10) ∧
    (-2147483648 < n → n < 2147483648 → (abs_int n).toNat = n.natAbs) ∧
    of_string s = .ok (sign_slot s :: (after_sign s).map digit_value) := by
  refine ⟨⟨_, of_int64_digits n hn, List.reverse_reverse _, fun i => ?_⟩, fun h1 h2 => ?_, ?_⟩
  · rw [List.reverse_reverse, digits_getD]
  · have h32 : i32 n = n := by
      unfold i32
      omega
    have habs : |n| = (n.natAbs : Int) := (Int.natCast_natAbs n).symm
    unfold abs_int
    rw [h32, habs]
    unfold i32
    omega
  · rw [of_string_eq, if_pos (List.all_eq_true.mpr hs)]

/-- A concrete instance: the value 12, from the integer and from the string. -/
theorem c24_most_significant_first_layout_witness :
    (12 : Int) ≠ 0 ∧ (∀ c ∈ after_sign "12".toList, c.isDigit = true) ∧
    (∃ ds, of_int64 12 = (if (12 : Int) < 0 then 0 else 1) :: ds ∧
      ds.reverse = Nat.digits 10 (abs_int 12).toNat ∧
      ∀ i, ds.reverse.getD i 0 = (abs_int 12).toNat / 10 ^ i % 10) ∧
    of_string "12".toList = .ok (sign_slot "12".toList :: (after_sign "12".toList).map digit_value) :=
  ⟨by decide, by decide,
    (c24_most_significant_first_layout 12 (by decide) "12".toList (by decide)).1,
    (c24_most_significant_first_layout 12 (by decide) "12".toList (by decide)).2.2⟩

/-! ## The representation invariants after a subtraction of magnitudes -/

theorem strip_one_cons_ne (a : Nat) (t : List Nat) (ha : a ≠ 0) :
    strip_one (a :: t) = a :: t := by
  unfold strip_one
  split
  · rename_i heq
    injection heq with e1 e2
    exact absurd e1 ha
  · rfl

/-- The end of `operator-=` on the digits D of the difference, other than the
single digit 0: the digits left are D without its first two leading zeros. -/
theorem sub_finish_strip (D : List Nat) (sign : Nat) (hne : D ≠ []) (hnz : D ≠ [0]) :
    ∃ h h2, idx D 0 = .ok h ∧
      idx (sign :: (if h = 0 then D.drop 1 else D)) 1 = .ok h2 ∧
      (if h2 = 0 then (sign :: (if h = 0 then D.drop 1 else D)).eraseIdx 1
        else sign :: (if h = 0 then D.drop 1 else D)) = sign :: strip_one (strip_one D) := by
  obtain ⟨a, t, rfl⟩ := List.exists_cons_of_ne_nil hne
  by_cases ha : a = 0
  · subst ha
    cases t with
    | nil => exact absurd rfl hnz
    | cons b u =>
      refine ⟨0, b, by simp [idx], by simp [idx], ?_⟩
      by_cases hb : b = 0
      · subst hb
        simp [strip_one]
      · have h1 : strip_one (0 :: b :: u) = b :: u := rfl
        simp [hb, h1, strip_one_cons_ne b u hb]
  · refine ⟨a, a, by simp [idx], by simp [idx, ha], ?_⟩
    simp [ha, strip_one_cons_ne a t ha]

/-- The result of the last branch of `operator-=` on two positive values
satisfying the representation invariants, when it is defined: the sign slot,
then the digits D of the difference, as many as the longer operand has,
without the first two leading zeros. -/
theorem sub_magnitudes_strip (xs ys : List Nat) (hx : well_formed (1 :: xs))
    (hy : well_formed (1 :: ys))
    (hne : ¬ (xs.length = 1 ∧ ys.length = 1 ∧ magnitude xs = magnitude ys)) :
    ∃ D, D.length = max xs.length ys.length ∧ (∀ d ∈ D, d < 10) ∧
      magnitude D = (if magnitude xs < magnitude ys then magnitude ys - magnitude xs
        else magnitude xs - magnitude ys) ∧
      sub_magnitudes (1 :: xs) (1 :: ys) =
        .ok ((if magnitude xs < magnitude ys then 0 else 1) :: strip_one (strip_one D),
          if magnitude xs < magnitude ys then 1 :: xs else 1 :: ys) := by
  obtain ⟨_, hlx, hdx, _, _, _⟩ := well_formed_facts 1 xs hx
  obtain ⟨_, hly, hdy, _, _, _⟩ := well_formed_facts 1 ys hy
  have hgt := operator_gt_positive ys xs hy hx
  by_cases hlt : magnitude xs < magnitude ys
  · obtain ⟨R, l1, l2, l3, l4⟩ := sub_digits ys xs hdy hdx (by omega)
    have hn : R.reverse ≠ [] := by
      intro h
      rw [h] at l2
      simp only [List.length_nil] at l2
      omega
    have hnz : R.reverse ≠ [0] := by
      intro h0
      rw [h0] at l4
      have h0 : magnitude [0] = 0 := rfl
      omega
    obtain ⟨h, h2, f1, f2, f3⟩ := sub_finish_strip R.reverse 0 hn hnz
    refine ⟨R.reverse, by rw [l2, Nat.max_comm], l3, by rw [l4, if_pos hlt], ?_⟩
    simp only [sub_magnitudes, hgt, hlt, decide_True, bind, Except.bind, pure, Except.pure,
      if_true, l1, f1, f2, f3]
  · obtain ⟨R, l1, l2, l3, l4⟩ := sub_digits xs ys hdx hdy (by omega)
    have hn : R.reverse ≠ [] := by
      intro h
      rw [h] at l2
      simp only [List.length_nil] at l2
      omega
    have hnz : R.reverse ≠ [0] := by
      intro h0
      apply hne
      have hl1 : max xs.length ys.length = 1 := by
        rw [← l2, h0]
        rfl
      have hm0 : magnitude xs - magnitude ys = 0 := by
        rw [← l4, h0]
        rfl
      exact ⟨by omega, by omega, by omega⟩
    obtain ⟨h, h2, f1, f2, f3⟩ := sub_finish_strip R.reverse 1 hn hnz
    refine ⟨R.reverse, l2, l3, by rw [l4, if_neg hlt], ?_⟩
    simp only [sub_magnitudes, hgt, hlt, decide_False, bind, Except.bind, pure, Except.pure,
      if_false, l1, f1, f2, f3, Bool.false_eq_true, zero_ne_one]

/-- Digits without their first two leading zeros satisfy the representation
invariants under a sign slot when their value has at most two digits fewer
than they are, or is 0 while they are three and the sign slot is 1. -/
theorem strip_twice_well_formed (D : List Nat) (L sgn : Nat) (hs : sgn = 0 ∨ sgn = 1)
    (hl : D.length = L) (hd : ∀ d ∈ D, d < 10)
    (hc : 10 ^ L ≤ 1000 * magnitude D ∨ (magnitude D = 0 ∧ L = 3 ∧ sgn = 1)) :
    well_formed (sgn :: strip_one (strip_one D)) := by
  have hwf : ∀ r : List Nat, (∀ d ∈ r, d < 10) → ∀ m, r.length = m + 1 →
      10 ^ m ≤ magnitude r → well_formed (sgn :: r) := by
    intro r hr m hm hle
    have hne : r ≠ [] := List.ne_nil_of_length_eq_add_one hm
    exact well_formed_of_head sgn hs r hr hne
      (head_ne_zero_of_le r hr hne (by rw [hm, Nat.add_sub_cancel]; exact hle))
  have hL : 1 ≤ L := by
    rcases Nat.eq_zero_or_pos L with h0 | h0
    · exfalso
      subst h0
      have : D = [] := List.length_eq_zero.mp hl
      subst this
      have h0 : magnitude ([] : List Nat) = 0 := rfl
      rcases hc with h | h
      · rw [h0] at h
        norm_num at h
      · omega
    · exact h0
  obtain ⟨k, rfl⟩ : ∃ k, L = k + 1 := ⟨L - 1, by omega⟩
  obtain ⟨s1, s2, s3⟩ := strip_one_spec D k hl hd
  by_cases c1 : magnitude D < 10 ^ k
  · rw [if_pos c1] at s3
    have hk : 1 ≤ k := by
      rcases Nat.eq_zero_or_pos k with h0 | h0
      · exfalso
        subst h0
        norm_num at c1
        rcases hc with h | h
        · rw [c1] at h
          norm_num at h
        · omega
      · exact h0
    obtain ⟨j, rfl⟩ : ∃ j, k = j + 1 := ⟨k - 1, by omega⟩
    obtain ⟨t1, t2, t3⟩ := strip_one_spec (strip_one D) j s3 s1
    rw [s2] at t2 t3
    by_cases c2 : magnitude D < 10 ^ j
    · rw [if_pos c2] at t3
      rcases hc with h | ⟨h1, h2, h3⟩
      · have hj : 1 ≤ j := by
          rcases Nat.eq_zero_or_pos j with h0 | h0
          · exfalso
            subst h0
            norm_num at c2
            rw [c2] at h
            norm_num at h
          · exact h0
        obtain ⟨i, rfl⟩ : ∃ i, j = i + 1 := ⟨j - 1, by omega⟩
        refine hwf _ t1 i t3 ?_
        rw [t2]
        have e : 10 ^ (i + 1 + 1 + 1) = 1000 * 10 ^ i := by ring
        rw [e] at h
        omega
      · have hj : j = 1 := by omega
        subst hj h3
        have hz : strip_one (strip_one D) = [0] := single_zero _ t3 (by rw [t2, h1])
        rw [hz]
        decide
    · rw [if_neg c2] at t3
      refine hwf _ t1 j t3 ?_
      rw [t2]
      omega
  · rw [if_neg c1] at s3
    obtain ⟨t1, t2, t3⟩ := strip_one_spec (strip_one D) k s3 s1
    rw [s2] at t2 t3
    rw [if_neg c1] at t3
    refine hwf _ t1 k t3 ?_
    rw [t2]
    omega

/-- The last branch of `operator-=` on two positive values satisfying the
representation invariants yields a value satisfying them when the difference
of the magnitudes has at most two digits fewer than the longer operand, or is
0 while the operands have three digits. -/
theorem sub_magnitudes_well_formed (xs ys : List Nat) (hx : well_formed (1 :: xs))
    (hy : well_formed (1 :: ys))
    (hc : 10 ^ (max xs.length ys.length) ≤
        1000 * (if magnitude xs < magnitude ys then magnitude ys - magnitude xs
          else magnitude xs - magnitude ys) ∨
      (magnitude xs = magnitude ys ∧ max xs.length ys.length = 3)) :
    ∃ r, sub_magnitudes (1 :: xs) (1 :: ys) = .ok r ∧ well_formed r.1 := by
  have hne : ¬ (xs.length = 1 ∧ ys.length = 1 ∧ magnitude xs = magnitude ys) := by
    rintro ⟨h1, h2, h3⟩
    rcases hc with h | h
    · rw [h1, h2, h3] at h
      norm_num at h
    · omega
  obtain ⟨D, d1, d2, d3, d4⟩ := sub_magnitudes_strip xs ys hx hy hne
  refine ⟨_, d4, ?_⟩
  refine strip_twice_well_formed D _ _ ?_ d1 d2 ?_
  · by_cases hlt : magnitude xs < magnitude ys <;> simp [hlt]
  · rw [d3]
    rcases hc with h | ⟨h1, h2⟩
    · exact Or.inl h
    · right
      have hlt : ¬ (magnitude xs < magnitude ys) := by omega
      refine ⟨by rw [if_neg hlt]; omega, h2, by rw [if_neg hlt]⟩

/-- Binary `operator+` on two non-zero values of opposite signs satisfying the
representation invariants yields a value satisfying them when at most two
leading digits cancel. -/
theorem operator_add_cancel_well_formed (a b : bigint) (ha : well_formed a)
    (hb : well_formed b)
    (hopp : (0 < denote a ∧ denote b < 0) ∨ (denote a < 0 ∧ 0 < denote b))
    (hc : cancels_at_most_two a b (denote a + denote b)) :
    ∃ r, operator_add a b = .ok r ∧ well_formed r := by
  match a, b, ha, hb, hopp, hc with
  | sa :: da, sb :: db, ha, hb, hopp, hc =>
    obtain ⟨hsa, _, _, _, _, _⟩ := well_formed_facts sa da ha
    obtain ⟨hsb, _, _, _, _, _⟩ := well_formed_facts sb db hb
    have dn : ∀ ds : List Nat, denote (0 :: ds) = -(magnitude ds : Int) := fun ds => by
      simp [denote]
    have dp : ∀ ds : List Nat, denote (1 :: ds) = (magnitude ds : Int) := fun ds => by
      simp [denote]
    have wa := well_formed_positive sa da ha
    have wb := well_formed_positive sb db hb
    have hlen : max (sa :: da).length (sb :: db).length - 1 = max da.length db.length := by
      simp only [List.length_cons]
      omega
    have hlen4 : max (sa :: da).length (sb :: db).length = 4 ↔ max da.length db.length = 3 := by
      simp only [List.length_cons]
      omega
    unfold cancels_at_most_two at hc
    rw [hlen, hlen4] at hc
    rcases hsa with rfl | rfl <;> rcases hsb with rfl | rfl
    · rw [dn, dn] at hopp
      omega
    · rw [dn, dp] at hopp hc
      have hma : magnitude da ≠ 0 := by omega
      have hmb : magnitude db ≠ 0 := by omega
      have hcond : 10 ^ (max db.length da.length) ≤
          1000 * (if magnitude db < magnitude da then magnitude da - magnitude db
            else magnitude db - magnitude da) ∨
          (magnitude db = magnitude da ∧ max db.length da.length = 3) := by
        rw [Nat.max_comm db.length da.length]
        rcases hc with h | ⟨h1, h2⟩
        · left
          have e : (-(magnitude da : Int) + (magnitude db : Int)).natAbs =
              (if magnitude db < magnitude da then magnitude da - magnitude db
                else magnitude db - magnitude da) := by
            split_ifs <;> omega
          rw [e] at h
          exact h
        · exact Or.inr ⟨by omega, h2⟩
      obtain ⟨r, e1, e2⟩ := sub_magnitudes_well_formed db da wb wa hcond
      refine ⟨r.1, ?_, e2⟩
      rw [operator_add, operator_add_assign, max_depth, add_assign_depth_negative_positive 1 da db
        (nonzero_of_magnitude 1 da hma) (nonzero_of_magnitude 1 db hmb), e1]
      rfl
    · rw [dp, dn] at hopp hc
      have hma : magnitude da ≠ 0 := by omega
      have hmb : magnitude db ≠ 0 := by omega
      have hcond : 10 ^ (max da.length db.length) ≤
          1000 * (if magnitude da < magnitude db then magnitude db - magnitude da
            else magnitude da - magnitude db) ∨
          (magnitude da = magnitude db ∧ max da.length db.length = 3) := by
        rcases hc with h | ⟨h1, h2⟩
        · left
          have e : ((magnitude da : Int) + -(magnitude db : Int)).natAbs =
              (if magnitude da < magnitude db then magnitude db - magnitude da
                else magnitude da - magnitude db) := by
            split_ifs <;> omega
          rw [e] at h
          exact h
        · exact Or.inr ⟨by omega, h2⟩
      obtain ⟨r, e1, e2⟩ := sub_magnitudes_well_formed da db wa wb hcond
      refine ⟨r.1, ?_, e2⟩
      rw [operator_add, operator_add_assign, max_depth, add_assign_depth_positive_negative 1 da db
        (nonzero_of_magnitude 1 da hma) (nonzero_of_magnitude 1 db hmb), e1]
      rfl
    · rw [dp, dp] at hopp
      omega

/-- Binary `operator-` on two non-zero values of the same sign satisfying the
representation invariants yields a value satisfying them when at most two
leading digits cancel. -/
theorem operator_sub_cancel_well_formed (a b : bigint) (ha : well_formed a)
    (hb : well_formed b)
    (hsame : (0 < denote a ∧ 0 < denote b) ∨ (denote a < 0 ∧ denote b < 0))
    (hc : cancels_at_most_two a b (denote a - denote b)) :
    ∃ r, operator_sub a b = .ok r ∧ well_formed r := by
  match a, b, ha, hb, hsame, hc with
  | sa :: da, sb :: db, ha, hb, hsame, hc =>
    obtain ⟨hsa, _, _, _, _, _⟩ := well_formed_facts sa da ha
    obtain ⟨hsb, _, _, _, _, _⟩ := well_formed_facts sb db hb
    have dn : ∀ ds : List Nat, denote (0 :: ds) = -(magnitude ds : Int) := fun ds => by
      simp [denote]
    have dp : ∀ ds : List Nat, denote (1 :: ds) = (magnitude ds : Int) := fun ds => by
      simp [denote]
    have wa := well_formed_positive sa da ha
    have wb := well_formed_positive sb db hb
    have hlen : max (sa :: da).length (sb :: db).length - 1 = max da.length db.length := by
      simp only [List.length_cons]
      omega
    have hlen4 : max (sa :: da).length (sb :: db).length = 4 ↔ max da.length db.length = 3 := by
      simp only [List.length_cons]
      omega
    unfold cancels_at_most_two at hc
    rw [hlen, hlen4] at hc
    rcases hsa with rfl | rfl <;> rcases hsb with rfl | rfl
    · rw [dn, dn] at hsame hc
      have hma : magnitude da ≠ 0 := by omega
      have hmb : magnitude db ≠ 0 := by omega
      have hcond : 10 ^ (max db.length da.length) ≤
          1000 * (if magnitude db < magnitude da then magnitude da - magnitude db
            else magnitude db - magnitude da) ∨
          (magnitude db = magnitude da ∧ max db.length da.length = 3) := by
        rw [Nat.max_comm db.length da.length]
        rcases hc with h | ⟨h1, h2⟩
        · left
          have e : (-(magnitude da : Int) - -(magnitude db : Int)).natAbs =
              (if magnitude db < magnitude da then magnitude da - magnitude db
                else magnitude db - magnitude da) := by
            split_ifs <;> omega
          rw [e] at h
          exact h
        · exact Or.inr ⟨by omega, h2⟩
      obtain ⟨r, e1, e2⟩ := sub_magnitudes_well_formed db da wb wa hcond
      refine ⟨r.1, ?_, e2⟩
      rw [operator_sub, operator_sub_assign, max_depth, sub_assign_depth_negative_negative 0 da db
        (nonzero_of_magnitude 1 da hma) (nonzero_of_magnitude 1 db hmb), e1]
      rfl
    · rw [dn, dp] at hsame
      omega
    · rw [dp, dn] at hsame
      omega
    · rw [dp, dp] at hsame hc
      have hma : magnitude da ≠ 0 := by omega
      have hmb : magnitude db ≠ 0 := by omega
      have hcond : 10 ^ (max da.length db.length) ≤
          1000 * (if magnitude da < magnitude db then magnitude db - magnitude da
            else magnitude da - magnitude db) ∨
          (magnitude da = magnitude db ∧ max da.length db.length = 3) := by
        rcases hc with h | ⟨h1, h2⟩
        · left
          have e : ((magnitude da : Int) - (magnitude db : Int)).natAbs =
              (if magnitude da < magnitude db then magnitude db - magnitude da
                else magnitude da - magnitude db) := by
            split_ifs <;> omega
          rw [e] at h
          exact h
        · exact Or.inr ⟨by omega, h2⟩
      obtain ⟨r, e1, e2⟩ := sub_magnitudes_well_formed da db wa wb hcond
      refine ⟨r.1, ?_, e2⟩
      rw [operator_sub, operator_sub_assign, max_depth, sub_assign_depth_magnitudes 2 da db
        (nonzero_of_magnitude 1 da hma) (nonzero_of_magnitude 1 db hmb), e1]
      rfl

/-- C21 (amended): for operands a and b satisfying the representation
invariants, `-a` satisfies them when a is not zero; `a + b` satisfies them
when a and b have the same sign, or one of them is zero, or at most two
leading digits cancel; `a - b` satisfies them when a and b have opposite
signs, or exactly one of them is zero, or at most two leading digits cancel;
and `a * b` satisfies them when both are stored in at most 32767 entries. -/
theorem c21_invariants_preserved (a b : bigint) (ha : well_formed a) (hb : well_formed b) :
    (denote a ≠ 0 → ∃ r, operator_neg a = .ok r ∧ well_formed r) ∧
    ((0 ≤ denote a ∧ 0 ≤ denote b) ∨ (denote a ≤ 0 ∧ denote b ≤ 0) ∨
        cancels_at_most_two a b (denote a + denote b) →
      ∃ r, operator_add a b = .ok r ∧ well_formed r) ∧
    ((0 ≤ denote a ∧ denote b < 0) ∨ (denote a ≤ 0 ∧ 0 < denote b) ∨
        (denote a ≠ 0 ∧ denote b = 0) ∨ cancels_at_most_two a b (denote a - denote b) →
      ∃ r, operator_sub a b = .ok r ∧ well_formed r) ∧
    (a.length ≤ 32767 → b.length ≤ 32767 → ∃ r, operator_mul a b = .ok r ∧ well_formed r) := by
  have ca := well_formed_eq_canonical a ha
  have cb := well_formed_eq_canonical b hb
  refine ⟨fun h => ?_, fun h => ?_, fun h => ?_, fun h1 h2 => ?_⟩
  · exact ⟨_, by rw [ca, operator_neg_canonical _ h], canonical_well_formed _⟩
  · by_cases hs : (0 ≤ denote a ∧ 0 ≤ denote b) ∨ (denote a ≤ 0 ∧ denote b ≤ 0)
    · exact ⟨_, by rw [ca, cb, operator_add_same_sign _ _ hs], canonical_well_formed _⟩
    · have hc : cancels_at_most_two a b (denote a + denote b) := by
        rcases h with h | h | h
        · exact absurd (Or.inl h) hs
        · exact absurd (Or.inr h) hs
        · exact h
      exact operator_add_cancel_well_formed a b ha hb (by omega) hc
  · by_cases hs : (0 ≤ denote a ∧ denote b < 0) ∨ (denote a ≤ 0 ∧ 0 < denote b) ∨
        (denote a ≠ 0 ∧ denote b = 0)
    · exact ⟨_, by rw [ca, cb, operator_sub_opposite_sign _ _ hs], canonical_well_formed _⟩
    · have hc : cancels_at_most_two a b (denote a - denote b) := by
        rcases h with h | h | h | h
        · exact absurd (Or.inl h) hs
        · exact absurd (Or.inr (Or.inl h)) hs
        · exact absurd (Or.inr (Or.inr h)) hs
        · exact h
      by_cases hz : denote a = 0 ∧ denote b = 0
      · exfalso
        obtain ⟨h1, h2⟩ := hz
        rw [h1] at ca
        rw [h2] at cb
        rw [canonical_zero] at ca cb
        rw [ca, cb] at hc
        unfold cancels_at_most_two at hc
        revert hc
        decide
      · exact operator_sub_cancel_well_formed a b ha hb (by omega) hc
  · rw [ca] at h1
    rw [cb] at h2
    exact ⟨_, by rw [ca, cb, operator_mul_canonical _ _ h1 h2], canonical_well_formed _⟩

/-- A concrete instance: a = 200 and b = 250, the difference being -50. -/
theorem c21_invariants_preserved_witness :
    well_formed [1, 2, 0, 0] ∧ well_formed [1, 2, 5, 0] ∧
    (∃ r, operator_neg [1, 2, 0, 0] = .ok r ∧ well_formed r) ∧
    (∃ r, operator_add [1, 2, 0, 0] [1, 2, 5, 0] = .ok r ∧ well_formed r) ∧
    (∃ r, operator_sub [1, 2, 0, 0] [1, 2, 5, 0] = .ok r ∧ well_formed r) ∧
    (∃ r, operator_mul [1, 2, 0, 0] [1, 2, 5, 0] = .ok r ∧ well_formed r) :=
  ⟨by decide, by decide,
    (c21_invariants_preserved [1, 2, 0, 0] [1, 2, 5, 0] (by decide) (by decide)).1 (by decide),
    (c21_invariants_preserved [1, 2, 0, 0] [1, 2, 5, 0] (by decide) (by decide)).2.1
      (Or.inl ⟨by decide, by decide⟩),
    (c21_invariants_preserved [1, 2, 0, 0] [1, 2, 5, 0] (by decide) (by decide)).2.2.1
      (Or.inr (Or.inr (Or.inr (Or.inl (by decide))))),
    (c21_invariants_preserved [1, 2, 0, 0] [1, 2, 5, 0] (by decide) (by decide)).2.2.2
      (by decide) (by decide)⟩

end BigInt
